import Mathlib

/-!
Verification of the mass-market network-schema state-commitment engine.

The development shallowly embeds the Python sources of the repository:

* `massmarket/hamt.py` — the HAMT (`HashState`, `Node`, `Trie`)
* `massmarket/cbor_encoder.py` — the canonical CBOR encoder (`cbor2`, canonical mode)
* `massmarket/cbor/patch.py` — `Patch`, `PatchPath`, `PatchSetHeader`
* `massmarket/cbor/listing.py` — `ListingStockStatus`
* `massmarket/__init__.py` — `get_root_hash_of_patches`
* `massmarket_hash_event/mmr/algorithms.py` and `mmr/db.py` — the MMR

Machine integers are modelled as `Nat` with explicit truncation where Python
performs 32/64-bit arithmetic (Python ints are unbounded, so most code needs
none).  Byte strings are `List Nat` with every element `< 256`.  Fallible
constructors return `Except String` mirroring `raise ValueError`.
-/

set_option maxHeartbeats 1000000
set_option maxRecDepth 10000

abbrev Bytes := List Nat

/-! ## SHA-256 (hashlib.sha256), executable, bytes to 32 bytes -/

namespace Sha256

def mask32 (n : Nat) : Nat := n &&& 0xffffffff

def rotr (r x : Nat) : Nat := mask32 ((x >>> r) ||| (x <<< (32 - r)))

def bsig0 (x : Nat) : Nat := (rotr 2 x) ^^^ (rotr 13 x) ^^^ (rotr 22 x)

def bsig1 (x : Nat) : Nat := (rotr 6 x) ^^^ (rotr 11 x) ^^^ (rotr 25 x)

def ssig0 (x : Nat) : Nat := (rotr 7 x) ^^^ (rotr 18 x) ^^^ (x >>> 3)

def ssig1 (x : Nat) : Nat := (rotr 17 x) ^^^ (rotr 19 x) ^^^ (x >>> 10)

def ch (x y z : Nat) : Nat := (x &&& y) ^^^ ((x ^^^ 0xffffffff) &&& z)

def maj (x y z : Nat) : Nat := (x &&& y) ^^^ (x &&& z) ^^^ (y &&& z)

def K : List Nat :=
  [1116352408, 1899447441, 3049323471, 3921009573, 961987163,
   1508970993, 2453635748, 2870763221, 3624381080, 310598401,
   607225278, 1426881987, 1925078388, 2162078206, 2614888103,
   3248222580, 3835390401, 4022224774, 264347078, 604807628,
   770255983, 1249150122, 1555081692, 1996064986, 2554220882,
   2821834349, 2952996808, 3210313671, 3336571891, 3584528711,
   113926993, 338241895, 666307205, 773529912, 1294757372,
   1396182291, 1695183700, 1986661051, 2177026350, 2456956037,
   2730485921, 2820302411, 3259730800, 3345764771, 3516065817,
   3600352804, 4094571909, 275423344, 430227734, 506948616,
   659060556, 883997877, 958139571, 1322822218, 1537002063,
   1747873779, 1955562222, 2024104815, 2227730452, 2361852424,
   2428436474, 2756734187, 3204031479, 3329325298]

def initState : List Nat :=
  [1779033703, 3144134277, 1013904242, 2773480762,
   1359893119, 2600822924, 528734635, 1541459225]

/-- Big-endian bytes of `n`, `w` bytes wide (`int.to_bytes(w, "big")`). -/
def beBytes (w n : Nat) : Bytes :=
  match w with
  | 0 => []
  | w + 1 => beBytes w (n >>> 8) ++ [n &&& 0xff]

/-- Group a byte list into big-endian 32-bit words. -/
def toWords : Bytes → List Nat
  | b0 :: b1 :: b2 :: b3 :: rest =>
      ((b0 <<< 24) ||| (b1 <<< 16) ||| (b2 <<< 8) ||| b3) :: toWords rest
  | _ => []

/-- Message-schedule extension: append `n` more words to `ws`. -/
def extendW (ws : List Nat) : Nat → List Nat
  | 0 => ws
  | n + 1 =>
      let m := ws.length
      let nw := mask32 (ssig1 (ws.getD (m - 2) 0) + ws.getD (m - 7) 0 +
                        ssig0 (ws.getD (m - 15) 0) + ws.getD (m - 16) 0)
      extendW (ws ++ [nw]) n

def round (st : List Nat) (kw : Nat × Nat) : List Nat :=
  match st with
  | [a, b, c, d, e, f, g, h] =>
      let t1 := mask32 (h + bsig1 e + ch e f g + kw.1 + kw.2)
      let t2 := mask32 (bsig0 a + maj a b c)
      [mask32 (t1 + t2), a, b, c, mask32 (d + t1), e, f, g]
  | st => st

def compressBlock (st : List Nat) (block : Bytes) : List Nat :=
  let ws := extendW (toWords block) 48
  let fin := (K.zip ws).foldl round st
  (st.zip fin).map (fun p => mask32 (p.1 + p.2))

def blocksN : Nat → Bytes → List Bytes
  | 0, _ => []
  | n + 1, bs => if bs.isEmpty then [] else bs.take 64 :: blocksN n (bs.drop 64)

def blocks (bs : Bytes) : List Bytes := blocksN bs.length bs

def pad (msg : Bytes) : Bytes :=
  let l := msg.length
  let zeros := (119 - l % 64) % 64
  msg ++ [0x80] ++ List.replicate zeros 0 ++ beBytes 8 (l * 8)

def sha256 (msg : Bytes) : Bytes :=
  let fin := (blocks (pad msg)).foldl compressBlock initState
  fin.flatMap (beBytes 4)

end Sha256

export Sha256 (sha256)

/-! ## CBOR values

Python values flowing through `cbor2` are modelled by `Cbor`.  Python `None`
is `Cbor.null` (the two are the very same value in the source, so
`Optional[V]` with `V` a CBOR value collapses onto `Cbor`).  Python `str`
is carried as its UTF-8 bytes, `bytes` as a byte list, `dict` as a pair
list in insertion order, `int` (non-negative) as `Nat`. -/

mutual
inductive Cbor where
  | null
  | cb (b : Bool)
  | cuint (n : Nat)
  | cbytes (bs : Bytes)
  | ctext (s : Bytes)
  | carr (xs : CborList)
  | cmap (kvs : CborPairs)
deriving DecidableEq
inductive CborList where
  | nil
  | cons (x : Cbor) (xs : CborList)
deriving DecidableEq
inductive CborPairs where
  | nil
  | cons (k : Cbor) (v : Cbor) (rest : CborPairs)
deriving DecidableEq
end

def CborList.length : CborList → Nat
  | .nil => 0
  | .cons _ xs => xs.length + 1

def CborPairs.length : CborPairs → Nat
  | .nil => 0
  | .cons _ _ rest => rest.length + 1

def CborList.toList : CborList → List Cbor
  | .nil => []
  | .cons x xs => x :: xs.toList

def CborPairs.toList : CborPairs → List (Cbor × Cbor)
  | .nil => []
  | .cons k v rest => (k, v) :: rest.toList

def CborList.ofList : List Cbor → CborList
  | [] => .nil
  | x :: xs => .cons x (ofList xs)

def CborPairs.ofList : List (Cbor × Cbor) → CborPairs
  | [] => .nil
  | (k, v) :: rest => .cons k v (ofList rest)

/-- Minimal big-endian bytes of `n` (empty for `0`); the magnitude bytes
cbor2 uses for a positive bignum.  The first argument is fuel; `n` itself
is always enough of it. -/
def natBytesBEGo : Nat → Nat → Bytes
  | 0, _ => []
  | fuel + 1, n => if n = 0 then [] else natBytesBEGo fuel (n >>> 8) ++ [n &&& 0xff]

def natBytesBE (n : Nat) : Bytes := natBytesBEGo n n

def bytesToNatBE (bs : Bytes) : Nat := bs.foldl (fun acc b => acc * 256 + b) 0

/-- CBOR head for major type `m` with argument `arg`, shortest form
(canonical integer encoding). -/
def encodeHead (m arg : Nat) : Bytes :=
  if arg < 24 then [(m <<< 5) ||| arg]
  else if arg < 0x100 then [(m <<< 5) ||| 24, arg]
  else if arg < 0x10000 then ((m <<< 5) ||| 25) :: Sha256.beBytes 2 arg
  else if arg < 0x100000000 then ((m <<< 5) ||| 26) :: Sha256.beBytes 4 arg
  else ((m <<< 5) ||| 27) :: Sha256.beBytes 8 arg

/-- Strict bytewise lexicographic order on byte strings. -/
def bytesLexLt : Bytes → Bytes → Bool
  | [], [] => false
  | [], _ :: _ => true
  | _ :: _, [] => false
  | a :: as, b :: bs => if a < b then true else if a = b then bytesLexLt as bs else false

/-- Key order of cbor2's canonical mode: shorter encoded key first, ties
bytewise lexicographic. -/
def canonKeyLt (a b : Bytes) : Bool :=
  if a.length < b.length then true
  else if a.length = b.length then bytesLexLt a b
  else false

def insertPairSorted (p : Bytes × Bytes) : List (Bytes × Bytes) → List (Bytes × Bytes)
  | [] => [p]
  | q :: rest => if canonKeyLt q.1 p.1 then q :: insertPairSorted p rest else p :: q :: rest

/-- Sort encoded map entries by canonical key order (insertion sort, stable). -/
def sortPairsCanon : List (Bytes × Bytes) → List (Bytes × Bytes)
  | [] => []
  | p :: rest => insertPairSorted p (sortPairsCanon rest)

mutual
/-- Canonical CBOR encoding, mirroring `cbor_encode` of
`massmarket/cbor_encoder.py` (cbor2 `canonical=True`): shortest integer
heads, definite lengths, map keys sorted by their encoded bytes
(length first, then bytewise), integers `≥ 2^64` as tag-2 bignums. -/
def cbor_encode : Cbor → Bytes
  | .null => [0xf6]
  | .cb false => [0xf4]
  | .cb true => [0xf5]
  | .cuint n =>
      if n < 0x10000000000000000 then encodeHead 0 n
      else 0xc2 :: (encodeHead 2 (natBytesBE n).length ++ natBytesBE n)
  | .cbytes bs => encodeHead 2 bs.length ++ bs
  | .ctext s => encodeHead 3 s.length ++ s
  | .carr xs => encodeHead 4 xs.length ++ encodeItems xs
  | .cmap kvs =>
      encodeHead 5 kvs.length ++
        (sortPairsCanon (encodePairs kvs)).foldr (fun p acc => p.1 ++ p.2 ++ acc) []
def encodeItems : CborList → Bytes
  | .nil => []
  | .cons x xs => cbor_encode x ++ encodeItems xs
def encodePairs : CborPairs → List (Bytes × Bytes)
  | .nil => []
  | .cons k v rest => (cbor_encode k, cbor_encode v) :: encodePairs rest
end

/-- Reads the argument of a CBOR head whose additional-information is
`info`, accepting the longer-than-necessary forms `cbor2.loads` accepts. -/
def decodeArg (info : Nat) (bs : Bytes) : Option (Nat × Bytes) :=
  if info < 24 then some (info, bs)
  else if info = 24 then
    match bs with
    | b :: rest => some (b, rest)
    | [] => none
  else if info = 25 then
    match bs with
    | b0 :: b1 :: rest => some ((b0 <<< 8) ||| b1, rest)
    | _ => none
  else if info = 26 then
    match bs with
    | b0 :: b1 :: b2 :: b3 :: rest =>
        some ((b0 <<< 24) ||| (b1 <<< 16) ||| (b2 <<< 8) ||| b3, rest)
    | _ => none
  else if info = 27 then
    match bs with
    | b0 :: b1 :: b2 :: b3 :: b4 :: b5 :: b6 :: b7 :: rest =>
        some (bytesToNatBE [b0, b1, b2, b3, b4, b5, b6, b7], rest)
    | _ => none
  else none

def splitAtOpt (n : Nat) (bs : Bytes) : Option (Bytes × Bytes) :=
  if n ≤ bs.length then some (bs.take n, bs.drop n) else none

def decItems (dv : Bytes → Option (Cbor × Bytes)) : Nat → Bytes → Option (CborList × Bytes)
  | 0, bs => some (.nil, bs)
  | n + 1, bs =>
      match dv bs with
      | none => none
      | some (v, r) =>
          match decItems dv n r with
          | none => none
          | some (xs, r2) => some (.cons v xs, r2)

def decPairsGo (dv : Bytes → Option (Cbor × Bytes)) : Nat → Bytes → Option (CborPairs × Bytes)
  | 0, bs => some (.nil, bs)
  | n + 1, bs =>
      match dv bs with
      | none => none
      | some (k, r) =>
          match dv r with
          | none => none
          | some (v, r2) =>
              match decPairsGo dv n r2 with
              | none => none
              | some (kvs, r3) => some (.cons k v kvs, r3)

/-- One-value CBOR decoder with a structural nesting-depth fuel; models the
subset of `cbor2.loads` the repository feeds it (no floats, no indefinite
lengths).  Map entries are kept in wire order. -/
def decodeVal : Nat → Bytes → Option (Cbor × Bytes)
  | 0, _ => none
  | fuel + 1, bs =>
      match bs with
      | [] => none
      | ib :: rest =>
          if ib = 0xf6 then some (.null, rest)
          else if ib = 0xf4 then some (.cb false, rest)
          else if ib = 0xf5 then some (.cb true, rest)
          else if ib = 0xc2 then
            match decodeVal fuel rest with
            | some (.cbytes bs2, r) => some (.cuint (bytesToNatBE bs2), r)
            | _ => none
          else
            let m := ib >>> 5
            let info := ib &&& 31
            match decodeArg info rest with
            | none => none
            | some (arg, r) =>
                if m = 0 then some (.cuint arg, r)
                else if m = 2 then
                  match splitAtOpt arg r with
                  | none => none
                  | some (payload, r2) => some (.cbytes payload, r2)
                else if m = 3 then
                  match splitAtOpt arg r with
                  | none => none
                  | some (payload, r2) => some (.ctext payload, r2)
                else if m = 4 then
                  match decItems (decodeVal fuel) arg r with
                  | none => none
                  | some (xs, r2) => some (.carr xs, r2)
                else if m = 5 then
                  match decPairsGo (decodeVal fuel) arg r with
                  | none => none
                  | some (kvs, r2) => some (.cmap kvs, r2)
                else none

/-- cbor2.loads: decode one value off the front, ignore what follows. -/
def cbor_loads (bs : Bytes) : Option Cbor :=
  match decodeVal (bs.length + 1) bs with
  | some (v, _) => some v
  | none => none

mutual
/-- Nesting depth of a value, the fuel `decodeVal` consumes. -/
def Cbor.depth : Cbor → Nat
  | .carr xs => xs.depthItems + 1
  | .cmap kvs => kvs.depthPairs + 1
  | .cuint n => if n < 0x10000000000000000 then 1 else 2
  | _ => 1
def CborList.depthItems : CborList → Nat
  | .nil => 0
  | .cons x xs => max (Cbor.depth x) xs.depthItems
def CborPairs.depthPairs : CborPairs → Nat
  | .nil => 0
  | .cons k v rest => max (max (Cbor.depth k) (Cbor.depth v)) rest.depthPairs
end

mutual
/-- The canonical-form values: every integer head argument fits 64 bits
and every (nested) map is already in cbor2's canonical key order.  These
are exactly the values whose encoding `cbor2.loads` maps back to the
value. -/
def Cbor.canonB : Cbor → Bool
  | .null => true
  | .cb _ => true
  | .cuint n => decide ((natBytesBE n).length < 0x10000000000000000)
  | .cbytes bs => decide (bs.length < 0x10000000000000000)
  | .ctext s => decide (s.length < 0x10000000000000000)
  | .carr xs => decide (xs.length < 0x10000000000000000) && xs.canonItems
  | .cmap kvs => decide (kvs.length < 0x10000000000000000) && kvs.canonPairs &&
      decide (sortPairsCanon (encodePairs kvs) = encodePairs kvs)
def CborList.canonItems : CborList → Bool
  | .nil => true
  | .cons x xs => Cbor.canonB x && xs.canonItems
def CborPairs.canonPairs : CborPairs → Bool
  | .nil => true
  | .cons k v rest => Cbor.canonB k && Cbor.canonB v && rest.canonPairs
end

/-! ## HAMT (massmarket/hamt.py)

`Node.insert`/`find`/`delete` in the source recurse consuming 6 bits of the
key hash per level and switch to the fallback path once
`hs.consumed >= MAX_DEPTH * BITS_PER_STEP`.  The embedding replaces that
guard by a structural fuel argument, with `consumed`
= `(MAX_DEPTH - fuel) * BITS_PER_STEP` at every call: fuel `0` is exactly
the `consumed >= 252` fallback.  In-place mutation becomes returning the
updated node. -/

namespace Hamt

def BITS_PER_STEP : Nat := 6

def MAX_DEPTH : Nat := 256 / BITS_PER_STEP

/-- bin(n).count("1") with a structural fuel (`n` bounds the bit count). -/
def popcountGo : Nat → Nat → Nat
  | 0, _ => 0
  | fuel + 1, n => if n = 0 then 0 else n % 2 + popcountGo fuel (n / 2)

def popcount (n : Nat) : Nat := popcountGo n n

/-- count_ones from the source: popcount of `n` masked below bit `below`. -/
def count_ones (n below : Nat) : Nat := popcount (n &&& ((1 <<< below) - 1))

/-- HashState.next: the 6-bit chunk of the 32-byte `hash_buf` starting at
bit offset `consumed` (big-endian bit order within bytes). -/
def hsNext (hash_buf : Bytes) (consumed : Nat) : Nat :=
  let byte_offset := consumed / 8
  let bit_in_byte := consumed % 8
  let hi := if byte_offset < 32 then (hash_buf.getD byte_offset 0) <<< 8 else 0
  let next16 := if byte_offset + 1 < 32 then hi ||| hash_buf.getD (byte_offset + 1) 0 else hi
  let shift := 16 - BITS_PER_STEP - bit_in_byte
  (next16 >>> shift) &&& ((1 <<< BITS_PER_STEP) - 1)

/-- The chunk the HashState of `key` yields once `consumed` bits are used. -/
def keyChunk (key : Bytes) (consumed : Nat) : Nat := hsNext (sha256 key) consumed

mutual
inductive Node where
  | mk (bitmap : Nat) (entries : List Entry) (hcache : Option Bytes) : Node
inductive Entry where
  | mk (key : Option Bytes) (value : Cbor) (child : Option Node) : Entry
end

def Node.bitmap : Node → Nat
  | .mk bm _ _ => bm

def Node.entries : Node → List Entry
  | .mk _ es _ => es

def Node.hcache : Node → Option Bytes
  | .mk _ _ hc => hc

def Entry.key : Entry → Option Bytes
  | .mk k _ _ => k

def Entry.value : Entry → Cbor
  | .mk _ v _ => v

def Entry.child : Entry → Option Node
  | .mk _ _ c => c

/-- Python `bitmap &= ~(1 << idx)` on a nonnegative unbounded int: clear
bit `idx`. -/
def clearBit (bm idx : Nat) : Nat :=
  ((bm >>> (idx + 1)) <<< (idx + 1)) ||| (bm &&& ((1 <<< idx) - 1))

/-- Node.insert_fallback: linear scan, overwrite first key match in place
(without touching the hash cache), otherwise append; returns the
`inserted` flag together with the new entries. -/
def insert_fallback (key : Bytes) (value : Cbor) : List Entry → Bool × List Entry
  | [] => (true, [.mk (some key) value none])
  | e :: rest =>
      if e.key = some key then (false, .mk e.key value e.child :: rest)
      else
        let (b, rest') := insert_fallback key value rest
        (b, e :: rest')

mutual
/-- Node.find_fallback: recursive linear scan returning the Python tuple
`(value, found)`. -/
def find_fallback : Node → Bytes → Option Cbor × Bool
  | .mk _ es _, key => find_fallback_list es key
def find_fallback_list : List Entry → Bytes → Option Cbor × Bool
  | [], _ => (none, false)
  | .mk k v none :: rest, key =>
      if k = some key then (some v, true)
      else find_fallback_list rest key
  | .mk _ _ (some c) :: rest, key =>
      let (v, found) := find_fallback c key
      if found then (v, true) else find_fallback_list rest key
end

/-- Node.delete_fallback: remove the first leaf whose key matches. -/
def delete_fallback (key : Bytes) : List Entry → Bool × List Entry
  | [] => (false, [])
  | e :: rest =>
      match e.child with
      | none =>
          if e.key = some key then (true, rest)
          else
            let (b, rest') := delete_fallback key rest
            (b, e :: rest')
      | some _ =>
          let (b, rest') := delete_fallback key rest
          (b, e :: rest')

/-- Node.insert.  Fuel `0` is the `consumed >= MAX_DEPTH * BITS_PER_STEP`
fallback.  In the source the out-of-range `entries[pos]` would raise; that
is unreachable under the packing invariant and modelled as a no-op. -/
def insertAux : Nat → Bytes → Cbor → Nat → Node → Bool × Node
  | 0, key, value, _, .mk bm es hc =>
      let (inserted, es') := insert_fallback key value es
      (inserted, .mk bm es' (if inserted then none else hc))
  | fuel + 1, key, value, consumed, .mk bm es hc =>
      let idx := keyChunk key consumed
      let pos := count_ones bm idx
      if bm &&& (1 <<< idx) = 0 then
        (true, .mk (bm ||| (1 <<< idx)) (es.insertIdx pos (.mk (some key) value none)) none)
      else
        match es.get? pos with
        | none => (false, .mk bm es hc)
        | some e =>
            match e.child with
            | none =>
                if e.key = some key then
                  (false, .mk bm (es.set pos (.mk e.key value none)) none)
                else
                  let (_, b1) := insertAux fuel (e.key.getD []) e.value
                      (consumed + BITS_PER_STEP) (.mk 0 [] none)
                  let (_, b2) := insertAux fuel key value (consumed + BITS_PER_STEP) b1
                  (true, .mk bm (es.set pos (.mk none .null (some b2))) none)
            | some child =>
                let (inserted, child') := insertAux fuel key value (consumed + BITS_PER_STEP) child
                let es' := es.set pos (.mk e.key e.value (some child'))
                (inserted, .mk bm es' (if inserted then none else hc))

/-- Result of Node.find: either a regular value (absent is Python `None`,
i.e. `Cbor.null`) or the `(value, found)` tuple leaking out of
`find_fallback`. -/
inductive FindRes where
  | regular (v : Cbor)
  | fb (v : Option Cbor) (ok : Bool)
deriving DecidableEq

/-- Node.find (the while loop, one fuel per level). -/
def findAux : Nat → Bytes → Nat → Node → FindRes
  | 0, key, _, n =>
      let (v, ok) := find_fallback n key
      .fb v ok
  | fuel + 1, key, consumed, .mk bm es _ =>
      let idx := keyChunk key consumed
      if bm &&& (1 <<< idx) = 0 then .regular .null
      else
        let pos := count_ones bm idx
        match es.get? pos with
        | none => .regular .null
        | some e =>
            match e.child with
            | none => if e.key = some key then .regular e.value else .regular .null
            | some child => findAux fuel key (consumed + BITS_PER_STEP) child

/-- Node.delete.  The source raises on an out-of-range `pos`; unreachable
under the packing invariant, modelled as a no-op. -/
def deleteAux : Nat → Bytes → Nat → Node → Bool × Node
  | 0, key, _, .mk bm es hc =>
      let (deleted, es') := delete_fallback key es
      (deleted, .mk bm es' (if deleted then none else hc))
  | fuel + 1, key, consumed, .mk bm es hc =>
      let idx := keyChunk key consumed
      if bm &&& (1 <<< idx) = 0 then (false, .mk bm es hc)
      else
        let pos := count_ones bm idx
        match es.get? pos with
        | none => (false, .mk bm es hc)
        | some e =>
            match e.child with
            | none =>
                if e.key = some key then
                  (true, .mk (clearBit bm idx) (es.eraseIdx pos) none)
                else (false, .mk bm es hc)
            | some child =>
                let (deleted, child') := deleteAux fuel key (consumed + BITS_PER_STEP) child
                if deleted then
                  match child'.entries with
                  | [] => (true, .mk (clearBit bm idx) (es.eraseIdx pos) none)
                  | [ce] =>
                      match ce.child with
                      | none => (true, .mk bm (es.set pos (.mk ce.key ce.value none)) none)
                      | some _ =>
                          (true, .mk bm (es.set pos (.mk e.key e.value (some child'))) none)
                  | _ :: _ :: _ =>
                      (true, .mk bm (es.set pos (.mk e.key e.value (some child'))) none)
                else (false, .mk bm (es.set pos (.mk e.key e.value (some child'))) hc)

mutual
/-- Leaf key/value pairs of a node in iteration (`all`) order. -/
def Node.keysVals : Node → List (Bytes × Cbor)
  | .mk _ es _ => entriesKeysVals es
def entriesKeysVals : List Entry → List (Bytes × Cbor)
  | [] => []
  | .mk k v none :: rest => (k.getD [], v) :: entriesKeysVals rest
  | .mk _ _ (some c) :: rest => Node.keysVals c ++ entriesKeysVals rest
end

def Node.keys (n : Node) : List Bytes := n.keysVals.map (·.1)

mutual
/-- Node.all with a callback, early stop on `false`. -/
def Node.allGo : Node → (Bytes → Cbor → Bool) → Bool
  | .mk _ es _, fn => entriesAllGo es fn
def entriesAllGo : List Entry → (Bytes → Cbor → Bool) → Bool
  | [], _ => true
  | .mk k v none :: rest, fn =>
      if fn (k.getD []) v then entriesAllGo rest fn else false
  | .mk _ _ (some c) :: rest, fn =>
      if Node.allGo c fn then entriesAllGo rest fn else false
end

mutual
/-- Node.hash: memoised; returns the digest and the node with caches
filled in. -/
def Node.hashM : Node → Bytes × Node
  | .mk bm es (some h) => (h, .mk bm es (some h))
  | .mk bm es none =>
      let (stream, es') := entriesHashStream es
      let d := sha256 stream
      (d, .mk bm es' (some d))
def entriesHashStream : List Entry → Bytes × List Entry
  | [] => ([], [])
  | e :: rest =>
      let (s1, e') := entryHashStream e
      let (s2, rest') := entriesHashStream rest
      (s1 ++ s2, e' :: rest')
def entryHashStream : Entry → Bytes × Entry
  | .mk k v none => (k.getD [] ++ cbor_encode v, .mk k v none)
  | .mk k v (some c) =>
      let (h, c') := Node.hashM c
      (h, .mk k v (some c'))
end

mutual
/-- Content hash recomputed from scratch, ignoring every cache: what
`Node.hash` promises to return. -/
def Node.hashR : Node → Bytes
  | .mk _ es _ => sha256 (entriesStreamR es)
def entriesStreamR : List Entry → Bytes
  | [] => []
  | .mk k v none :: rest => (k.getD [] ++ cbor_encode v) ++ entriesStreamR rest
  | .mk _ _ (some c) :: rest => Node.hashR c ++ entriesStreamR rest
end

mutual
/-- deep_copy_node: structural copy; the fresh nodes carry no hash cache. -/
def deep_copy_node : Node → Node
  | .mk bm es _ => .mk bm (deepCopyEntries es) none
def deepCopyEntries : List Entry → List Entry
  | [] => []
  | e :: rest => deepCopyEntry e :: deepCopyEntries rest
def deepCopyEntry : Entry → Entry
  | .mk k v none => .mk k v none
  | .mk k v (some c) => .mk k v (some (deep_copy_node c))
end

inductive KeyType where
  | kint (n : Nat)
  | kstr (s : Bytes)
  | kbytes (b : Bytes)

/-- encode_key: u64 big-endian / UTF-8 / passthrough. -/
def encode_key : KeyType → Bytes
  | .kint n => Sha256.beBytes 8 n
  | .kstr s => s
  | .kbytes b => b

structure Trie where
  root : Option Node
  size : Nat

def Trie.new : Trie := ⟨some (.mk 0 [] none), 0⟩

def Trie.insert (t : Trie) (key : KeyType) (value : Cbor) : Trie :=
  let r := t.root.getD (.mk 0 [] none)
  let k := encode_key key
  let (inserted, r') := insertAux MAX_DEPTH k value 0 r
  ⟨some r', if inserted then t.size + 1 else t.size⟩

def Trie.get (t : Trie) (key : KeyType) : FindRes :=
  match t.root with
  | none => .regular .null
  | some r => findAux MAX_DEPTH (encode_key key) 0 r

def Trie.has (t : Trie) (key : KeyType) : Bool :=
  match t.get key with
  | .regular v => if v = .null then false else true
  | .fb _ _ => true

def Trie.delete (t : Trie) (key : KeyType) : Trie :=
  match t.root with
  | none => t
  | some r =>
      let (deleted, r') := deleteAux MAX_DEPTH (encode_key key) 0 r
      ⟨some r', if deleted then t.size - 1 else t.size⟩

def Trie.hash (t : Trie) : Bytes × Trie :=
  match t.root with
  | none => (sha256 [], t)
  | some r =>
      let (h, r') := r.hashM
      (h, ⟨some r', t.size⟩)

def Trie.copy (t : Trie) : Trie := ⟨t.root.map deep_copy_node, t.size⟩

/-- Key/value pairs in the order `Trie.all` visits them. -/
def Trie.visits (t : Trie) : List (Bytes × Cbor) :=
  match t.root with
  | none => []
  | some r => r.keysVals

/-! ### Invariants and specification-side artefacts for the HAMT -/

/-- First-match association lookup: the unique live binding once keys are
pairwise distinct. -/
def assocGet : List (Bytes × Cbor) → Bytes → Option Cbor
  | [], _ => none
  | (k0, v0) :: rest, k => if k0 = k then some v0 else assocGet rest k

def assocSet : List (Bytes × Cbor) → Bytes → Cbor → List (Bytes × Cbor)
  | [], k, v => [(k, v)]
  | (k0, v0) :: rest, k, v =>
      if k0 = k then (k0, v) :: rest else (k0, v0) :: assocSet rest k v

def assocDel : List (Bytes × Cbor) → Bytes → List (Bytes × Cbor)
  | [], _ => []
  | (k0, v0) :: rest, k => if k0 = k then rest else (k0, v0) :: assocDel rest k

inductive TrieOp where
  | ins (k : Bytes) (v : Cbor)
  | del (k : Bytes)

def Trie.runOps (t : Trie) : List TrieOp → Trie
  | [] => t
  | .ins k v :: rest => Trie.runOps (t.insert (.kbytes k) v) rest
  | .del k :: rest => Trie.runOps (t.delete (.kbytes k)) rest

/-- Reference semantics: an association list updated per operation. -/
def specStep (m : List (Bytes × Cbor)) : TrieOp → List (Bytes × Cbor)
  | .ins k v => assocSet m k v
  | .del k => assocDel m k

def specRun (m : List (Bytes × Cbor)) (ops : List TrieOp) : List (Bytes × Cbor) :=
  ops.foldl specStep m

def opKey : TrieOp → Bytes
  | .ins k _ => k
  | .del k => k

/-- Scanning a reversed operation list, the first operation touching `k`
decides: an insert yields its value, a delete absence. -/
def firstTouch : List TrieOp → Bytes → Option Cbor
  | [], _ => none
  | .ins k0 v :: rest, k => if k0 = k then some v else firstTouch rest k
  | .del k0 :: rest, k => if k0 = k then none else firstTouch rest k

def lastWrite (ops : List TrieOp) (k : Bytes) : Option Cbor := firstTouch ops.reverse k

/-- The 42 six-bit path chunks of a key. -/
def chunkSeq (k : Bytes) : List Nat :=
  (List.range MAX_DEPTH).map fun i => keyChunk k (BITS_PER_STEP * i)

/-- Keys agreeing on every 6-bit chunk taken before `consumed` bits. -/
def AgreeUpto (consumed : Nat) (k1 k2 : Bytes) : Prop :=
  ∀ c, c < consumed → c % BITS_PER_STEP = 0 → keyChunk k1 c = keyChunk k2 c

/-- The key/value pairs one entry contributes to the iteration. -/
def entryKVs : Entry → List (Bytes × Cbor)
  | .mk k v none => [(k.getD [], v)]
  | .mk _ _ (some c) => c.keysVals

/-- The 64 slots a `(bitmap, entries)` pair packs, LSB first. -/
def unpack : Nat → Nat → List Entry → List (Option Entry)
  | 0, _, _ => []
  | w + 1, bm, es =>
      if bm % 2 = 1 then es.head? :: unpack w (bm / 2) es.tail
      else none :: unpack w (bm / 2) es

/-- Structural well-formedness at a level: the packed-array shape, each
leaf in the slot its chunk selects, each branch child well-formed one
level deeper with all its keys selecting this slot and at least two keys.
Fuel `0` is the collision-fallback level: a flat list of leaves with
pairwise distinct keys. -/
def NodeWF : Nat → Nat → Node → Prop
  | 0, _, n =>
      (∀ e ∈ n.entries, e.child = none ∧ e.key ≠ none) ∧
      n.entries.Pairwise (fun a b => a.key ≠ b.key)
  | fuel + 1, consumed, n =>
      n.bitmap < 2 ^ 64 ∧
      n.entries.length = popcount n.bitmap ∧
      ∀ idx e, (unpack 64 n.bitmap n.entries).getD idx none = some e →
        match e.child with
        | none => ∃ k, e.key = some k ∧ keyChunk k consumed = idx
        | some c => e.key = none ∧ NodeWF fuel (consumed + BITS_PER_STEP) c ∧
            (∀ k ∈ c.keys, keyChunk k consumed = idx) ∧ 2 ≤ c.keys.length

mutual
/-- Every hash cache in the subtree is empty. -/
def Node.cacheFree : Node → Prop
  | .mk _ es hc => hc = none ∧ entriesCacheFree es
def entriesCacheFree : List Entry → Prop
  | [] => True
  | .mk _ _ none :: rest => entriesCacheFree rest
  | .mk _ _ (some c) :: rest => Node.cacheFree c ∧ entriesCacheFree rest
end

/-- Build a trie by inserting byte-keyed pairs left to right. -/
def Trie.ofPairs (l : List (Bytes × Cbor)) : Trie :=
  l.foldl (fun t p => t.insert (.kbytes p.1) p.2) Trie.new

/-- No node sits at the collision-fallback depth: every chain of branch
children is shorter than the fuel.  Inserting keys whose 42-chunk paths are
pairwise distinct never builds a deeper tree. -/
def chunkDepthOK : Nat → Node → Prop
  | 0, _ => False
  | fuel + 1, .mk _ es _ => ∀ e ∈ es, ∀ c : Node, e.child = some c → chunkDepthOK fuel c

/-- The running correspondence between a Trie and the reference association
list: same live bindings, same count, well-formed collision-free root. -/
def TrieInv (t : Trie) (m : List (Bytes × Cbor)) : Prop :=
  ∃ r, t.root = some r ∧ NodeWF MAX_DEPTH 0 r ∧ chunkDepthOK MAX_DEPTH r ∧
    (∀ q w, ((q, w) ∈ r.keysVals ↔ (q, w) ∈ m)) ∧
    r.keysVals.length = m.length ∧
    t.size = m.length ∧
    (m.map Prod.fst).Pairwise (· ≠ ·)

/-- Claim-side count: distinct keys whose last operation is an insert. -/
def liveKeys (ops : List TrieOp) : List Bytes :=
  ((ops.map opKey).dedup).filter (fun k => (lastWrite ops k).isSome)

def entryContrib : Entry → Bytes
  | .mk k v none => k.getD [] ++ cbor_encode v
  | .mk _ _ (some c) => Node.hashR c

end Hamt

/-! ## MMR (massmarket_hash_event/mmr/algorithms.py, mmr/db.py)

The while loops of the source are given structural fuel arguments that are
provably sufficient on the inputs the proofs touch. -/

namespace Mmr

/-- int.bit_length() with structural fuel (`n` bounds it). -/
def bitLenGo : Nat → Nat → Nat
  | 0, _ => 0
  | fuel + 1, n => if n = 0 then 0 else bitLenGo fuel (n / 2) + 1

def bit_length (n : Nat) : Nat := bitLenGo n n

def most_sig_bit (pos : Nat) : Nat := 1 <<< (bit_length pos - 1)

def all_ones (pos : Nat) : Bool := pos = (1 <<< bit_length pos) - 1

def log2floor (x : Nat) : Nat := bit_length x - 1

def heightGo : Nat → Nat → Nat
  | 0, pos => bit_length pos - 1
  | fuel + 1, pos =>
      if all_ones pos then bit_length pos - 1
      else heightGo fuel (pos - (most_sig_bit pos - 1))

/-- index_height: zero-based height of mmr index `i`. -/
def index_height (i : Nat) : Nat := heightGo (i + 1) (i + 1)

def peaksGo : Nat → Nat → Nat → List Nat
  | 0, _, _ => []
  | fuel + 1, peak, s =>
      if s = 0 then []
      else
        let highest_size := (1 <<< log2floor (s + 1)) - 1
        (peak + highest_size - 1) :: peaksGo fuel (peak + highest_size) (s - highest_size)

/-- peaks: peak indices of the complete MMR(i), highest first. -/
def peaks (i : Nat) : List Nat := peaksGo (i + 1) 0 (i + 1)

/-- H(pos as u64 big-endian || a || b). -/
def hash_pospair64 (pos : Nat) (a b : Bytes) : Bytes :=
  sha256 (Sha256.beBytes 8 pos ++ a ++ b)

/-- FlatDB.append: returns the index of the next item to be added. -/
def dbAppend (db : List Bytes) (v : Bytes) : List Bytes × Nat :=
  (db ++ [v], db.length + 1)

/-- FlatDB.get (an out-of-range read raises in Python; unreachable in the
proved statements). -/
def dbGet (db : List Bytes) (i : Nat) : Bytes := db.getD i []

def addLeafGo : Nat → Nat → Nat → List Bytes → List Bytes × Nat
  | 0, _, i, db => (db, i)
  | fuel + 1, g, i, db =>
      if g < index_height i then
        let left := dbGet db (i - (2 <<< g))
        let right := dbGet db (i - 1)
        let (db', i') := dbAppend db (hash_pospair64 (i + 1) left right)
        addLeafGo fuel (g + 1) i' db'
      else (db, i)

/-- add_leaf_hash: append the leaf, then append parents while the new last
index closes a higher subtree; returns the store and the next free index. -/
def add_leaf_hash (db : List Bytes) (f : Bytes) : List Bytes × Nat :=
  let (db', i) := dbAppend db f
  addLeafGo (i + 2) 0 i db'

def ippGo : Nat → Nat → Nat → Nat → List Nat
  | 0, _, _, _ => []
  | fuel + 1, g, i, c =>
      let siblingoffset := 2 <<< g
      if g < index_height (i + 1) then
        -- Python computes `i - siblingoffset + 1` over ℤ; for a right child
        -- the value is non-negative, and `i + 1 - siblingoffset` is that value.
        let isibling := i + 1 - siblingoffset
        if c < isibling then [] else isibling :: ippGo fuel (g + 1) (i + 1) c
      else
        let isibling := i + siblingoffset - 1
        if c < isibling then [] else isibling :: ippGo fuel (g + 1) (i + siblingoffset) c

/-- inclusion_proof_path: indices of the sibling path proving `i` in the
complete MMR whose last index is `c`. -/
def inclusion_proof_path (i c : Nat) : List Nat := ippGo (c + 2) (index_height i) i c

def irGo : Nat → Nat → Bytes → List Bytes → Bytes
  | _, _, root, [] => root
  | g, i, root, sibling :: rest =>
      if g < index_height (i + 1) then
        irGo (g + 1) (i + 1) (hash_pospair64 (i + 2) sibling root) rest
      else
        irGo (g + 1) (i + (2 <<< g)) (hash_pospair64 (i + (2 <<< g) + 1) root sibling) rest

/-- included_root: fold the proof to the implied accumulator peak. -/
def included_root (i : Nat) (nodehash : Bytes) (proof : List Bytes) : Bytes :=
  irGo (index_height i) i nodehash proof

def vipGo : Nat → Nat → Bytes → Bytes → Nat → List Bytes → Bool × Nat
  | _, _, _, _, ip, [] => (false, ip)
  | g, i, eh, root, ip, pathitem :: rest =>
      if g < index_height (i + 1) then
        let eh' := hash_pospair64 (i + 2) pathitem eh
        if eh' = root then (true, ip + 1) else vipGo (g + 1) (i + 1) eh' root (ip + 1) rest
      else
        let eh' := hash_pospair64 (i + (2 <<< g) + 1) eh pathitem
        if eh' = root then (true, ip + 1)
        else vipGo (g + 1) (i + (2 <<< g)) eh' root (ip + 1) rest

/-- verify_inclusion_path: `(ok, consumed)`; stops at the first fold value
equal to `root`. -/
def verify_inclusion_path (i : Nat) (nodehash : Bytes) (proof : List Bytes) (root : Bytes) :
    Bool × Nat :=
  if proof.length = 0 ∧ nodehash = root then (true, 0)
  else vipGo (index_height i) i nodehash root 0 proof

def leafCountGo : Nat → Nat → Nat → Nat → Nat
  | 0, _, peakmap, _ => peakmap
  | fuel + 1, peaksize, peakmap, s =>
      if 0 < peaksize then
        if peaksize ≤ s then leafCountGo fuel (peaksize >>> 1) ((peakmap <<< 1) ||| 1) (s - peaksize)
        else leafCountGo fuel (peaksize >>> 1) (peakmap <<< 1) s
      else peakmap

/-- leaf_count: number of leaves in the complete MMR(i); its bits are the
peak map. -/
def leaf_count (i : Nat) : Nat :=
  let s := i + 1
  leafCountGo (bit_length s + 1) ((1 <<< bit_length s) - 1) 0 s

def mmrIndexGo : Nat → Nat → Nat → Nat
  | 0, sum, _ => sum
  | fuel + 1, sum, e =>
      if 0 < e then
        let h := bit_length e
        mmrIndexGo fuel (sum + ((1 <<< h) - 1)) (e - (1 <<< (h - 1)))
      else sum

/-- mmr_index: the mmr index of leaf number `e`. -/
def mmr_index (e : Nat) : Nat := mmrIndexGo (e + 1) 0 e

/-- accumulator_index: position inside the accumulator of the peak proven
for leaf count position `e` by a height-`g` proof (`~mask` on a
nonnegative Python int clears the low `g` bits). -/
def accumulator_index (e g : Nat) : Nat := Hamt.popcount ((e >>> g) <<< g) - 1

def completeGo : Nat → Nat → Nat
  | 0, i => i
  | fuel + 1, i => if index_height i < index_height (i + 1) then completeGo fuel (i + 1) else i

/-- complete_mmr: first complete mmr index containing `i`. -/
def complete_mmr (i : Nat) : Nat := completeGo (i + 2) i

def nextPow2Go : Nat → Nat → Nat → Nat
  | 0, p, _ => p
  | fuel + 1, p, n => if p < n then nextPow2Go fuel (p * 2) n else p

/-- The `next_power_2` doubling loop of get_root_hash_of_patches. -/
def next_power_2 (n : Nat) : Nat := nextPow2Go (n + 1) 1 n

/-- Spec-side Merkle root of a perfect tree of `2^k` leaves whose nodes
sit at mmr indices `base, …, base + 2^(k+1) - 2` (the root last); the
node hash is the mmr pair hash, whose position argument is one past the
node's index.  This is the "single peak of the power-of-two-leaf MMR"
of the specification. -/
def specMroot : Nat → Nat → List Bytes → Bytes
  | 0, _, ls => ls.headD []
  | k + 1, base, ls =>
      hash_pospair64 (base + (2 ^ (k + 2) - 1))
        (specMroot k base (ls.take (2 ^ k)))
        (specMroot k (base + (2 ^ (k + 1) - 1)) (ls.drop (2 ^ k)))

/-- The flat-db block laid down for a perfect subtree of `2^k` leaves
starting at mmr index `base`: left subtree, right subtree, root. -/
def specMtree : Nat → Nat → List Bytes → List Bytes
  | 0, _, ls => [ls.headD []]
  | k + 1, base, ls =>
      specMtree k base (ls.take (2 ^ k)) ++
      specMtree k (base + (2 ^ (k + 1) - 1)) (ls.drop (2 ^ k)) ++
      [hash_pospair64 (base + (2 ^ (k + 2) - 1))
        (specMroot k base (ls.take (2 ^ k)))
        (specMroot k (base + (2 ^ (k + 1) - 1)) (ls.drop (2 ^ k)))]

/-- Peak stack of an in-progress MMR build, most recent (lowest) subtree
first: each entry is a subtree height with its leaves. -/
def stackLen : List (Nat × List Bytes) → Nat
  | [] => 0
  | (h, _) :: rest => stackLen rest + (2 ^ (h + 1) - 1)

def stackDb : List (Nat × List Bytes) → List Bytes
  | [] => []
  | (h, ls) :: rest => stackDb rest ++ specMtree h (stackLen rest) ls

def StackWF : List (Nat × List Bytes) → Prop
  | [] => True
  | (h, ls) :: rest => ls.length = 2 ^ h ∧ (∀ p ∈ rest, h < p.1) ∧ StackWF rest

/-- Binary carry: push a completed height-`h` subtree onto the stack,
merging equal heights. -/
def carry : Nat → List Bytes → List (Nat × List Bytes) → List (Nat × List Bytes)
  | h, ls, [] => [(h, ls)]
  | h, ls, (h2, ls2) :: rest =>
      if h2 = h then carry (h + 1) (ls2 ++ ls) rest else (h, ls) :: (h2, ls2) :: rest

def buildStack (st : List (Nat × List Bytes)) (leaves : List Bytes) :
    List (Nat × List Bytes) :=
  leaves.foldl (fun s l => carry 0 [l] s) st

/-- The positions returned by the successive `add_leaf_hash` calls. -/
def stackTrace (st : List (Nat × List Bytes)) : List Bytes → List Nat
  | [] => []
  | l :: rest => stackLen (carry 0 [l] st) :: stackTrace (carry 0 [l] st) rest

/-- Sum of subtree sizes for a list of heights. -/
def Plist (hs : List Nat) : Nat := (hs.map (fun h => 2 ^ (h + 1) - 1)).sum

/-- Heights strictly decreasing, all above `g` (deepest-first peak
heights seen by the `index_height` stripping loop). -/
def stkOK : List Nat → Nat → Prop
  | [], _ => True
  | h :: rest, g => g < h ∧ (∀ x ∈ rest, x < h) ∧ stkOK rest g

/-- Heights strictly decreasing (no lower bound). -/
def stkCh : List Nat → Prop
  | [] => True
  | x :: rest => (∀ y ∈ rest, y < x) ∧ stkCh rest

/-- In-block mmr index of leaf number `e` in a perfect block of `2^K`
leaves (post-order layout). -/
def inIdx : Nat → Nat → Nat
  | 0, _ => 0
  | K + 1, e => if e < 2 ^ K then inIdx K e else (2 ^ (K + 1) - 1) + inIdx K (e - 2 ^ K)

/-- Sibling indices of the inclusion path of leaf `e` inside a perfect
block of `2^K` leaves at base `B`, bottom-up. -/
def pathIdx : Nat → Nat → Nat → List Nat
  | 0, _, _ => []
  | K + 1, B, e =>
      if e < 2 ^ K then
        pathIdx K B e ++ [B + (2 ^ (K + 1) - 1) + (2 ^ (K + 1) - 2)]
      else
        pathIdx K (B + (2 ^ (K + 1) - 1)) (e - 2 ^ K) ++ [B + (2 ^ (K + 1) - 2)]

/-- The node values at `pathIdx`: roots of the sibling subtrees. -/
def pathVals : Nat → Nat → List Bytes → Nat → List Bytes
  | 0, _, _, _ => []
  | K + 1, B, ls, e =>
      if e < 2 ^ K then
        pathVals K B (ls.take (2 ^ K)) e ++
          [specMroot K (B + (2 ^ (K + 1) - 1)) (ls.drop (2 ^ K))]
      else
        pathVals K (B + (2 ^ (K + 1) - 1)) (ls.drop (2 ^ K)) (e - 2 ^ K) ++
          [specMroot K B (ls.take (2 ^ K))]

/-- Root of the height-`g` ancestor of leaf `e` in the block. -/
def ancVal : Nat → Nat → List Bytes → Nat → Nat → Bytes
  | 0, B, ls, _, _ => specMroot 0 B ls
  | K + 1, B, ls, e, g =>
      if K + 1 ≤ g then specMroot (K + 1) B ls
      else if e < 2 ^ K then ancVal K B (ls.take (2 ^ K)) e g
      else ancVal K (B + (2 ^ (K + 1) - 1)) (ls.drop (2 ^ K)) (e - 2 ^ K) g

/-- get_root_hash_of_patches of massmarket/__init__.py, on the CBOR dicts
of the patches: hash each canonical encoding, pad with SHA-256("") leaves
to the next power of two, build the MMR, read the node just below the
final leaf position. -/
def get_root_hash_of_patches (patches : List Cbor) : Bytes :=
  let patches_bytes := patches.map cbor_encode
  let hashed_patches := patches_bytes.map sha256
  let np := next_power_2 hashed_patches.length
  let zero_hash := sha256 []
  let filled := hashed_patches ++ List.replicate (np - hashed_patches.length) zero_hash
  let built := filled.foldl
    (fun (acc : List Bytes × List Nat) p =>
      let (db, i) := add_leaf_hash acc.1 p
      (db, acc.2 ++ [i]))
    ([], [])
  dbGet built.1 (built.2.getLast?.getD 0 - 1)

end Mmr

/-! ## Patch model (massmarket/cbor/patch.py, cbor/listing.py)

Python strings are carried as their UTF-8 bytes.  `raise ValueError`
becomes `Except.error`. -/

def strBytes (s : String) : Bytes := s.data.map Char.toNat

inductive ObjectType where
  | SCHEMA_VERSION
  | MANIFEST
  | ACCOUNT
  | LISTING
  | ORDER
  | TAG
  | INVENTORY
deriving DecidableEq

def ObjectType.toStr : ObjectType → Bytes
  | .SCHEMA_VERSION => strBytes "SchemaVersion"
  | .MANIFEST => strBytes "Manifest"
  | .ACCOUNT => strBytes "Accounts"
  | .LISTING => strBytes "Listings"
  | .ORDER => strBytes "Orders"
  | .TAG => strBytes "Tags"
  | .INVENTORY => strBytes "Inventory"

def ObjectType.fromStr (s : Bytes) : Option ObjectType :=
  if s = strBytes "SchemaVersion" then some .SCHEMA_VERSION
  else if s = strBytes "Manifest" then some .MANIFEST
  else if s = strBytes "Accounts" then some .ACCOUNT
  else if s = strBytes "Listings" then some .LISTING
  else if s = strBytes "Orders" then some .ORDER
  else if s = strBytes "Tags" then some .TAG
  else if s = strBytes "Inventory" then some .INVENTORY
  else none

inductive OpString where
  | add
  | append
  | replace
  | remove
  | increment
  | decrement
deriving DecidableEq

def OpString.toStr : OpString → Bytes
  | .add => strBytes "add"
  | .append => strBytes "append"
  | .replace => strBytes "replace"
  | .remove => strBytes "remove"
  | .increment => strBytes "increment"
  | .decrement => strBytes "decrement"

def OpString.fromStr (s : Bytes) : Option OpString :=
  if s = strBytes "add" then some .add
  else if s = strBytes "append" then some .append
  else if s = strBytes "replace" then some .replace
  else if s = strBytes "remove" then some .remove
  else if s = strBytes "increment" then some .increment
  else if s = strBytes "decrement" then some .decrement
  else none

structure PatchPath where
  type : ObjectType
  object_id : Option Nat := none
  account_addr : Option Bytes := none
  tag_name : Option Bytes := none
  fields : List Cbor := []
deriving DecidableEq

/-- Python truthiness of an `Optional[int]`: `None` and `0` are falsy. -/
def truthyNat : Option Nat → Bool
  | none => false
  | some n => decide (n ≠ 0)

/-- Python truthiness of an `Optional[str]`: `None` and `""` are falsy. -/
def truthyStr : Option Bytes → Bool
  | none => false
  | some s => decide (s ≠ [])

/-- Python truthiness of an `Optional[EthereumAddress]`: objects are
truthy. -/
def truthyAddr : Option Bytes → Bool
  | none => false
  | some _ => true

/-- PatchPath.__post_init__ validation. -/
def PatchPath.postInit (p : PatchPath) : Except String PatchPath :=
  match p.type with
  | .MANIFEST =>
      if truthyNat p.object_id || truthyAddr p.account_addr || truthyStr p.tag_name then
        .error "manifest patch should not have an id"
      else .ok p
  | .ACCOUNT =>
      if !truthyAddr p.account_addr then .error "account patch needs an id"
      else if truthyNat p.object_id || truthyStr p.tag_name then
        .error "account patch should not have object_id or tag_name"
      else .ok p
  | .LISTING | .ORDER | .INVENTORY =>
      if p.object_id = none then .error "patch needs an id"
      else if truthyAddr p.account_addr || truthyStr p.tag_name then
        .error "patch should not have account_addr or tag_name"
      else .ok p
  | .TAG =>
      if !truthyStr p.tag_name then .error "tag patch needs a tag name"
      else if truthyNat p.object_id || truthyAddr p.account_addr then
        .error "tag patch should not have object_id or account_addr"
      else .ok p
  | .SCHEMA_VERSION => .ok p

/-- PatchPath.to_cbor_list. -/
def PatchPath.to_cbor_list (p : PatchPath) : List Cbor :=
  Cbor.ctext p.type.toStr ::
    ((match p.type with
      | .MANIFEST => []
      | .ACCOUNT => [Cbor.cbytes (p.account_addr.getD [])]
      | .LISTING | .ORDER | .INVENTORY => [Cbor.cuint (p.object_id.getD 0)]
      | .TAG => [Cbor.ctext (p.tag_name.getD [])]
      | .SCHEMA_VERSION => []) ++ p.fields)

/-- PatchPath.from_cbor on an already-decoded CBOR array. -/
def PatchPath.from_cbor (data : List Cbor) : Except String PatchPath :=
  match data with
  | [] => .error "Invalid patch path format"
  | d0 :: rest =>
      match d0 with
      | .ctext s =>
          match ObjectType.fromStr s with
          | none => .error "Invalid object type"
          | some ty =>
              if ty = .MANIFEST then
                PatchPath.postInit ⟨ty, none, none, none, rest⟩
              else
                match rest with
                | [] => .error "patch needs an id"
                | d1 :: fields =>
                    match ty with
                    | .ACCOUNT =>
                        match d1 with
                        | .cbytes b =>
                            if b.length = 20 then
                              PatchPath.postInit ⟨ty, none, some b, none, fields⟩
                            else .error "Invalid ethereum address"
                        | _ => .error "Invalid ethereum address"
                    | .LISTING | .ORDER | .INVENTORY =>
                        match d1 with
                        | .cuint n => PatchPath.postInit ⟨ty, some n, none, none, fields⟩
                        | _ => .error "Invalid object id"
                    | .TAG =>
                        match d1 with
                        | .ctext t => PatchPath.postInit ⟨ty, none, none, some t, fields⟩
                        | _ => .error "Invalid tag name"
                    | _ => PatchPath.postInit ⟨ty, none, none, none, fields⟩
      | _ => .error "Invalid patch path format"

structure Patch where
  op : OpString
  path : PatchPath
  value : Cbor
deriving DecidableEq

def Patch.to_cbor_dict (p : Patch) : Cbor :=
  .cmap (.cons (.ctext (strBytes "Op")) (.ctext p.op.toStr)
    (.cons (.ctext (strBytes "Path")) (.carr (CborList.ofList p.path.to_cbor_list))
      (.cons (.ctext (strBytes "Value")) p.value .nil)))

/-- Python dict lookup on decoded CBOR maps: the last duplicate wins, as
when cbor2 builds the dict. -/
def dictGet (kvs : CborPairs) (k : Cbor) : Option Cbor :=
  match kvs with
  | .nil => none
  | .cons k0 v rest =>
      match dictGet rest k with
      | some v' => some v'
      | none => if k0 = k then some v else none

def Patch.from_cbor_dict (d : Cbor) : Except String Patch :=
  match d with
  | .cmap kvs =>
      match dictGet kvs (.ctext (strBytes "Op")) with
      | some (.ctext s) =>
          match OpString.fromStr s with
          | none => .error "invalid op"
          | some op =>
              match dictGet kvs (.ctext (strBytes "Path")) with
              | some (.carr xs) =>
                  match PatchPath.from_cbor xs.toList with
                  | .error e => .error e
                  | .ok path =>
                      match dictGet kvs (.ctext (strBytes "Value")) with
                      | some v => .ok ⟨op, path, v⟩
                      | none => .error "KeyError Value"
              | some _ => .error "Invalid patch path format"
              | none => .error "KeyError Path"
      | some _ => .error "invalid op"
      | none => .error "KeyError Op"
  | _ => .error "not a map"

def Patch.from_cbor (bs : Bytes) : Except String Patch :=
  match cbor_loads bs with
  | none => .error "CborDecodeError"
  | some d => Patch.from_cbor_dict d

def Patch.to_cbor (p : Patch) : Bytes := cbor_encode p.to_cbor_dict

structure PatchSetHeader where
  key_card_nonce : Int
  shop_id : Nat
  timestamp : Int
  root_hash : Bytes
deriving DecidableEq

/-- PatchSetHeader construction with its __post_init__ validation. -/
def PatchSetHeader.make (nonce : Int) (shop_id : Nat) (ts : Int) (root_hash : Bytes) :
    Except String PatchSetHeader :=
  if nonce ≤ 0 then .error "KeyCardNonce must be greater than 0"
  else if root_hash.length = 0 then .error "RootHash cannot be empty"
  else .ok ⟨nonce, shop_id, ts, root_hash⟩

structure ListingStockStatus where
  variation_ids : List Bytes
  in_stock : Option Bool := none
  expected_in_stock_by : Option Int := none
deriving DecidableEq

/-- ListingStockStatus construction with its __post_init__ validation. -/
def ListingStockStatus.make (vids : List Bytes) (is_ : Option Bool) (eisb : Option Int) :
    Except String ListingStockStatus :=
  if is_ = none ∧ eisb = none then
    .error "One of in_stock or expected_in_stock_by must be set"
  else .ok ⟨vids, is_, eisb⟩

/-- Did a fallible constructor succeed. -/
def okB {α : Type} : Except String α → Bool
  | .ok _ => true
  | .error _ => false

/-- The patch paths whose CBOR list round-trips: every type except
SCHEMA_VERSION (whose decoder unconditionally demands an id element),
with exactly the id field of the path's type set and, for ACCOUNT, a
20-byte address (what the decoder enforces); unused id fields must be
`None`, since the decoder rebuilds them as `None`. -/
def PatchPath.rt_ok (p : PatchPath) : Prop :=
  p.type ≠ .SCHEMA_VERSION ∧
  (p.type = .MANIFEST → p.object_id = none ∧ p.account_addr = none ∧ p.tag_name = none) ∧
  (p.type = .ACCOUNT →
    (∃ b, p.account_addr = some b ∧ b.length = 20) ∧ p.object_id = none ∧ p.tag_name = none) ∧
  ((p.type = .LISTING ∨ p.type = .ORDER ∨ p.type = .INVENTORY) →
    p.object_id ≠ none ∧ p.account_addr = none ∧ p.tag_name = none) ∧
  (p.type = .TAG →
    (∃ t, p.tag_name = some t ∧ t ≠ []) ∧ p.object_id = none ∧ p.account_addr = none)

/-- A non-canonical encoding of the patch
`{Op: "add", Path: ["Listings", 1], Value: null}`: the object id `1` is
encoded with a one-byte argument head `0x18 0x01` instead of the
canonical `0x01`. -/
def nonCanonicalPatchBytes : Bytes :=
  [0xa3, 0x62, 0x4f, 0x70, 0x63, 0x61, 0x64, 0x64,
   0x64, 0x50, 0x61, 0x74, 0x68, 0x82,
   0x68, 0x4c, 0x69, 0x73, 0x74, 0x69, 0x6e, 0x67, 0x73, 0x18, 0x01,
   0x65, 0x56, 0x61, 0x6c, 0x75, 0x65, 0xf6]

/-! # Theorems -/

theorem sha256_empty :
    sha256 [] =
      [0xe3, 0xb0, 0xc4, 0x42, 0x98, 0xfc, 0x1c, 0x14, 0x9a, 0xfb, 0xf4, 0xc8,
       0x99, 0x6f, 0xb9, 0x24, 0x27, 0xae, 0x41, 0xe4, 0x64, 0x9b, 0x93, 0x4c,
       0xa4, 0x95, 0x99, 0x1b, 0x78, 0x52, 0xb8, 0x55] := by decide

/-- C8: the source `__post_init__` only rejects an *empty* root hash, so a
1-byte root hash is accepted even though it is not 32 bytes long: the
claimed rejection of every non-32-byte root hash does not hold. -/
theorem claim_C8_counterexample :
    PatchSetHeader.make 1 0 0 [0] = .ok ⟨1, 0, 0, [0]⟩ ∧ ([0] : Bytes).length ≠ 32 :=
  ⟨rfl, by decide⟩

/-- C8 (amended): constructing a PatchSetHeader fails exactly when
`key_card_nonce ≤ 0` or `root_hash` is empty; a successful construction
returns the given fields unchanged, so every constructed header has a
positive nonce and a non-empty root hash. -/
theorem claim_C8_amended (nonce : Int) (sid : Nat) (ts : Int) (rh : Bytes) :
    (okB (PatchSetHeader.make nonce sid ts rh) = true ↔ 0 < nonce ∧ rh ≠ []) ∧
    (PatchSetHeader.make nonce sid ts rh = .ok ⟨nonce, sid, ts, rh⟩ ∨
      okB (PatchSetHeader.make nonce sid ts rh) = false) := by
  unfold PatchSetHeader.make okB
  split_ifs with h1 h2
  · exact ⟨⟨fun h => by simp at h, fun h => absurd h.1 (by omega)⟩, .inr rfl⟩
  · have hnil : rh = [] := List.length_eq_zero.mp h2
    exact ⟨⟨fun h => by simp at h, fun h => absurd hnil h.2⟩, .inr rfl⟩
  · have hrh : rh ≠ [] := fun h => h2 (by rw [h]; rfl)
    exact ⟨⟨fun _ => ⟨by omega, hrh⟩, fun _ => rfl⟩, .inl rfl⟩

/-- C9: the source `__post_init__` only rejects the case where *neither*
field is set; constructing a ListingStockStatus with both `in_stock` and
`expected_in_stock_by` set succeeds, refuting the claimed
exactly-one-of validation. -/
theorem claim_C9_counterexample :
    ListingStockStatus.make [] (some true) (some 5) = .ok ⟨[], some true, some 5⟩ := rfl

/-- C9 (amended): constructing a ListingStockStatus succeeds if and only
if at least one of `in_stock` and `expected_in_stock_by` is set:
construction with neither set fails, but construction with both set is
accepted. -/
theorem claim_C9_amended (vids : List Bytes) (is_ : Option Bool) (eisb : Option Int) :
    (okB (ListingStockStatus.make vids is_ eisb) = true ↔ ¬(is_ = none ∧ eisb = none)) ∧
    (ListingStockStatus.make vids is_ eisb = .ok ⟨vids, is_, eisb⟩ ∨
      okB (ListingStockStatus.make vids is_ eisb) = false) := by
  unfold ListingStockStatus.make okB
  split_ifs with h1
  · exact ⟨⟨fun h => by simp at h, fun h => absurd h1 h⟩, .inr rfl⟩
  · exact ⟨⟨fun _ => h1, fun _ => rfl⟩, .inl rfl⟩

/-- C4: after building a trie whose two keys collide on their first 6-bit
chunk (`b"d"` and `b"j"`), hashing it, and then overwriting the value
under `b"d"`, the deep node invalidates its own cache but `insert`
returns `False`, so the root's memoised hash survives the mutation: the
root cache still holds the old digest, which differs from a fresh
recomputation of the root's hash, and `hash()` keeps returning the stale
digest. -/
theorem claim_C4_cache_stale :
    (((((Hamt.Trie.new.insert (.kbytes [0x64]) (.ctext [0x78])).insert
          (.kbytes [0x6a]) (.ctext [0x79])).hash).2.insert
          (.kbytes [0x64]) (.ctext [0x7a])).root.getD (.mk 0 [] none)).hcache =
        some ((((Hamt.Trie.new.insert (.kbytes [0x64]) (.ctext [0x78])).insert
          (.kbytes [0x6a]) (.ctext [0x79])).hash).1) ∧
    (((((Hamt.Trie.new.insert (.kbytes [0x64]) (.ctext [0x78])).insert
          (.kbytes [0x6a]) (.ctext [0x79])).hash).2.insert
          (.kbytes [0x64]) (.ctext [0x7a])).root.getD (.mk 0 [] none)).hashR ≠
        (((Hamt.Trie.new.insert (.kbytes [0x64]) (.ctext [0x78])).insert
          (.kbytes [0x6a]) (.ctext [0x79])).hash).1 ∧
    ((((((Hamt.Trie.new.insert (.kbytes [0x64]) (.ctext [0x78])).insert
          (.kbytes [0x6a]) (.ctext [0x79])).hash).2.insert
          (.kbytes [0x64]) (.ctext [0x7a])).hash).1) =
        (((Hamt.Trie.new.insert (.kbytes [0x64]) (.ctext [0x78])).insert
          (.kbytes [0x6a]) (.ctext [0x79])).hash).1 := by
  refine ⟨by decide, by decide, by decide⟩

namespace Hamt

theorem popcountGo_zero (f : Nat) : popcountGo f 0 = 0 := by
  cases f <;> simp [popcountGo]

theorem popcountGo_congr : ∀ f1 f2 n : Nat, n ≤ f1 → n ≤ f2 → popcountGo f1 n = popcountGo f2 n := by
  intro f1
  induction f1 with
  | zero =>
      intro f2 n h1 _
      have : n = 0 := by omega
      subst this
      rw [popcountGo_zero, popcountGo_zero]
  | succ f ih =>
      intro f2 n h1 h2
      match f2, n with
      | _, 0 => rw [popcountGo_zero, popcountGo_zero]
      | 0, n + 1 => omega
      | f2 + 1, n + 1 =>
          simp only [popcountGo, if_neg (by omega : ¬(n + 1 = 0))]
          congr 1
          exact ih f2 ((n + 1) / 2) (by omega) (by omega)

theorem popcount_rec (n : Nat) (h : n ≠ 0) : popcount n = n % 2 + popcount (n / 2) := by
  match n, h with
  | n + 1, _ =>
      show popcountGo (n + 1) (n + 1) = _
      simp only [popcountGo, if_neg (by omega : ¬(n + 1 = 0))]
      congr 1
      exact popcountGo_congr n ((n + 1) / 2) ((n + 1) / 2) (by omega) le_rfl

theorem and_two_pow_sub_one (bm j : Nat) : bm &&& (2 ^ j - 1) = bm % 2 ^ j := by
  apply Nat.eq_of_testBit_eq
  intro i
  rw [Nat.testBit_and, Nat.testBit_two_pow_sub_one, Nat.testBit_mod_two_pow]
  exact Bool.and_comm _ _

theorem count_ones_eq_mod (bm j : Nat) : count_ones bm j = popcount (bm % 2 ^ j) := by
  unfold count_ones
  rw [Nat.shiftLeft_eq, one_mul, and_two_pow_sub_one]

theorem count_ones_zero (bm : Nat) : count_ones bm 0 = 0 := by
  rw [count_ones_eq_mod, pow_zero, Nat.mod_one]
  rfl

theorem mod_two_pow_succ (bm j : Nat) : bm % 2 ^ (j + 1) = 2 * (bm / 2 % 2 ^ j) + bm % 2 := by
  have h1 : 2 * (bm / 2) + bm % 2
      = 2 * (bm / 2 % 2 ^ j) + bm % 2 + (2 * 2 ^ j) * (bm / 2 / 2 ^ j) := by
    conv_lhs => rw [← Nat.div_add_mod (bm / 2) (2 ^ j)]
    ring
  have h2 : 2 ^ (j + 1) = 2 * 2 ^ j := by ring
  have hm : bm / 2 % 2 ^ j < 2 ^ j := Nat.mod_lt _ (Nat.two_pow_pos j)
  have hr : bm % 2 < 2 := Nat.mod_lt _ (by omega)
  calc bm % 2 ^ (j + 1)
      = (2 * (bm / 2) + bm % 2) % (2 * 2 ^ j) := by rw [Nat.div_add_mod, h2]
    _ = (2 * (bm / 2 % 2 ^ j) + bm % 2) % (2 * 2 ^ j) := by
        rw [h1, Nat.add_mul_mod_self_left]
    _ = 2 * (bm / 2 % 2 ^ j) + bm % 2 := Nat.mod_eq_of_lt (by omega)

theorem count_ones_succ (bm j : Nat) :
    count_ones bm (j + 1) = bm % 2 + count_ones (bm / 2) j := by
  rw [count_ones_eq_mod, count_ones_eq_mod, mod_two_pow_succ]
  by_cases h : 2 * (bm / 2 % 2 ^ j) + bm % 2 = 0
  · have h1 : bm % 2 = 0 := by omega
    have h2 : bm / 2 % 2 ^ j = 0 := by omega
    rw [h, h1, h2]
    rfl
  · rw [popcount_rec _ h, Nat.mul_add_mod, Nat.mul_add_div (by omega)]
    have hr : bm % 2 < 2 := Nat.mod_lt _ (by omega)
    rw [Nat.mod_eq_of_lt hr, Nat.div_eq_of_lt hr, Nat.add_zero]

theorem popcount_eq_count_ones (bm : Nat) (h : bm < 2 ^ 64) : popcount bm = count_ones bm 64 := by
  rw [count_ones_eq_mod, Nat.mod_eq_of_lt h]

end Hamt

namespace Hamt

theorem or_div_two (a b : Nat) : (a ||| b) / 2 = a / 2 ||| b / 2 := by
  apply Nat.eq_of_testBit_eq
  intro i
  rw [Nat.testBit_div_two, Nat.testBit_or, Nat.testBit_or, Nat.testBit_div_two,
    Nat.testBit_div_two]

theorem mod_two_of_testBit (a : Nat) : a % 2 = if a.testBit 0 then 1 else 0 := by
  rw [Nat.testBit_to_div_mod]
  simp only [pow_zero, Nat.div_one]
  split_ifs with h
  · simpa using h
  · simp at h
    omega

theorem or_mod_two (a b : Nat) : (a ||| b) % 2 = a % 2 ||| b % 2 := by
  rw [mod_two_of_testBit, mod_two_of_testBit, mod_two_of_testBit, Nat.testBit_or]
  cases a.testBit 0 <;> cases b.testBit 0 <;> rfl

theorem pow_succ_div_two (i : Nat) : 2 ^ (i + 1) / 2 = 2 ^ i := by
  rw [pow_succ]
  exact Nat.mul_div_cancel _ (by omega)

theorem pow_succ_mod_two (i : Nat) : 2 ^ (i + 1) % 2 = 0 := by
  rw [pow_succ]
  exact Nat.mul_mod_left _ _

theorem or_pow_succ_mod_two (bm i : Nat) : (bm ||| 2 ^ (i + 1)) % 2 = bm % 2 := by
  rw [or_mod_two, pow_succ_mod_two]
  simp

theorem or_pow_succ_div_two (bm i : Nat) : (bm ||| 2 ^ (i + 1)) / 2 = bm / 2 ||| 2 ^ i := by
  rw [or_div_two, pow_succ_div_two]

theorem or_one_mod_two (bm : Nat) : (bm ||| 1) % 2 = 1 := by
  rw [or_mod_two]
  have : bm % 2 = 0 ∨ bm % 2 = 1 := by omega
  rcases this with h | h <;> rw [h] <;> rfl

theorem or_one_div_two (bm : Nat) : (bm ||| 1) / 2 = bm / 2 := by
  rw [or_div_two]
  simp

/-- The code's `bitmap & (1 << idx) == 0` test as a div/mod statement. -/
theorem and_pow_eq_zero_iff (bm idx : Nat) :
    bm &&& (1 <<< idx) = 0 ↔ bm / 2 ^ idx % 2 = 0 := by
  rw [Nat.shiftLeft_eq, one_mul]
  constructor
  · intro h
    have hb : bm.testBit idx = false := by
      by_contra hb
      have hb' : bm.testBit idx = true := by
        cases h' : bm.testBit idx
        · exact absurd h' hb
        · rfl
      have : (bm &&& 2 ^ idx).testBit idx = true := by
        rw [Nat.testBit_and, hb', Nat.testBit_two_pow]
        simp
      rw [h] at this
      simp [Nat.zero_testBit] at this
    rw [Nat.testBit_to_div_mod] at hb
    simp at hb
    omega
  · intro h
    apply Nat.eq_of_testBit_eq
    intro i
    rw [Nat.testBit_and, Nat.testBit_two_pow, Nat.zero_testBit]
    by_cases hi : idx = i
    · subst hi
      rw [Nat.testBit_to_div_mod]
      simp [h]
    · simp [hi]

theorem count_ones_le_succ : ∀ m bm, count_ones bm m ≤ count_ones bm (m + 1) := by
  intro m
  induction m with
  | zero =>
      intro bm
      rw [count_ones_zero]
      exact Nat.zero_le _
  | succ m ih =>
      intro bm
      rw [count_ones_succ, count_ones_succ]
      have := ih (bm / 2)
      omega

theorem count_ones_mono (bm : Nat) : ∀ j j', j ≤ j' → count_ones bm j ≤ count_ones bm j' := by
  suffices h : ∀ d j, count_ones bm j ≤ count_ones bm (j + d) by
    intro j j' hj
    have := h (j' - j) j
    rwa [Nat.add_sub_cancel' hj] at this
  intro d
  induction d with
  | zero => intro j; rfl
  | succ d ih =>
      intro j
      have h1 := ih j
      have h2 := count_ones_le_succ (j + d) bm
      have : j + (d + 1) = (j + d) + 1 := by omega
      rw [this]
      omega

theorem count_ones_succ_bit_set (bm j : Nat) (h : bm / 2 ^ j % 2 = 1) :
    count_ones bm (j + 1) = count_ones bm j + 1 := by
  induction j generalizing bm with
  | zero =>
      rw [count_ones_succ, count_ones_zero, count_ones_zero]
      simp at h
      omega
  | succ j ih =>
      rw [count_ones_succ, count_ones_succ bm j]
      have h' : bm / 2 / 2 ^ j % 2 = 1 := by
        rw [Nat.div_div_eq_div_mul, ← pow_succ']
        exact h
      rw [ih _ h']
      omega

theorem count_ones_strict (bm j idx : Nat) (hj : j < idx) (h : bm / 2 ^ j % 2 = 1) :
    count_ones bm j < count_ones bm idx := by
  have h1 := count_ones_succ_bit_set bm j h
  have h2 := count_ones_mono bm (j + 1) idx hj
  omega

theorem co_or_le (idx : Nat) : ∀ j bm, j ≤ idx → count_ones (bm ||| 2 ^ idx) j = count_ones bm j := by
  induction idx with
  | zero =>
      intro j bm hj
      have : j = 0 := by omega
      subst this
      rw [count_ones_zero, count_ones_zero]
  | succ idx ih =>
      intro j bm hj
      match j with
      | 0 => rw [count_ones_zero, count_ones_zero]
      | j + 1 =>
          rw [count_ones_succ, count_ones_succ, or_pow_succ_mod_two, or_pow_succ_div_two,
            ih j (bm / 2) (by omega)]

theorem co_or_gt (idx : Nat) : ∀ j bm, idx < j → bm / 2 ^ idx % 2 = 0 →
    count_ones (bm ||| 2 ^ idx) j = count_ones bm j + 1 := by
  induction idx with
  | zero =>
      intro j bm hj hc
      match j with
      | j + 1 =>
          rw [count_ones_succ, count_ones_succ, pow_zero] at *
          rw [or_one_mod_two, or_one_div_two]
          simp at hc
          omega
  | succ idx ih =>
      intro j bm hj hc
      match j with
      | j + 1 =>
          rw [count_ones_succ, count_ones_succ, or_pow_succ_mod_two, or_pow_succ_div_two]
          have hc' : bm / 2 / 2 ^ idx % 2 = 0 := by
            rw [Nat.div_div_eq_div_mul, ← pow_succ']
            exact hc
          rw [ih j (bm / 2) (by omega) hc']
          omega

end Hamt


namespace Hamt

theorem mul_pow_or_mod (a b n : Nat) (h : b < 2 ^ n) : a * 2 ^ n ||| b = a * 2 ^ n + b := by
  apply Nat.eq_of_testBit_eq
  intro i
  rw [Nat.testBit_or, mul_comm a (2 ^ n), Nat.testBit_mul_pow_two_add _ h]
  rcases Nat.lt_or_ge i n with hi | hi
  · have h1 : (2 ^ n * a).testBit i = false := by
      rw [Nat.testBit_mul_pow_two]
      simp
      omega
    rw [h1, if_pos hi]
    simp
  · have h1 : (2 ^ n * a).testBit i = a.testBit (i - n) := by
      rw [Nat.testBit_mul_pow_two]
      simp [hi]
    have h3 : b.testBit i = false := by
      apply Nat.testBit_lt_two_pow
      exact Nat.lt_of_lt_of_le h (Nat.pow_le_pow_right (by omega) hi)
    rw [h1, h3, if_neg (by omega : ¬ i < n)]
    simp

theorem clearBit_eq (bm idx : Nat) :
    clearBit bm idx = (bm / 2 ^ (idx + 1)) * 2 ^ (idx + 1) + bm % 2 ^ idx := by
  unfold clearBit
  rw [Nat.shiftLeft_eq 1 idx, one_mul, Nat.shiftRight_eq_div_pow, Nat.shiftLeft_eq,
    and_two_pow_sub_one]
  apply mul_pow_or_mod
  calc bm % 2 ^ idx < 2 ^ idx := Nat.mod_lt _ (Nat.two_pow_pos idx)
    _ ≤ 2 ^ (idx + 1) := Nat.pow_le_pow_right (by omega) (by omega)

theorem clearBit_zero_eq (bm : Nat) : clearBit bm 0 = bm / 2 * 2 := by
  rw [clearBit_eq, pow_one, pow_zero, Nat.mod_one, Nat.add_zero]

theorem clearBit_succ_mod_two (bm idx : Nat) : clearBit bm (idx + 1) % 2 = bm % 2 := by
  rw [clearBit_eq]
  have hd : (2 : Nat) ∣ 2 ^ (idx + 2) := dvd_pow_self 2 (by omega)
  rcases hd with ⟨c, hc⟩
  have h1 : bm / 2 ^ (idx + 2) * 2 ^ (idx + 2) + bm % 2 ^ (idx + 1)
      = 2 * (bm / 2 ^ (idx + 2) * c) + bm % 2 ^ (idx + 1) := by
    rw [hc]
    ring
  rw [h1, Nat.mul_add_mod]
  exact Nat.mod_mod_of_dvd bm (dvd_pow_self 2 (by omega))

theorem clearBit_succ_div_two (bm idx : Nat) :
    clearBit bm (idx + 1) / 2 = clearBit (bm / 2) idx := by
  rw [clearBit_eq, clearBit_eq]
  have h1 : bm / 2 ^ (idx + 2) = bm / 2 / 2 ^ (idx + 1) := by
    rw [Nat.div_div_eq_div_mul, ← pow_succ']
  have h2 : bm % 2 ^ (idx + 1) = 2 * (bm / 2 % 2 ^ idx) + bm % 2 := mod_two_pow_succ bm idx
  have hb : bm % 2 < 2 := Nat.mod_lt _ (by omega)
  rw [h2, ← h1]
  have h3 : bm / 2 ^ (idx + 2) * 2 ^ (idx + 1 + 1) + (2 * (bm / 2 % 2 ^ idx) + bm % 2)
      = 2 * (bm / 2 ^ (idx + 2) * 2 ^ (idx + 1) + bm / 2 % 2 ^ idx) + bm % 2 := by
    ring
  rw [h3, Nat.mul_add_div (by omega), Nat.div_eq_of_lt hb, Nat.add_zero, h1]

theorem co_clear_le (idx : Nat) : ∀ j bm, j ≤ idx →
    count_ones (clearBit bm idx) j = count_ones bm j := by
  induction idx with
  | zero =>
      intro j bm hj
      have : j = 0 := by omega
      subst this
      rw [count_ones_zero, count_ones_zero]
  | succ idx ih =>
      intro j bm hj
      match j with
      | 0 => rw [count_ones_zero, count_ones_zero]
      | j + 1 =>
          rw [count_ones_succ, count_ones_succ, clearBit_succ_mod_two, clearBit_succ_div_two,
            ih j (bm / 2) (by omega)]

theorem co_clear_gt (idx : Nat) : ∀ j bm, idx < j → bm / 2 ^ idx % 2 = 1 →
    count_ones (clearBit bm idx) j + 1 = count_ones bm j := by
  induction idx with
  | zero =>
      intro j bm hj hc
      match j with
      | j + 1 =>
          rw [count_ones_succ, count_ones_succ, clearBit_zero_eq]
          have h1 : bm / 2 * 2 % 2 = 0 := by omega
          have h2 : bm / 2 * 2 / 2 = bm / 2 := by omega
          rw [h1, h2]
          simp at hc
          omega
  | succ idx ih =>
      intro j bm hj hc
      match j with
      | j + 1 =>
          rw [count_ones_succ, count_ones_succ, clearBit_succ_mod_two, clearBit_succ_div_two]
          have hc' : bm / 2 / 2 ^ idx % 2 = 1 := by
            rw [Nat.div_div_eq_div_mul, ← pow_succ']
            exact hc
          have := ih j (bm / 2) (by omega) hc'
          omega

theorem testBit_clearBit (bm idx j : Nat) :
    (clearBit bm idx).testBit j = if j = idx then false else bm.testBit j := by
  unfold clearBit
  rw [Nat.shiftLeft_eq 1 idx, one_mul, and_two_pow_sub_one, Nat.testBit_or,
    Nat.testBit_shiftLeft, Nat.testBit_shiftRight, Nat.testBit_mod_two_pow]
  rcases Nat.lt_trichotomy j idx with hj | hj | hj
  · have h1 : ¬(idx + 1 ≤ j) := by omega
    simp [h1, hj, if_neg (by omega : ¬ j = idx)]
  · subst hj
    simp
  · have h1 : idx + 1 ≤ j := by omega
    have h2 : idx + 1 + (j - (idx + 1)) = j := by omega
    simp [h1, h2, if_neg (by omega : ¬ j = idx), if_neg (by omega : ¬ j < idx)]

theorem div_pow_mod_two_eq_one_iff (bm j : Nat) : bm / 2 ^ j % 2 = 1 ↔ bm.testBit j = true := by
  rw [Nat.testBit_to_div_mod]
  simp

theorem clearBit_div_pow_mod (bm idx j : Nat) :
    clearBit bm idx / 2 ^ j % 2 = if j = idx then 0 else bm / 2 ^ j % 2 := by
  have h := testBit_clearBit bm idx j
  by_cases hj : j = idx
  · subst hj
    rw [if_pos rfl] at h ⊢
    have h1 := div_pow_mod_two_eq_one_iff (clearBit bm j) j
    rw [h] at h1
    simp at h1
    omega
  · rw [if_neg hj] at h ⊢
    have h1 := div_pow_mod_two_eq_one_iff (clearBit bm idx) j
    have h2 := div_pow_mod_two_eq_one_iff bm j
    rw [h, ← h2] at h1
    omega

theorem or_pow_div_pow_mod (bm idx j : Nat) :
    (bm ||| 2 ^ idx) / 2 ^ j % 2 = if j = idx then 1 else bm / 2 ^ j % 2 := by
  have h1 := div_pow_mod_two_eq_one_iff (bm ||| 2 ^ idx) j
  rw [Nat.testBit_or, Nat.testBit_two_pow] at h1
  by_cases hj : j = idx
  · subst hj
    simp at h1
    rw [if_pos rfl]
    omega
  · have hd : (decide (idx = j)) = false := by
      simp
      omega
    rw [hd, Bool.or_false] at h1
    have h2 := div_pow_mod_two_eq_one_iff bm j
    rw [← h2] at h1
    rw [if_neg hj]
    omega

end Hamt

namespace Hamt

theorem get?_insertIdx_lt {α : Type} :
    ∀ (l : List α) (n k : Nat) (x : α), k < n → (l.insertIdx n x).get? k = l.get? k := by
  intro l
  induction l with
  | nil =>
      intro n k x h
      match n with
      | n + 1 => rw [List.insertIdx_succ_nil]
  | cons a l ih =>
      intro n k x h
      match n with
      | n + 1 =>
          rw [List.insertIdx_succ_cons]
          match k with
          | 0 => rfl
          | k + 1 =>
              simp only [List.get?_cons_succ]
              exact ih n k x (by omega)

theorem get?_insertIdx_self {α : Type} :
    ∀ (l : List α) (n : Nat) (x : α), n ≤ l.length → (l.insertIdx n x).get? n = some x := by
  intro l
  induction l with
  | nil =>
      intro n x h
      have : n = 0 := by simpa using h
      subst this
      rfl
  | cons a l ih =>
      intro n x h
      match n with
      | 0 => rfl
      | n + 1 =>
          rw [List.insertIdx_succ_cons]
          simp only [List.get?_cons_succ]
          exact ih n x (by simpa using h)

theorem get?_insertIdx_ge {α : Type} :
    ∀ (l : List α) (n k : Nat) (x : α), n ≤ k → (l.insertIdx n x).get? (k + 1) = l.get? k := by
  intro l
  induction l with
  | nil =>
      intro n k x h
      match n with
      | 0 => simp
      | n + 1 => rw [List.insertIdx_succ_nil]; simp
  | cons a l ih =>
      intro n k x h
      match n with
      | 0 => simp [List.insertIdx_zero]
      | n + 1 =>
          rw [List.insertIdx_succ_cons]
          match k with
          | k + 1 =>
              simp only [List.get?_cons_succ]
              exact ih n k x (by omega)

theorem get?_eraseIdx_lt {α : Type} :
    ∀ (l : List α) (n k : Nat), k < n → (l.eraseIdx n).get? k = l.get? k := by
  intro l
  induction l with
  | nil => intro n k h; rfl
  | cons a l ih =>
      intro n k h
      match n with
      | n + 1 =>
          rw [List.eraseIdx_cons_succ]
          match k with
          | 0 => rfl
          | k + 1 =>
              simp only [List.get?_cons_succ]
              exact ih n k (by omega)

theorem get?_eraseIdx_ge {α : Type} :
    ∀ (l : List α) (n k : Nat), n ≤ k → (l.eraseIdx n).get? k = l.get? (k + 1) := by
  intro l
  induction l with
  | nil => intro n k h; rfl
  | cons a l ih =>
      intro n k h
      match n with
      | 0 => rw [List.eraseIdx_cons_zero]; rfl
      | n + 1 =>
          rw [List.eraseIdx_cons_succ]
          match k with
          | k + 1 =>
              simp only [List.get?_cons_succ]
              exact ih n k (by omega)

theorem get?_set_self {α : Type} :
    ∀ (l : List α) (n : Nat) (x : α), n < l.length → (l.set n x).get? n = some x := by
  intro l
  induction l with
  | nil => intro n x h; simp at h
  | cons a l ih =>
      intro n x h
      match n with
      | 0 => rfl
      | n + 1 =>
          simp only [List.set_cons_succ, List.get?_cons_succ]
          exact ih n x (by simpa using h)

theorem get?_set_ne {α : Type} :
    ∀ (l : List α) (n k : Nat) (x : α), k ≠ n → (l.set n x).get? k = l.get? k := by
  intro l
  induction l with
  | nil => intro n k x h; rfl
  | cons a l ih =>
      intro n k x h
      match n with
      | 0 =>
          match k with
          | k + 1 => simp [List.set_cons_zero]
      | n + 1 =>
          rw [List.set_cons_succ]
          match k with
          | 0 => rfl
          | k + 1 =>
              simp only [List.get?_cons_succ]
              exact ih n k x (by omega)

theorem unpack_length : ∀ (w bm : Nat) (es : List Entry), (unpack w bm es).length = w := by
  intro w
  induction w with
  | zero => intro bm es; rfl
  | succ w ih =>
      intro bm es
      unfold unpack
      by_cases h : bm % 2 = 1 <;> simp [h, ih]

theorem get?_tail_eq {α : Type} (l : List α) (m : Nat) : l.tail.get? m = l.get? (m + 1) := by
  cases l <;> rfl

theorem unpack_getD : ∀ (idx w bm : Nat) (es : List Entry), idx < w →
    (unpack w bm es).getD idx none =
      if bm / 2 ^ idx % 2 = 1 then es.get? (count_ones bm idx) else none := by
  intro idx
  induction idx with
  | zero =>
      intro w bm es hw
      match w with
      | w + 1 =>
          unfold unpack
          rw [count_ones_zero]
          simp only [pow_zero, Nat.div_one]
          by_cases h : bm % 2 = 1
          · rw [if_pos h, if_pos h, List.getD_cons_zero]
            cases es <;> rfl
          · rw [if_neg h, if_neg h, List.getD_cons_zero]
  | succ idx ih =>
      intro w bm es hw
      match w with
      | w + 1 =>
          unfold unpack
          have hdiv : bm / 2 / 2 ^ idx = bm / 2 ^ (idx + 1) := by
            rw [Nat.div_div_eq_div_mul, ← pow_succ']
          by_cases h : bm % 2 = 1
          · simp only [if_pos h, List.getD_cons_succ]
            rw [ih w (bm / 2) es.tail (by omega), count_ones_succ, h, hdiv]
            by_cases h2 : bm / 2 ^ (idx + 1) % 2 = 1
            · rw [if_pos h2, if_pos h2, get?_tail_eq]
              congr 1
              omega
            · rw [if_neg h2, if_neg h2]
          · simp only [if_neg h, List.getD_cons_succ]
            rw [ih w (bm / 2) es (by omega), count_ones_succ, hdiv]
            have h0 : bm % 2 = 0 := by omega
            rw [h0]
            simp

end Hamt

namespace Hamt

theorem popcount_or_pow (bm idx : Nat) (hbm : bm < 2 ^ 64) (hidx : idx < 64)
    (hclear : bm / 2 ^ idx % 2 = 0) :
    popcount (bm ||| 2 ^ idx) = popcount bm + 1 := by
  have hb : bm ||| 2 ^ idx < 2 ^ 64 :=
    Nat.or_lt_two_pow hbm (Nat.pow_lt_pow_right (by omega) hidx)
  rw [popcount_eq_count_ones _ hb, popcount_eq_count_ones _ hbm]
  exact co_or_gt idx 64 bm hidx hclear

theorem clearBit_le (bm idx : Nat) : clearBit bm idx ≤ bm := by
  rw [clearBit_eq, mul_comm]
  have h1 : bm % 2 ^ idx ≤ bm % 2 ^ (idx + 1) := by
    have hd : (2 : Nat) ^ idx ∣ 2 ^ (idx + 1) := pow_dvd_pow 2 (by omega)
    calc bm % 2 ^ idx = bm % 2 ^ (idx + 1) % 2 ^ idx := by rw [Nat.mod_mod_of_dvd bm hd]
      _ ≤ bm % 2 ^ (idx + 1) := Nat.mod_le _ _
  have h2 : 2 ^ (idx + 1) * (bm / 2 ^ (idx + 1)) + bm % 2 ^ (idx + 1) = bm :=
    Nat.div_add_mod bm (2 ^ (idx + 1))
  omega

theorem popcount_clearBit (bm idx : Nat) (hbm : bm < 2 ^ 64) (hidx : idx < 64)
    (hset : bm / 2 ^ idx % 2 = 1) :
    popcount (clearBit bm idx) + 1 = popcount bm := by
  have hb : clearBit bm idx < 2 ^ 64 := Nat.lt_of_le_of_lt (clearBit_le bm idx) hbm
  rw [popcount_eq_count_ones _ hb, popcount_eq_count_ones _ hbm]
  exact co_clear_gt idx 64 bm hidx hset

theorem count_ones_lt_popcount (bm idx : Nat) (hbm : bm < 2 ^ 64) (hidx : idx < 64)
    (hset : bm / 2 ^ idx % 2 = 1) :
    count_ones bm idx < popcount bm := by
  rw [popcount_eq_count_ones _ hbm]
  have h1 := count_ones_succ_bit_set bm idx hset
  have h2 := count_ones_mono bm (idx + 1) 64 (by omega)
  omega

theorem count_ones_le_popcount (bm idx : Nat) (hbm : bm < 2 ^ 64) (hidx : idx ≤ 64) :
    count_ones bm idx ≤ popcount bm := by
  rw [popcount_eq_count_ones _ hbm]
  exact count_ones_mono bm idx 64 hidx

theorem slots_insert (bm : Nat) (es : List Entry) (idx : Nat) (e : Entry)
    (hbm : bm < 2 ^ 64) (hidx : idx < 64) (hlen : es.length = popcount bm)
    (hclear : bm / 2 ^ idx % 2 = 0) (j : Nat) (hj : j < 64) :
    (unpack 64 (bm ||| 2 ^ idx) (es.insertIdx (count_ones bm idx) e)).getD j none =
      if j = idx then some e else (unpack 64 bm es).getD j none := by
  have hpos : count_ones bm idx ≤ es.length := by
    rw [hlen]
    exact count_ones_le_popcount bm idx hbm (by omega)
  rw [unpack_getD _ _ _ _ hj, unpack_getD _ _ _ _ hj, or_pow_div_pow_mod]
  by_cases hji : j = idx
  · subst hji
    rw [if_pos rfl, if_pos rfl, if_pos rfl, co_or_le j j bm le_rfl]
    exact get?_insertIdx_self es _ e hpos
  · rw [if_neg hji, if_neg hji]
    by_cases hbit : bm / 2 ^ j % 2 = 1
    · rw [if_pos hbit, if_pos hbit]
      rcases Nat.lt_or_ge j idx with hlt | hge
      · rw [co_or_le idx j bm (by omega)]
        exact get?_insertIdx_lt es _ _ e (count_ones_strict bm j idx hlt hbit)
      · have hgt : idx < j := by omega
        rw [co_or_gt idx j bm hgt hclear]
        exact get?_insertIdx_ge es _ _ e (count_ones_mono bm idx j (by omega))
    · rw [if_neg hbit, if_neg hbit]

theorem slots_erase (bm : Nat) (es : List Entry) (idx : Nat)
    (hidx : idx < 64)
    (hset : bm / 2 ^ idx % 2 = 1) (j : Nat) (hj : j < 64) :
    (unpack 64 (clearBit bm idx) (es.eraseIdx (count_ones bm idx))).getD j none =
      if j = idx then none else (unpack 64 bm es).getD j none := by
  rw [unpack_getD _ _ _ _ hj, unpack_getD _ _ _ _ hj, clearBit_div_pow_mod]
  by_cases hji : j = idx
  · subst hji
    rw [if_pos rfl, if_pos rfl]
    simp
  · rw [if_neg hji, if_neg hji]
    by_cases hbit : bm / 2 ^ j % 2 = 1
    · rw [if_pos hbit, if_pos hbit]
      rcases Nat.lt_or_ge j idx with hlt | hge
      · rw [co_clear_le idx j bm (by omega)]
        exact get?_eraseIdx_lt es _ _ (count_ones_strict bm j idx hlt hbit)
      · have hgt : idx < j := by omega
        have h1 := co_clear_gt idx j bm hgt hset
        have h2 : count_ones (clearBit bm idx) j = count_ones bm j - 1 := by omega
        rw [h2]
        have h3 := count_ones_succ_bit_set bm idx hset
        have h4 := count_ones_mono bm (idx + 1) j (by omega)
        rw [get?_eraseIdx_ge es _ _ (by omega)]
        congr 1
        omega
    · rw [if_neg hbit, if_neg hbit]

theorem slots_set (bm : Nat) (es : List Entry) (idx : Nat) (e : Entry)
    (hbm : bm < 2 ^ 64) (hidx : idx < 64) (hlen : es.length = popcount bm)
    (hset : bm / 2 ^ idx % 2 = 1) (j : Nat) (hj : j < 64) :
    (unpack 64 bm (es.set (count_ones bm idx) e)).getD j none =
      if j = idx then some e else (unpack 64 bm es).getD j none := by
  have hpos : count_ones bm idx < es.length := by
    rw [hlen]
    exact count_ones_lt_popcount bm idx hbm hidx hset
  rw [unpack_getD _ _ _ _ hj, unpack_getD _ _ _ _ hj]
  by_cases hji : j = idx
  · subst hji
    rw [if_pos hset, if_pos hset, if_pos rfl]
    exact get?_set_self es _ e hpos
  · rw [if_neg hji]
    by_cases hbit : bm / 2 ^ j % 2 = 1
    · rw [if_pos hbit, if_pos hbit]
      apply get?_set_ne
      rcases Nat.lt_or_ge j idx with hlt | hge
      · exact Nat.ne_of_lt (count_ones_strict bm j idx hlt hbit)
      · have hgt : idx < j := by omega
        have h3 := count_ones_succ_bit_set bm idx hset
        have h4 := count_ones_mono bm (idx + 1) j (by omega)
        omega
    · rw [if_neg hbit, if_neg hbit]

end Hamt

namespace Hamt

theorem keysVals_mk (bm : Nat) (es : List Entry) (hc : Option Bytes) :
    (Node.mk bm es hc).keysVals = entriesKeysVals es := by
  rw [Node.keysVals]

theorem keys_mk (bm : Nat) (es : List Entry) (hc : Option Bytes) :
    (Node.mk bm es hc).keys = (entriesKeysVals es).map Prod.fst := by
  rw [Node.keys, keysVals_mk]

theorem entriesKeysVals_eq_flatMap : ∀ es : List Entry,
    entriesKeysVals es = es.flatMap entryKVs := by
  intro es
  induction es with
  | nil => rfl
  | cons e rest ih =>
      match e with
      | .mk k v none =>
          rw [entriesKeysVals, List.flatMap_cons, ih]
          rfl
      | .mk k v (some c) =>
          rw [entriesKeysVals, List.flatMap_cons, ih]
          rfl

theorem insertIdx_decomp {α : Type} : ∀ (l : List α) (pos : Nat) (x : α), pos ≤ l.length →
    l.insertIdx pos x = l.take pos ++ x :: l.drop pos := by
  intro l
  induction l with
  | nil =>
      intro pos x h
      have : pos = 0 := by simpa using h
      subst this
      rfl
  | cons a l ih =>
      intro pos x h
      match pos with
      | 0 => rfl
      | pos + 1 =>
          rw [List.insertIdx_succ_cons, ih pos x (by simpa using h)]
          rfl

theorem get?_decomp {α : Type} : ∀ (l : List α) (pos : Nat) (e : α), l.get? pos = some e →
    l = l.take pos ++ e :: l.drop (pos + 1) := by
  intro l
  induction l with
  | nil => intro pos e h; simp at h
  | cons a l ih =>
      intro pos e h
      match pos with
      | 0 =>
          simp at h
          subst h
          rfl
      | pos + 1 =>
          simp only [List.get?_cons_succ] at h
          rw [List.take_succ_cons, List.drop_succ_cons, List.cons_append, ← ih pos e h]

theorem mem_of_get? {α : Type} (l : List α) (pos : Nat) (e : α) (h : l.get? pos = some e) :
    e ∈ l :=
  List.mem_iff_get?.mpr ⟨pos, h⟩

theorem lt_length_of_get? {α : Type} (l : List α) (pos : Nat) (e : α)
    (h : l.get? pos = some e) : pos < l.length := by
  by_contra hge
  rw [List.get?_eq_none.mpr (by omega)] at h
  simp at h

theorem rank_surj : ∀ (w bm p : Nat), p < count_ones bm w →
    ∃ j, j < w ∧ bm / 2 ^ j % 2 = 1 ∧ count_ones bm j = p := by
  intro w
  induction w with
  | zero =>
      intro bm p h
      rw [count_ones_zero] at h
      omega
  | succ w ih =>
      intro bm p h
      rw [count_ones_succ] at h
      by_cases hb : bm % 2 = 1
      · match p with
        | 0 =>
            exact ⟨0, by omega, by simpa using hb, count_ones_zero bm⟩
        | p + 1 =>
            obtain ⟨j, hj, hbit, hcnt⟩ := ih (bm / 2) p (by omega)
            refine ⟨j + 1, by omega, ?_, ?_⟩
            · rw [Nat.div_div_eq_div_mul, ← pow_succ'] at hbit
              exact hbit
            · rw [count_ones_succ, hb, hcnt]
              omega
      · have hb0 : bm % 2 = 0 := by omega
        obtain ⟨j, hj, hbit, hcnt⟩ := ih (bm / 2) p (by omega)
        refine ⟨j + 1, by omega, ?_, ?_⟩
        · rw [Nat.div_div_eq_div_mul, ← pow_succ'] at hbit
          exact hbit
        · rw [count_ones_succ, hb0, hcnt]
          omega

theorem mem_keysVals_iff (es : List Entry) (q : Bytes) (w : Cbor) :
    (q, w) ∈ entriesKeysVals es ↔ ∃ p e, es.get? p = some e ∧ (q, w) ∈ entryKVs e := by
  rw [entriesKeysVals_eq_flatMap, List.mem_flatMap]
  constructor
  · rintro ⟨e, he, hkv⟩
    obtain ⟨p, hp⟩ := List.mem_iff_get?.mp he
    exact ⟨p, e, hp, hkv⟩
  · rintro ⟨p, e, hp, hkv⟩
    exact ⟨e, mem_of_get? es p e hp, hkv⟩

/-- Every positioned entry of a well-formed node sits in a unique slot,
with the selector bit set and the packing rank matching its position. -/
theorem slotWF (fuel consumed : Nat) (bm : Nat) (es : List Entry) (hc : Option Bytes)
    (hwf : NodeWF (fuel + 1) consumed (.mk bm es hc)) (p : Nat) (e : Entry)
    (hp : es.get? p = some e) :
    ∃ j, j < 64 ∧ bm / 2 ^ j % 2 = 1 ∧ count_ones bm j = p ∧
      (match e.child with
       | none => ∃ k, e.key = some k ∧ keyChunk k consumed = j
       | some c => e.key = none ∧ NodeWF fuel (consumed + BITS_PER_STEP) c ∧
           (∀ k ∈ c.keys, keyChunk k consumed = j) ∧ 2 ≤ c.keys.length) := by
  obtain ⟨hbm, hlen, hslots⟩ := hwf
  simp only [Node.bitmap, Node.entries] at hbm hlen hslots
  have hplen : p < es.length := lt_length_of_get? es p e hp
  have hpc : p < count_ones bm 64 := by
    rw [← popcount_eq_count_ones bm hbm, ← hlen]
    exact hplen
  obtain ⟨j, hj, hbit, hcnt⟩ := rank_surj 64 bm p hpc
  have hslot : (unpack 64 bm es).getD j none = some e := by
    rw [unpack_getD j 64 bm es hj, if_pos hbit, hcnt]
    exact hp
  exact ⟨j, hj, hbit, hcnt, hslots j e hslot⟩

/-- Keys contributed by an entry of slot `j` have chunk `j` at this level. -/
theorem kvs_chunk (consumed j fuel : Nat) (e : Entry)
    (hcl : match e.child with
       | none => ∃ k, e.key = some k ∧ keyChunk k consumed = j
       | some c => e.key = none ∧ NodeWF fuel (consumed + BITS_PER_STEP) c ∧
           (∀ k ∈ c.keys, keyChunk k consumed = j) ∧ 2 ≤ c.keys.length)
    (q : Bytes) (w : Cbor) (hkv : (q, w) ∈ entryKVs e) : keyChunk q consumed = j := by
  match e with
  | .mk key v none =>
      obtain ⟨k, hkey, hchunk⟩ := hcl
      simp only [Entry.key] at hkey
      rw [entryKVs] at hkv
      simp at hkv
      rw [hkv.1, hkey]
      simpa using hchunk
  | .mk key v (some c) =>
      obtain ⟨-, -, hkeys, -⟩ := hcl
      rw [entryKVs] at hkv
      apply hkeys
      rw [Node.keys]
      exact List.mem_map.mpr ⟨(q, w), hkv, rfl⟩

/-- A key/value pair of a well-formed node lives in the slot its chunk
selects. -/
theorem mem_slot (fuel consumed : Nat) (bm : Nat) (es : List Entry) (hc : Option Bytes)
    (hwf : NodeWF (fuel + 1) consumed (.mk bm es hc)) (q : Bytes) (w : Cbor)
    (hmem : (q, w) ∈ entriesKeysVals es) :
    bm / 2 ^ (keyChunk q consumed) % 2 = 1 ∧
    ∃ e, es.get? (count_ones bm (keyChunk q consumed)) = some e ∧ (q, w) ∈ entryKVs e := by
  obtain ⟨p, e, hp, hkv⟩ := (mem_keysVals_iff es q w).mp hmem
  obtain ⟨j, hj, hbit, hcnt, hcl⟩ := slotWF fuel consumed bm es hc hwf p e hp
  have hqj : keyChunk q consumed = j := kvs_chunk consumed j fuel e hcl q w hkv
  rw [hqj, hcnt]
  exact ⟨hbit, e, hp, hkv⟩

end Hamt

namespace Hamt

theorem pairwise_keys_of_keysVals (l : List (Bytes × Cbor))
    (h : (l.map Prod.fst).Pairwise (· ≠ ·)) :
    l.Pairwise (fun a b => a.1 ≠ b.1) := (List.pairwise_map).mp h

theorem keysVals_pairwise_of_keys (l : List (Bytes × Cbor))
    (h : l.Pairwise (fun a b => a.1 ≠ b.1)) :
    (l.map Prod.fst).Pairwise (· ≠ ·) := (List.pairwise_map).mpr h

theorem nodeKeys_pairwise : ∀ (fuel consumed : Nat) (n : Node),
    NodeWF fuel consumed n → n.keys.Pairwise (· ≠ ·) := by
  intro fuel
  induction fuel with
  | zero =>
      intro consumed n hwf
      match n with
      | .mk bm es hc =>
          obtain ⟨hflat, hpw⟩ := hwf
          simp only [Node.entries] at hflat hpw
          rw [keys_mk]
          induction es with
          | nil => simp [entriesKeysVals]
          | cons e rest ih =>
              match e with
              | .mk k v none =>
                  rw [entriesKeysVals, List.map_cons]
                  rw [List.pairwise_cons] at hpw ⊢
                  obtain ⟨hk, hrest⟩ := hpw
                  refine ⟨?_, ih (fun e he => hflat e (by simp [he])) hrest⟩
                  intro q hq
                  rw [List.mem_map] at hq
                  obtain ⟨⟨q1, w1⟩, hq1, hq2⟩ := hq
                  obtain ⟨p, e', hp, hkv⟩ := (mem_keysVals_iff rest q1 w1).mp hq1
                  have he' := mem_of_get? rest p e' hp
                  obtain ⟨hch', hkey'⟩ := hflat e' (by simp [he'])
                  match e', hch' with
                  | .mk k' v' none, _ =>
                      rw [entryKVs] at hkv
                      simp at hkv
                      have hkne := hk (.mk k' v' none) he'
                      simp only [Entry.key] at hkne hkey'
                      obtain ⟨hk0, hke⟩ := hflat (.mk k v none) (by simp)
                      simp only [Entry.key] at hke
                      match k, hke, k', hkey' with
                      | some a, _, some b, _ =>
                          simp at hq2 hkv
                          rw [← hq2, hkv.1]
                          simp
                          intro hab
                          rw [hab] at hkne
                          exact hkne rfl
              | .mk k v (some c) =>
                  exact absurd (hflat (.mk k v (some c)) (by simp)).1 (by simp [Entry.child])
  | succ fuel ih =>
      intro consumed n hwf
      match n with
      | .mk bm es hc =>
          rw [keys_mk]
          apply keysVals_pairwise_of_keys
          rw [entriesKeysVals_eq_flatMap]
          rw [List.pairwise_flatMap]
          constructor
          · intro e he
            obtain ⟨p, hp⟩ := List.mem_iff_get?.mp he
            obtain ⟨j, hj, hbit, hcnt, hcl⟩ := slotWF fuel consumed bm es hc hwf p e hp
            match e with
            | .mk k v none => simp [entryKVs]
            | .mk k v (some c) =>
                obtain ⟨-, hcwf, -, -⟩ := hcl
                rw [entryKVs]
                apply pairwise_keys_of_keysVals
                exact ih (consumed + BITS_PER_STEP) c hcwf
          · rw [List.pairwise_iff_get]
            intro i j hij x hx y hy
            have hpi : es.get? i.val = some (es.get i) := List.get?_eq_get i.isLt
            have hpj : es.get? j.val = some (es.get j) := List.get?_eq_get j.isLt
            obtain ⟨j1, hj1, hbit1, hcnt1, hcl1⟩ :=
              slotWF fuel consumed bm es hc hwf i.val (es.get i) hpi
            obtain ⟨j2, hj2, hbit2, hcnt2, hcl2⟩ :=
              slotWF fuel consumed bm es hc hwf j.val (es.get j) hpj
            have hx' := kvs_chunk consumed j1 fuel (es.get i) hcl1 x.1 x.2 (by simpa using hx)
            have hy' := kvs_chunk consumed j2 fuel (es.get j) hcl2 y.1 y.2 (by simpa using hy)
            intro hxy
            rw [hxy] at hx'
            have : j1 = j2 := by rw [← hx', ← hy']
            subst this
            rw [hcnt1] at hcnt2
            have : i.val = j.val := hcnt2
            omega

end Hamt

namespace Hamt

theorem keyChunk_lt_64 (k : Bytes) (c : Nat) : keyChunk k c < 64 := by
  unfold keyChunk hsNext
  have h : ∀ x : Nat, x &&& ((1 <<< BITS_PER_STEP) - 1) < 64 := by
    intro x
    have := @Nat.and_le_right x ((1 <<< BITS_PER_STEP) - 1)
    simp [BITS_PER_STEP] at this ⊢
    omega
  exact h _

theorem unpack_zero_getD (w j : Nat) (es : List Entry) :
    (unpack w 0 es).getD j none = none := by
  rcases Nat.lt_or_ge j w with hj | hj
  · rw [unpack_getD j w 0 es hj]
    simp
  · apply List.getD_eq_default
    rw [unpack_length]
    omega

theorem emptyWF (fuel consumed : Nat) : NodeWF fuel consumed (.mk 0 [] none) := by
  match fuel with
  | 0 => exact ⟨by simp [Node.entries], by simp [Node.entries]⟩
  | fuel + 1 =>
      refine ⟨by norm_num [Node.bitmap], by simp [Node.entries, Node.bitmap]; rfl, ?_⟩
      intro idx e hslot
      simp only [Node.bitmap, Node.entries] at hslot
      rw [unpack_zero_getD] at hslot
      simp at hslot

theorem keys_empty : (Node.mk 0 [] none).keys = [] := rfl

theorem keysVals_empty : (Node.mk 0 [] none).keysVals = [] := rfl

theorem mem_keys_iff (n : Node) (q : Bytes) : q ∈ n.keys ↔ ∃ w, (q, w) ∈ n.keysVals := by
  rw [Node.keys]
  constructor
  · intro h
    obtain ⟨⟨q1, w⟩, hm, he⟩ := List.mem_map.mp h
    simp at he
    subst he
    exact ⟨w, hm⟩
  · rintro ⟨w, hw⟩
    exact List.mem_map.mpr ⟨(q, w), hw, rfl⟩

theorem mem_unique : ∀ (l : List (Bytes × Cbor)), (l.map Prod.fst).Pairwise (· ≠ ·) →
    ∀ q v1 v2, (q, v1) ∈ l → (q, v2) ∈ l → v1 = v2 := by
  intro l
  induction l with
  | nil => intro _ q v1 v2 h; simp at h
  | cons a l ih =>
      intro hpw q v1 v2 h1 h2
      rw [List.map_cons, List.pairwise_cons] at hpw
      obtain ⟨ha, hl⟩ := hpw
      rcases List.mem_cons.mp h1 with he1 | hm1
      · rcases List.mem_cons.mp h2 with he2 | hm2
        · rw [← he1] at he2
          exact (Prod.mk.injEq _ _ _ _ ▸ he2).2.symm
        · exfalso
          apply ha q (List.mem_map.mpr ⟨(q, v2), hm2, rfl⟩)
          rw [← he1]
      · rcases List.mem_cons.mp h2 with he2 | hm2
        · exfalso
          apply ha q (List.mem_map.mpr ⟨(q, v1), hm1, rfl⟩)
          rw [← he2]
        · exact ih hl q v1 v2 hm1 hm2

theorem content_set (es : List Entry) (pos : Nat) (e e' : Entry)
    (hp : es.get? pos = some e) :
    entriesKeysVals (es.set pos e') =
      entriesKeysVals (es.take pos) ++ entryKVs e' ++ entriesKeysVals (es.drop (pos + 1)) ∧
    entriesKeysVals es =
      entriesKeysVals (es.take pos) ++ entryKVs e ++ entriesKeysVals (es.drop (pos + 1)) := by
  have hlt : pos < es.length := lt_length_of_get? es pos e hp
  have hdecomp := get?_decomp es pos e hp
  constructor
  · rw [List.set_eq_take_cons_drop e' hlt]
    simp only [entriesKeysVals_eq_flatMap, List.flatMap_append, List.flatMap_cons]
    rw [List.append_assoc]
  · conv_lhs => rw [hdecomp]
    simp only [entriesKeysVals_eq_flatMap, List.flatMap_append, List.flatMap_cons]
    rw [List.append_assoc]

theorem content_insertIdx (es : List Entry) (pos : Nat) (e' : Entry)
    (hp : pos ≤ es.length) :
    entriesKeysVals (es.insertIdx pos e') =
      entriesKeysVals (es.take pos) ++ entryKVs e' ++ entriesKeysVals (es.drop pos) ∧
    entriesKeysVals es =
      entriesKeysVals (es.take pos) ++ entriesKeysVals (es.drop pos) := by
  constructor
  · rw [insertIdx_decomp es pos e' hp]
    simp only [entriesKeysVals_eq_flatMap, List.flatMap_append, List.flatMap_cons]
    rw [List.append_assoc]
  · conv_lhs => rw [← List.take_append_drop pos es]
    simp only [entriesKeysVals_eq_flatMap, List.flatMap_append]

theorem content_eraseIdx (es : List Entry) (pos : Nat) (e : Entry)
    (hp : es.get? pos = some e) :
    entriesKeysVals (es.eraseIdx pos) =
      entriesKeysVals (es.take pos) ++ entriesKeysVals (es.drop (pos + 1)) ∧
    entriesKeysVals es =
      entriesKeysVals (es.take pos) ++ entryKVs e ++ entriesKeysVals (es.drop (pos + 1)) := by
  have hdecomp := get?_decomp es pos e hp
  constructor
  · rw [List.eraseIdx_eq_take_drop_succ]
    simp only [entriesKeysVals_eq_flatMap, List.flatMap_append]
  · conv_lhs => rw [hdecomp]
    simp only [entriesKeysVals_eq_flatMap, List.flatMap_append, List.flatMap_cons]
    rw [List.append_assoc]

end Hamt

namespace Hamt

theorem insert_fallback_ok (k : Bytes) (v : Cbor) :
    ∀ es : List Entry,
    (∀ e ∈ es, e.child = none ∧ e.key ≠ none) →
    es.Pairwise (fun a b => a.key ≠ b.key) →
    (∀ e ∈ (insert_fallback k v es).2, e.child = none ∧ e.key ≠ none) ∧
    (∀ e' ∈ (insert_fallback k v es).2, e'.key = some k ∨ ∃ e'' ∈ es, e''.key = e'.key) ∧
    (insert_fallback k v es).2.Pairwise (fun a b => a.key ≠ b.key) ∧
    ((insert_fallback k v es).1 = true ↔ ¬ k ∈ (entriesKeysVals es).map Prod.fst) ∧
    (k, v) ∈ entriesKeysVals (insert_fallback k v es).2 ∧
    (∀ q w, q ≠ k →
      ((q, w) ∈ entriesKeysVals (insert_fallback k v es).2 ↔ (q, w) ∈ entriesKeysVals es)) ∧
    (∀ q, q ∈ (entriesKeysVals (insert_fallback k v es).2).map Prod.fst →
      q = k ∨ q ∈ (entriesKeysVals es).map Prod.fst) ∧
    ((entriesKeysVals (insert_fallback k v es).2).length =
      if (insert_fallback k v es).1 then (entriesKeysVals es).length + 1
      else (entriesKeysVals es).length) := by
  intro es
  induction es with
  | nil =>
      intro hflat hpw
      refine ⟨?_, ?_, ?_, ?_, ?_, ?_, ?_, ?_⟩ <;>
        simp [insert_fallback, entriesKeysVals, Entry.child, Entry.key] <;>
        intro q w h1 h2 <;> exact absurd h2 h1
  | cons e rest ih =>
      intro hflat hpw
      obtain ⟨hch, hkey⟩ := hflat e (by simp)
      obtain ⟨key0, val, ch⟩ := e
      have hch' : ch = none := by simpa [Entry.child] using hch
      subst hch'
      have hkey' : ∃ kk, key0 = some kk := by
        match key0 with
        | none => simp [Entry.key] at hkey
        | some a => exact ⟨a, rfl⟩
      obtain ⟨kk, hkk⟩ := hkey'
      subst hkk
      rw [List.pairwise_cons] at hpw
      obtain ⟨hhead, htail⟩ := hpw
      by_cases hk : kk = k
      · subst hk
        have hres : insert_fallback kk v (Entry.mk (some kk) val none :: rest)
            = (false, Entry.mk (some kk) v none :: rest) := by
          rw [insert_fallback]
          simp [Entry.key, Entry.child]
        rw [hres]
        simp only [entriesKeysVals]
        refine ⟨?_, ?_, ?_, ?_, ?_, ?_, ?_, ?_⟩
        · intro e' he'
          rcases List.mem_cons.mp he' with h | h
          · subst h
            exact ⟨rfl, by simp [Entry.key]⟩
          · exact hflat e' (by simp [h])
        · intro e' he'
          rcases List.mem_cons.mp he' with h | h
          · subst h
            exact .inl rfl
          · exact .inr ⟨e', by simp [h], rfl⟩
        · rw [List.pairwise_cons]
          exact ⟨fun e' he' => hhead e' he', htail⟩
        · simp
        · simp
        · intro q w hq
          simp only [Option.getD_some, List.mem_cons]
          constructor
          · rintro (h | h)
            · exact absurd (Prod.mk.injEq _ _ _ _ ▸ h).1 hq
            · exact .inr h
          · rintro (h | h)
            · exact absurd (Prod.mk.injEq _ _ _ _ ▸ h).1 hq
            · exact .inr h
        · intro q hq
          simp only [Option.getD_some, List.map_cons, List.mem_cons] at hq ⊢
          rcases hq with h | h
          · exact .inl h
          · exact .inr (.inr h)
        · simp
      · have hres : insert_fallback k v (Entry.mk (some kk) val none :: rest)
            = ((insert_fallback k v rest).1,
               Entry.mk (some kk) val none :: (insert_fallback k v rest).2) := by
          rw [insert_fallback]
          simp only [Entry.key]
          rw [if_neg (by simp [hk])]
        obtain ⟨ih1, ih2, ih3, ih4, ih5, ih6, ih7, ih8⟩ :=
          ih (fun e' he' => hflat e' (by simp [he'])) htail
        rw [hres]
        simp only [entriesKeysVals]
        refine ⟨?_, ?_, ?_, ?_, ?_, ?_, ?_, ?_⟩
        · intro e' he'
          rcases List.mem_cons.mp he' with h | h
          · subst h
            exact ⟨rfl, by simp [Entry.key]⟩
          · exact ih1 e' h
        · intro e' he'
          rcases List.mem_cons.mp he' with h | h
          · subst h
            exact .inr ⟨_, by simp, rfl⟩
          · rcases ih2 e' h with h' | ⟨e'', he'', heq⟩
            · exact .inl h'
            · exact .inr ⟨e'', by simp [he''], heq⟩
        · rw [List.pairwise_cons]
          refine ⟨?_, ih3⟩
          intro e' he'
          rcases ih2 e' he' with h' | ⟨e'', he'', heq⟩
          · rw [h']
            simp only [Entry.key]
            intro hcon
            exact hk (by injection hcon)
          · rw [← heq]
            exact hhead e'' he''
        · rw [ih4]
          simp only [Option.getD_some, List.map_cons, List.mem_cons]
          constructor
          · intro h hcon
            rcases hcon with h' | h'
            · exact hk h'.symm
            · exact h h'
          · intro h h'
            exact h (.inr h')
        · simp only [Option.getD_some, List.mem_cons]
          exact .inr ih5
        · intro q w hq
          simp only [Option.getD_some, List.mem_cons]
          rw [ih6 q w hq]
        · intro q hq
          simp only [Option.getD_some, List.map_cons, List.mem_cons] at hq ⊢
          rcases hq with h | h
          · exact .inr (.inl h)
          · rcases ih7 q h with h' | h'
            · exact .inl h'
            · exact .inr (.inr h')
        · simp only [Option.getD_some, List.length_cons]
          rw [ih8]
          by_cases hb : (insert_fallback k v rest).1 <;> simp [hb]

end Hamt

namespace Hamt

theorem content_mid (A B mid mid' : List (Bytes × Cbor)) (k : Bytes) (v : Cbor) (b : Bool)
    (h1 : (k, v) ∈ mid')
    (h2 : ∀ q w, q ≠ k → ((q, w) ∈ mid' ↔ (q, w) ∈ mid))
    (h3 : ∀ q, q ∈ mid'.map Prod.fst → q = k ∨ q ∈ mid.map Prod.fst)
    (h4 : mid'.length = if b then mid.length + 1 else mid.length) :
    (k, v) ∈ A ++ mid' ++ B ∧
    (∀ q w, q ≠ k → ((q, w) ∈ A ++ mid' ++ B ↔ (q, w) ∈ A ++ mid ++ B)) ∧
    (∀ q, q ∈ (A ++ mid' ++ B).map Prod.fst → q = k ∨ q ∈ (A ++ mid ++ B).map Prod.fst) ∧
    ((A ++ mid' ++ B).length =
      if b then (A ++ mid ++ B).length + 1 else (A ++ mid ++ B).length) := by
  refine ⟨?_, ?_, ?_, ?_⟩
  · simp only [List.mem_append]
    exact .inl (.inr h1)
  · intro q w hq
    simp only [List.mem_append]
    rw [h2 q w hq]
  · intro q hq
    simp only [List.map_append, List.mem_append] at hq ⊢
    rcases hq with (hq | hq) | hq
    · exact .inr (.inl (.inl hq))
    · rcases h3 q hq with h | h
      · exact .inl h
      · exact .inr (.inl (.inr h))
    · exact .inr (.inr hq)
  · simp only [List.length_append, h4]
    cases b <;> simp <;> omega

theorem bit_set_of_not_and (bm idx : Nat) (h : ¬ bm &&& (1 <<< idx) = 0) :
    bm / 2 ^ idx % 2 = 1 := by
  have h2 := (and_pow_eq_zero_iff bm idx).mpr
  have h3 : bm / 2 ^ idx % 2 < 2 := Nat.mod_lt _ (by omega)
  by_contra hc
  exact h (h2 (by omega))

theorem not_mem_keys_of_bit_clear (fuel consumed : Nat) (bm : Nat) (es : List Entry)
    (hc : Option Bytes) (hwf : NodeWF (fuel + 1) consumed (.mk bm es hc)) (q : Bytes)
    (hclear : bm / 2 ^ (keyChunk q consumed) % 2 = 0) :
    ¬ q ∈ (Node.mk bm es hc).keys := by
  intro hmem
  obtain ⟨w, hw⟩ := (mem_keys_iff _ q).mp hmem
  rw [keysVals_mk] at hw
  obtain ⟨hbit, -⟩ := mem_slot fuel consumed bm es hc hwf q w hw
  omega

theorem mem_keys_slot_iff (fuel consumed : Nat) (bm : Nat) (es : List Entry)
    (hc : Option Bytes) (hwf : NodeWF (fuel + 1) consumed (.mk bm es hc)) (q : Bytes)
    (e : Entry) (hget : es.get? (count_ones bm (keyChunk q consumed)) = some e) :
    (q ∈ (Node.mk bm es hc).keys ↔ ∃ w, (q, w) ∈ entryKVs e) := by
  constructor
  · intro hmem
    obtain ⟨w, hw⟩ := (mem_keys_iff _ q).mp hmem
    rw [keysVals_mk] at hw
    obtain ⟨-, e', hget', hkv'⟩ := mem_slot fuel consumed bm es hc hwf q w hw
    rw [hget] at hget'
    injection hget' with he
    subst he
    exact ⟨w, hkv'⟩
  · rintro ⟨w, hw⟩
    apply (mem_keys_iff _ q).mpr ⟨w, ?_⟩
    rw [keysVals_mk]
    exact (mem_keysVals_iff es q w).mpr ⟨_, e, hget, hw⟩

end Hamt

namespace Hamt

theorem keys_eq_map (n : Node) : n.keys = n.keysVals.map Prod.fst := rfl

theorem keys_length (n : Node) : n.keys.length = n.keysVals.length := by
  rw [keys_eq_map, List.length_map]

theorem slot_oob (bm : Nat) (es : List Entry) (j : Nat) (hj : 64 ≤ j) :
    (unpack 64 bm es).getD j none = none := by
  apply List.getD_eq_default
  rw [unpack_length]
  exact hj

theorem keysVals_singleton_of_length_one (n : Node) (k : Bytes) (v : Cbor)
    (hmem : (k, v) ∈ n.keysVals) (hlen : n.keysVals.length = 1) :
    n.keysVals = [(k, v)] := by
  obtain ⟨a, ha⟩ := List.length_eq_one.mp hlen
  rw [ha] at hmem ⊢
  simp at hmem
  rw [hmem]

end Hamt

namespace Hamt

/-- Node.insert preserves structural well-formedness, reports `inserted`
exactly when the key was absent, stores the pair, leaves other bindings
alone, introduces no foreign keys, and grows the content by the flag. -/
theorem insertAux_ok : ∀ (fuel consumed : Nat) (k : Bytes) (v : Cbor) (n : Node),
    NodeWF fuel consumed n →
    NodeWF fuel consumed (insertAux fuel k v consumed n).2 ∧
    ((insertAux fuel k v consumed n).1 = true ↔ ¬ k ∈ n.keys) ∧
    (k, v) ∈ (insertAux fuel k v consumed n).2.keysVals ∧
    (∀ q w, q ≠ k →
      ((q, w) ∈ (insertAux fuel k v consumed n).2.keysVals ↔ (q, w) ∈ n.keysVals)) ∧
    (∀ q, q ∈ (insertAux fuel k v consumed n).2.keys → q = k ∨ q ∈ n.keys) ∧
    ((insertAux fuel k v consumed n).2.keysVals.length =
      if (insertAux fuel k v consumed n).1 then n.keysVals.length + 1
      else n.keysVals.length) := by
  intro fuel
  induction fuel with
  | zero =>
      intro consumed k v n hwf
      match n with
      | .mk bm es hc =>
          obtain ⟨hflat, hpw⟩ := hwf
          simp only [Node.entries] at hflat hpw
          obtain ⟨f1, f2, f3, f4, f5, f6, f7, f8⟩ := insert_fallback_ok k v es hflat hpw
          rcases hif : insert_fallback k v es with ⟨flag, es'⟩
          simp only [hif] at f1 f2 f3 f4 f5 f6 f7 f8
          have hres1 : (insertAux 0 k v consumed (.mk bm es hc)).1 = flag := by
            simp only [insertAux, hif]
          have hres2 : (insertAux 0 k v consumed (.mk bm es hc)).2 =
              .mk bm es' (if flag then none else hc) := by
            simp only [insertAux, hif]
          refine ⟨?_, ?_, ?_, ?_, ?_, ?_⟩
          · rw [hres2]
            exact ⟨by simpa only [Node.entries] using f1, by simpa only [Node.entries] using f3⟩
          · rw [hres1, keys_mk]
            exact f4
          · rw [hres2, keysVals_mk]
            exact f5
          · intro q w hq
            rw [hres2, keysVals_mk, keysVals_mk]
            exact f6 q w hq
          · intro q hq
            rw [hres2, keys_mk] at hq
            rw [keys_mk]
            exact f7 q hq
          · rw [hres1, hres2, keysVals_mk, keysVals_mk]
            exact f8
  | succ fuel ih =>
      intro consumed k v n hwf
      match n with
      | .mk bm es hc =>
          have hbm : bm < 2 ^ 64 := by simpa only [Node.bitmap] using hwf.1
          have hlen : es.length = popcount bm := by
            simpa only [Node.entries, Node.bitmap] using hwf.2.1
          have hslots := hwf.2.2
          simp only [Node.bitmap, Node.entries] at hslots
          have hidx64 : keyChunk k consumed < 64 := keyChunk_lt_64 k consumed
          by_cases hbit : bm &&& (1 <<< keyChunk k consumed) = 0
          · -- fresh leaf in an empty slot
            have hclear : bm / 2 ^ (keyChunk k consumed) % 2 = 0 :=
              (and_pow_eq_zero_iff bm _).mp hbit
            have hple : count_ones bm (keyChunk k consumed) ≤ es.length := by
              rw [hlen]
              exact count_ones_le_popcount bm _ hbm (by omega)
            have hres1 : (insertAux (fuel + 1) k v consumed (.mk bm es hc)).1 = true := by
              simp only [insertAux]
              rw [if_pos hbit]
            have hres2 : (insertAux (fuel + 1) k v consumed (.mk bm es hc)).2 =
                .mk (bm ||| 2 ^ keyChunk k consumed)
                  (es.insertIdx (count_ones bm (keyChunk k consumed)) (.mk (some k) v none))
                  none := by
              simp only [insertAux]
              rw [if_pos hbit, Nat.shiftLeft_eq, one_mul]
            obtain ⟨hnew, hold⟩ :=
              content_insertIdx es (count_ones bm (keyChunk k consumed)) (.mk (some k) v none) hple
            have hkvE : entryKVs (Entry.mk (some k) v none) = [(k, v)] := by
              simp [entryKVs]
            rw [hkvE] at hnew
            have hold' : entriesKeysVals es =
                entriesKeysVals (es.take (count_ones bm (keyChunk k consumed))) ++ [] ++
                entriesKeysVals (es.drop (count_ones bm (keyChunk k consumed))) := by
              rw [hold]
              simp
            obtain ⟨g1, g2, g3, g4⟩ := content_mid
              (entriesKeysVals (es.take (count_ones bm (keyChunk k consumed))))
              (entriesKeysVals (es.drop (count_ones bm (keyChunk k consumed))))
              [] [(k, v)] k v true (by simp)
              (by intro q w hq; simp [hq])
              (by intro q hq; simp at hq; exact .inl hq)
              (by simp)
            refine ⟨?_, ?_, ?_, ?_, ?_, ?_⟩
            · rw [hres2]
              refine ⟨?_, ?_, ?_⟩
              · simp only [Node.bitmap]
                exact Nat.or_lt_two_pow hbm (Nat.pow_lt_pow_right (by omega) hidx64)
              · simp only [Node.bitmap, Node.entries]
                rw [insertIdx_decomp es _ _ hple, popcount_or_pow bm _ hbm hidx64 hclear]
                simp only [List.length_append, List.length_cons, List.length_take,
                  List.length_drop]
                omega
              · simp only [Node.bitmap, Node.entries]
                intro j e hslot
                by_cases hj64 : j < 64
                · rw [slots_insert bm es _ _ hbm hidx64 hlen hclear j hj64] at hslot
                  by_cases hjc : j = keyChunk k consumed
                  · rw [if_pos hjc] at hslot
                    injection hslot with he
                    subst he
                    subst hjc
                    simp only [Entry.child]
                    exact ⟨k, rfl, rfl⟩
                  · rw [if_neg hjc] at hslot
                    exact hslots j e hslot
                · rw [slot_oob _ _ j (by omega)] at hslot
                  simp at hslot
            · rw [hres1]
              refine ⟨fun _ => ?_, fun _ => rfl⟩
              exact not_mem_keys_of_bit_clear fuel consumed bm es hc hwf k hclear
            · rw [hres2, keysVals_mk, hnew]
              exact g1
            · intro q w hq
              rw [hres2, keysVals_mk, keysVals_mk, hnew, hold']
              exact g2 q w hq
            · intro q hq
              rw [hres2, keys_mk, hnew] at hq
              rw [keys_mk, hold']
              exact g3 q hq
            · rw [hres1, hres2, keysVals_mk, keysVals_mk, hnew, hold']
              exact g4
          · -- occupied slot
            have hset : bm / 2 ^ (keyChunk k consumed) % 2 = 1 :=
              bit_set_of_not_and bm _ hbit
            have hpos : count_ones bm (keyChunk k consumed) < es.length := by
              rw [hlen]
              exact count_ones_lt_popcount bm _ hbm hidx64 hset
            obtain ⟨e, hget⟩ :
                ∃ e, es.get? (count_ones bm (keyChunk k consumed)) = some e :=
              ⟨_, List.get?_eq_get hpos⟩
            have hslotE : (unpack 64 bm es).getD (keyChunk k consumed) none = some e := by
              rw [unpack_getD _ 64 bm es hidx64, if_pos hset]
              exact hget
            have hclause := hslots (keyChunk k consumed) e hslotE
            obtain ⟨ekey, eval, ech⟩ := e
            cases ech with
            | none =>
                simp only [Entry.child, Entry.key] at hclause
                obtain ⟨k0, hk0, hchunk0⟩ := hclause
                subst hk0
                by_cases hkk : (some k0 : Option Bytes) = some k
                · -- overwrite an existing leaf with the same key
                  have hk0k : k0 = k := by injection hkk
                  have hres1 : (insertAux (fuel + 1) k v consumed (.mk bm es hc)).1
                      = false := by
                    simp only [insertAux]
                    rw [if_neg hbit, hget]
                    simp only [Entry.child, Entry.key]
                    rw [if_pos hkk]
                  have hres2 : (insertAux (fuel + 1) k v consumed (.mk bm es hc)).2 =
                      .mk bm (es.set (count_ones bm (keyChunk k consumed))
                        (.mk (some k0) v none)) none := by
                    simp only [insertAux]
                    rw [if_neg hbit, hget]
                    simp only [Entry.child, Entry.key]
                    rw [if_pos hkk]
                  have hkm : k ∈ (Node.mk bm es hc).keys :=
                    (mem_keys_slot_iff fuel consumed bm es hc hwf k _ hget).mpr
                      ⟨eval, by simp [entryKVs, hk0k]⟩
                  obtain ⟨hnew, hold⟩ := content_set es (count_ones bm (keyChunk k consumed))
                    (.mk (some k0) eval none) (.mk (some k0) v none) hget
                  have hkv1 : entryKVs (Entry.mk (some k0) eval none) = [(k0, eval)] := by
                    simp [entryKVs]
                  have hkv2 : entryKVs (Entry.mk (some k0) v none) = [(k0, v)] := by
                    simp [entryKVs]
                  rw [hkv2] at hnew
                  rw [hkv1] at hold
                  obtain ⟨g1, g2, g3, g4⟩ := content_mid
                    (entriesKeysVals (es.take (count_ones bm (keyChunk k consumed))))
                    (entriesKeysVals (es.drop (count_ones bm (keyChunk k consumed) + 1)))
                    [(k0, eval)] [(k0, v)] k v false
                    (by simp [hk0k])
                    (by
                      intro q w hq
                      have hqk0 : q ≠ k0 := by rw [hk0k]; exact hq
                      simp [hqk0])
                    (by
                      intro q hq
                      simp at hq ⊢
                      exact .inr hq)
                    (by simp)
                  refine ⟨?_, ?_, ?_, ?_, ?_, ?_⟩
                  · rw [hres2]
                    refine ⟨?_, ?_, ?_⟩
                    · simp only [Node.bitmap]
                      exact hbm
                    · simp only [Node.bitmap, Node.entries, List.length_set]
                      exact hlen
                    · simp only [Node.bitmap, Node.entries]
                      intro j e hslot
                      by_cases hj64 : j < 64
                      · rw [slots_set bm es _ _ hbm hidx64 hlen hset j hj64] at hslot
                        by_cases hjc : j = keyChunk k consumed
                        · rw [if_pos hjc] at hslot
                          injection hslot with he
                          subst he
                          subst hjc
                          simp only [Entry.child, Entry.key]
                          exact ⟨k0, rfl, hchunk0⟩
                        · rw [if_neg hjc] at hslot
                          exact hslots j e hslot
                      · rw [slot_oob _ _ j (by omega)] at hslot
                        simp at hslot
                  · rw [hres1]
                    exact ⟨fun h => by simp at h, fun h => absurd hkm h⟩
                  · rw [hres2, keysVals_mk, hnew]
                    exact g1
                  · intro q w hq
                    rw [hres2, keysVals_mk, keysVals_mk, hnew, hold]
                    exact g2 q w hq
                  · intro q hq
                    rw [hres2, keys_mk, hnew] at hq
                    rw [keys_mk, hold]
                    exact g3 q hq
                  · rw [hres1, hres2, keysVals_mk, keysVals_mk, hnew, hold]
                    exact g4
                · -- distinct key in the slot: split the leaf into a branch
                  have hne : k0 ≠ k := fun h => hkk (by rw [h])
                  rcases hrec1 : insertAux fuel k0 eval (consumed + BITS_PER_STEP)
                      (.mk 0 [] none) with ⟨i1, b1⟩
                  rcases hrec2 : insertAux fuel k v (consumed + BITS_PER_STEP) b1
                      with ⟨i2, b2⟩
                  have IH1 := ih (consumed + BITS_PER_STEP) k0 eval (.mk 0 [] none)
                    (emptyWF fuel (consumed + BITS_PER_STEP))
                  rw [hrec1] at IH1
                  simp only at IH1
                  obtain ⟨W1, F1, M1, I1, S1, L1⟩ := IH1
                  have hi1 : i1 = true := F1.mpr (by simp [keys_empty])
                  rw [keysVals_empty, hi1] at L1
                  simp at L1
                  have hb1 : b1.keysVals = [(k0, eval)] :=
                    keysVals_singleton_of_length_one b1 k0 eval M1 L1
                  have IH2 := ih (consumed + BITS_PER_STEP) k v b1 W1
                  rw [hrec2] at IH2
                  simp only at IH2
                  obtain ⟨W2, F2, M2, I2, S2, L2⟩ := IH2
                  have hi2 : i2 = true := F2.mpr (by
                    rw [keys_eq_map, hb1]
                    simp
                    exact fun h => hne h.symm)
                  rw [hi2] at L2
                  simp [hb1] at L2
                  have hres1 : (insertAux (fuel + 1) k v consumed (.mk bm es hc)).1
                      = true := by
                    simp only [insertAux]
                    rw [if_neg hbit, hget]
                    simp only [Entry.child, Entry.key, Entry.value, Option.getD]
                    rw [if_neg hkk]
                  have hres2 : (insertAux (fuel + 1) k v consumed (.mk bm es hc)).2 =
                      .mk bm (es.set (count_ones bm (keyChunk k consumed))
                        (.mk none Cbor.null (some b2))) none := by
                    simp only [insertAux]
                    rw [if_neg hbit, hget]
                    simp only [Entry.child, Entry.key, Entry.value, Option.getD]
                    rw [if_neg hkk]
                    simp only [hrec1]
                    simp only [hrec2]
                  have hb2chunk : ∀ q ∈ b2.keys, keyChunk q consumed = keyChunk k consumed := by
                    intro q hq
                    rcases S2 q hq with rfl | hq1
                    · rfl
                    · rw [keys_eq_map, hb1] at hq1
                      simp at hq1
                      subst hq1
                      exact hchunk0
                  obtain ⟨hnew, hold⟩ := content_set es (count_ones bm (keyChunk k consumed))
                    (.mk (some k0) eval none) (.mk none Cbor.null (some b2)) hget
                  have hkv1 : entryKVs (Entry.mk (some k0) eval none) = [(k0, eval)] := by
                    simp [entryKVs]
                  have hkvB : entryKVs (Entry.mk none Cbor.null (some b2)) = b2.keysVals := by
                    simp [entryKVs]
                  rw [hkvB] at hnew
                  rw [hkv1] at hold
                  obtain ⟨g1, g2, g3, g4⟩ := content_mid
                    (entriesKeysVals (es.take (count_ones bm (keyChunk k consumed))))
                    (entriesKeysVals (es.drop (count_ones bm (keyChunk k consumed) + 1)))
                    [(k0, eval)] b2.keysVals k v true
                    M2
                    (by
                      intro q w hq
                      rw [I2 q w hq, hb1])
                    (by
                      intro q hq
                      rw [← keys_eq_map b2] at hq
                      rcases S2 q hq with rfl | h
                      · exact .inl rfl
                      · rw [keys_eq_map, hb1] at h
                        simp at h
                        subst h
                        simp)
                    (by simp [L2])
                  refine ⟨?_, ?_, ?_, ?_, ?_, ?_⟩
                  · rw [hres2]
                    refine ⟨?_, ?_, ?_⟩
                    · simp only [Node.bitmap]
                      exact hbm
                    · simp only [Node.bitmap, Node.entries, List.length_set]
                      exact hlen
                    · simp only [Node.bitmap, Node.entries]
                      intro j e hslot
                      by_cases hj64 : j < 64
                      · rw [slots_set bm es _ _ hbm hidx64 hlen hset j hj64] at hslot
                        by_cases hjc : j = keyChunk k consumed
                        · rw [if_pos hjc] at hslot
                          injection hslot with he
                          subst he
                          subst hjc
                          simp only [Entry.child, Entry.key]
                          refine ⟨trivial, W2, hb2chunk, ?_⟩
                          rw [keys_length]
                          omega
                        · rw [if_neg hjc] at hslot
                          exact hslots j e hslot
                      · rw [slot_oob _ _ j (by omega)] at hslot
                        simp at hslot
                  · rw [hres1]
                    refine ⟨fun _ => ?_, fun _ => rfl⟩
                    intro hkm
                    have := (mem_keys_slot_iff fuel consumed bm es hc hwf k _ hget).mp hkm
                    obtain ⟨w, hw⟩ := this
                    rw [hkv1] at hw
                    simp at hw
                    exact hne hw.1.symm
                  · rw [hres2, keysVals_mk, hnew]
                    exact g1
                  · intro q w hq
                    rw [hres2, keysVals_mk, keysVals_mk, hnew, hold]
                    exact g2 q w hq
                  · intro q hq
                    rw [hres2, keys_mk, hnew] at hq
                    rw [keys_mk, hold]
                    exact g3 q hq
                  · rw [hres1, hres2, keysVals_mk, keysVals_mk, hnew, hold]
                    exact g4
            | some child =>
                simp only [Entry.child, Entry.key] at hclause
                obtain ⟨hekey, hcwf, hchunkC, hc2⟩ := hclause
                subst hekey
                rcases hrec : insertAux fuel k v (consumed + BITS_PER_STEP) child
                    with ⟨ins, child'⟩
                have IH := ih (consumed + BITS_PER_STEP) k v child hcwf
                rw [hrec] at IH
                simp only at IH
                obtain ⟨W, F, M, I, S, L⟩ := IH
                have hres1 : (insertAux (fuel + 1) k v consumed (.mk bm es hc)).1 = ins := by
                  simp only [insertAux]
                  rw [if_neg hbit, hget]
                  simp only [Entry.child, Entry.key, Entry.value]
                  simp only [hrec]
                have hres2 : (insertAux (fuel + 1) k v consumed (.mk bm es hc)).2 =
                    .mk bm (es.set (count_ones bm (keyChunk k consumed))
                      (.mk none eval (some child')))
                      (if ins then none else hc) := by
                  simp only [insertAux]
                  rw [if_neg hbit, hget]
                  simp only [Entry.child, Entry.key, Entry.value]
                  simp only [hrec]
                have hnodemem : k ∈ (Node.mk bm es hc).keys ↔ k ∈ child.keys := by
                  rw [mem_keys_slot_iff fuel consumed bm es hc hwf k _ hget]
                  simp only [entryKVs]
                  exact (mem_keys_iff child k).symm
                obtain ⟨hnew, hold⟩ := content_set es (count_ones bm (keyChunk k consumed))
                  (.mk none eval (some child)) (.mk none eval (some child')) hget
                have hkvC : entryKVs (Entry.mk none eval (some child)) = child.keysVals := by
                  simp [entryKVs]
                have hkvC' : entryKVs (Entry.mk none eval (some child')) = child'.keysVals := by
                  simp [entryKVs]
                rw [hkvC'] at hnew
                rw [hkvC] at hold
                obtain ⟨g1, g2, g3, g4⟩ := content_mid
                  (entriesKeysVals (es.take (count_ones bm (keyChunk k consumed))))
                  (entriesKeysVals (es.drop (count_ones bm (keyChunk k consumed) + 1)))
                  child.keysVals child'.keysVals k v ins
                  M I
                  (by
                    intro q hq
                    rw [← keys_eq_map child'] at hq
                    rcases S q hq with rfl | h
                    · exact .inl rfl
                    · rw [keys_eq_map child] at h
                      exact .inr h)
                  L
                refine ⟨?_, ?_, ?_, ?_, ?_, ?_⟩
                · rw [hres2]
                  refine ⟨?_, ?_, ?_⟩
                  · simp only [Node.bitmap]
                    exact hbm
                  · simp only [Node.bitmap, Node.entries, List.length_set]
                    exact hlen
                  · simp only [Node.bitmap, Node.entries]
                    intro j e hslot
                    by_cases hj64 : j < 64
                    · rw [slots_set bm es _ _ hbm hidx64 hlen hset j hj64] at hslot
                      by_cases hjc : j = keyChunk k consumed
                      · rw [if_pos hjc] at hslot
                        injection hslot with he
                        subst he
                        subst hjc
                        simp only [Entry.child, Entry.key]
                        refine ⟨trivial, W, ?_, ?_⟩
                        · intro q hq
                          rcases S q hq with rfl | h
                          · rfl
                          · exact hchunkC q h
                        · rw [keys_length] at hc2 ⊢
                          by_cases hi : ins = true
                          · rw [hi] at L
                            simp at L
                            omega
                          · simp at hi
                            rw [hi] at L
                            simp at L
                            omega
                      · rw [if_neg hjc] at hslot
                        exact hslots j e hslot
                    · rw [slot_oob _ _ j (by omega)] at hslot
                      simp at hslot
                · rw [hres1, hnodemem]
                  exact F
                · rw [hres2, keysVals_mk, hnew]
                  exact g1
                · intro q w hq
                  rw [hres2, keysVals_mk, keysVals_mk, hnew, hold]
                  exact g2 q w hq
                · intro q hq
                  rw [hres2, keys_mk, hnew] at hq
                  rw [keys_mk, hold]
                  exact g3 q hq
                · rw [hres1, hres2, keysVals_mk, keysVals_mk, hnew, hold]
                  exact g4

end Hamt

namespace Hamt

theorem delete_fallback_ok (k : Bytes) :
    ∀ es : List Entry,
    (∀ e ∈ es, e.child = none ∧ e.key ≠ none) →
    es.Pairwise (fun a b => a.key ≠ b.key) →
    (delete_fallback k es).2.Sublist es ∧
    ((delete_fallback k es).1 = true ↔ k ∈ (entriesKeysVals es).map Prod.fst) ∧
    ¬ k ∈ (entriesKeysVals (delete_fallback k es).2).map Prod.fst ∧
    (∀ q w, q ≠ k →
      ((q, w) ∈ entriesKeysVals (delete_fallback k es).2 ↔ (q, w) ∈ entriesKeysVals es)) ∧
    ((if (delete_fallback k es).1 then (entriesKeysVals (delete_fallback k es).2).length + 1
      else (entriesKeysVals (delete_fallback k es).2).length) =
      (entriesKeysVals es).length) := by
  intro es
  induction es with
  | nil =>
      intro hflat hpw
      refine ⟨?_, ?_, ?_, ?_, ?_⟩ <;>
        simp [delete_fallback, entriesKeysVals]
  | cons e rest ih =>
      intro hflat hpw
      obtain ⟨hch, hkey⟩ := hflat e (by simp)
      obtain ⟨key0, val, ch⟩ := e
      have hch' : ch = none := by simpa [Entry.child] using hch
      subst hch'
      have hkey' : ∃ kk, key0 = some kk := by
        match key0 with
        | none => simp [Entry.key] at hkey
        | some a => exact ⟨a, rfl⟩
      obtain ⟨kk, hkk⟩ := hkey'
      subst hkk
      rw [List.pairwise_cons] at hpw
      obtain ⟨hhead, htail⟩ := hpw
      by_cases hk : kk = k
      · subst hk
        have hres : delete_fallback kk (Entry.mk (some kk) val none :: rest)
            = (true, rest) := by
          rw [delete_fallback]
          simp [Entry.key, Entry.child]
        rw [hres]
        have hnotin : ¬ kk ∈ (entriesKeysVals rest).map Prod.fst := by
          intro hmem
          obtain ⟨⟨q1, w1⟩, hq1, hq2⟩ := List.mem_map.mp hmem
          obtain ⟨p, e', hp, hkv⟩ := (mem_keysVals_iff rest q1 w1).mp hq1
          have he' := mem_of_get? rest p e' hp
          obtain ⟨hch', hkey'⟩ := hflat e' (by simp [he'])
          obtain ⟨key1, val1, ch1⟩ := e'
          have hch1 : ch1 = none := by simpa [Entry.child] using hch'
          subst hch1
          rw [entryKVs] at hkv
          simp at hkv hq2
          have hne := hhead (.mk key1 val1 none) he'
          simp only [Entry.key] at hne
          apply hne
          obtain ⟨k1, hk1⟩ : ∃ k1, key1 = some k1 := by
            match key1 with
            | none => simp [Entry.key] at hkey'
            | some a => exact ⟨a, rfl⟩
          subst hk1
          simp at hkv
          rw [hkv.1] at hq2
          rw [hq2]
        refine ⟨List.sublist_cons_self _ _, ?_, hnotin, ?_, ?_⟩
        · simp [entriesKeysVals]
        · intro q w hq
          rw [entriesKeysVals]
          simp
          intro h1 h2
          exact absurd h1 hq
        · simp [entriesKeysVals]
      · have hcond : ¬ (some kk : Option Bytes) = some k := by
          intro h
          exact hk (by injection h)
        rcases hdf : delete_fallback k rest with ⟨b, rest'⟩
        have hres : delete_fallback k (Entry.mk (some kk) val none :: rest)
            = (b, Entry.mk (some kk) val none :: rest') := by
          rw [delete_fallback]
          simp only [Entry.key, Entry.child]
          rw [if_neg hcond, hdf]
        obtain ⟨s1, s2, s3, s4, s5⟩ := ih (fun e he => hflat e (by simp [he])) htail
        simp only [hdf] at s1 s2 s3 s4 s5
        rw [hres]
        refine ⟨List.Sublist.cons₂ _ s1, ?_, ?_, ?_, ?_⟩
        · simp only [entriesKeysVals, Option.getD_some, List.map_cons, List.mem_cons]
          rw [s2]
          constructor
          · intro h
            exact .inr h
          · rintro (h | h)
            · exact absurd h.symm hk
            · exact h
        · simp only [entriesKeysVals, Option.getD_some, List.map_cons, List.mem_cons]
          rintro (h | h)
          · exact hk h.symm
          · exact s3 h
        · intro q w hq
          simp only [entriesKeysVals, List.mem_cons]
          rw [s4 q w hq]
        · simp only [entriesKeysVals, List.length_cons]
          rcases hb : b with _ | _
          · rw [hb] at s5
            simp at s5 ⊢
            omega
          · rw [hb] at s5
            simp at s5 ⊢
            omega

end Hamt

namespace Hamt

theorem content_mid_del (A B mid mid' : List (Bytes × Cbor)) (k : Bytes) (b : Bool)
    (h2 : ∀ q w, q ≠ k → ((q, w) ∈ mid' ↔ (q, w) ∈ mid))
    (h3 : ∀ q, q ∈ mid'.map Prod.fst → q ∈ mid.map Prod.fst)
    (h4 : (if b then mid'.length + 1 else mid'.length) = mid.length) :
    (∀ q w, q ≠ k → ((q, w) ∈ A ++ mid' ++ B ↔ (q, w) ∈ A ++ mid ++ B)) ∧
    (∀ q, q ∈ (A ++ mid' ++ B).map Prod.fst → q ∈ (A ++ mid ++ B).map Prod.fst) ∧
    ((if b then (A ++ mid' ++ B).length + 1 else (A ++ mid' ++ B).length) =
      (A ++ mid ++ B).length) := by
  refine ⟨?_, ?_, ?_⟩
  · intro q w hq
    simp only [List.mem_append]
    rw [h2 q w hq]
  · intro q hq
    simp only [List.map_append, List.mem_append] at hq ⊢
    rcases hq with (hq | hq) | hq
    · exact .inl (.inl hq)
    · exact .inl (.inr (h3 q hq))
    · exact .inr hq
  · simp only [List.length_append]
    cases b <;> simp at h4 ⊢ <;> omega

theorem wf_entry_key_of_leaf : ∀ (fuel consumed bm : Nat) (es : List Entry)
    (hc : Option Bytes), NodeWF fuel consumed (.mk bm es hc) →
    ∀ e ∈ es, e.child = none → ∃ k', e.key = some k' := by
  intro fuel consumed bm es hc hwf e he hch
  match fuel with
  | 0 =>
      obtain ⟨hflat, -⟩ := hwf
      simp only [Node.entries] at hflat
      obtain ⟨-, hkey⟩ := hflat e he
      match e, hkey with
      | .mk (some a) _ _, _ => exact ⟨a, rfl⟩
      | .mk none _ _, hkey => simp [Entry.key] at hkey
  | fuel + 1 =>
      obtain ⟨p, hp⟩ := List.mem_iff_get?.mp he
      obtain ⟨j, -, -, -, hcl⟩ := slotWF fuel consumed bm es hc hwf p e hp
      match e, hch with
      | .mk key v none, _ =>
          simp only [Entry.child] at hcl
          obtain ⟨k', hk', -⟩ := hcl
          exact ⟨k', hk'⟩

theorem wf_branch_child_keys : ∀ (fuel consumed bm : Nat) (es : List Entry)
    (hc : Option Bytes), NodeWF fuel consumed (.mk bm es hc) →
    ∀ e ∈ es, ∀ gc : Node, e.child = some gc → 2 ≤ gc.keys.length := by
  intro fuel consumed bm es hc hwf e he gc hch
  match fuel with
  | 0 =>
      obtain ⟨hflat, -⟩ := hwf
      simp only [Node.entries] at hflat
      obtain ⟨hnone, -⟩ := hflat e he
      rw [hch] at hnone
      simp at hnone
  | fuel + 1 =>
      obtain ⟨p, hp⟩ := List.mem_iff_get?.mp he
      obtain ⟨j, -, -, -, hcl⟩ := slotWF fuel consumed bm es hc hwf p e hp
      match e, hch with
      | .mk key v (some gc0), hch =>
          simp only [Entry.child] at hcl hch
          injection hch with hgc
          subst hgc
          exact hcl.2.2.2

theorem flatMap_length_ge : ∀ es : List Entry,
    (∀ e ∈ es, 1 ≤ (entryKVs e).length) →
    es.length ≤ (es.flatMap entryKVs).length := by
  intro es
  induction es with
  | nil => intro _; simp
  | cons e rest ih =>
      intro h
      rw [List.flatMap_cons, List.length_append, List.length_cons]
      have h1 := h e (by simp)
      have h2 := ih (fun e' he' => h e' (by simp [he']))
      omega

theorem wf_entries_le_keysVals (fuel consumed bm : Nat) (es : List Entry)
    (hc : Option Bytes) (hwf : NodeWF fuel consumed (.mk bm es hc)) :
    es.length ≤ (entriesKeysVals es).length := by
  rw [entriesKeysVals_eq_flatMap]
  apply flatMap_length_ge
  intro e he
  match fuel with
  | 0 =>
      obtain ⟨hflat, -⟩ := hwf
      simp only [Node.entries] at hflat
      obtain ⟨hch, -⟩ := hflat e he
      match e, hch with
      | .mk k v none, _ => simp [entryKVs]
  | fuel + 1 =>
      obtain ⟨p, hp⟩ := List.mem_iff_get?.mp he
      obtain ⟨j, -, -, -, hcl⟩ := slotWF fuel consumed bm es hc hwf p e hp
      match e with
      | .mk k v none => simp [entryKVs]
      | .mk k v (some c) =>
          simp only [Entry.child] at hcl
          obtain ⟨-, -, -, h2⟩ := hcl
          rw [keys_length] at h2
          simp only [entryKVs]
          omega

end Hamt

namespace Hamt

theorem mem_map_fst_iff (l : List (Bytes × Cbor)) (q : Bytes) :
    q ∈ l.map Prod.fst ↔ ∃ w, (q, w) ∈ l := by
  constructor
  · intro h
    obtain ⟨⟨q1, w⟩, hm, he⟩ := List.mem_map.mp h
    simp at he
    subst he
    exact ⟨w, hm⟩
  · rintro ⟨w, hw⟩
    exact List.mem_map.mpr ⟨(q, w), hw, rfl⟩

/-- Node.delete preserves structural well-formedness, reports `deleted`
exactly when the key was present, removes the binding, leaves other
bindings alone, and shrinks the content by the flag. -/
theorem deleteAux_ok : ∀ (fuel consumed : Nat) (k : Bytes) (n : Node),
    NodeWF fuel consumed n →
    NodeWF fuel consumed (deleteAux fuel k consumed n).2 ∧
    ((deleteAux fuel k consumed n).1 = true ↔ k ∈ n.keys) ∧
    ¬ k ∈ (deleteAux fuel k consumed n).2.keys ∧
    (∀ q w, q ≠ k →
      ((q, w) ∈ (deleteAux fuel k consumed n).2.keysVals ↔ (q, w) ∈ n.keysVals)) ∧
    (∀ q, q ∈ (deleteAux fuel k consumed n).2.keys → q ∈ n.keys) ∧
    ((if (deleteAux fuel k consumed n).1 then
        (deleteAux fuel k consumed n).2.keysVals.length + 1
      else (deleteAux fuel k consumed n).2.keysVals.length) = n.keysVals.length) := by
  intro fuel
  induction fuel with
  | zero =>
      intro consumed k n hwf
      match n with
      | .mk bm es hc =>
          obtain ⟨hflat, hpw⟩ := hwf
          simp only [Node.entries] at hflat hpw
          obtain ⟨s1, s2, s3, s4, s5⟩ := delete_fallback_ok k es hflat hpw
          rcases hdf : delete_fallback k es with ⟨flag, es'⟩
          simp only [hdf] at s1 s2 s3 s4 s5
          have hres1 : (deleteAux 0 k consumed (.mk bm es hc)).1 = flag := by
            simp only [deleteAux, hdf]
          have hres2 : (deleteAux 0 k consumed (.mk bm es hc)).2 =
              .mk bm es' (if flag then none else hc) := by
            simp only [deleteAux, hdf]
          refine ⟨?_, ?_, ?_, ?_, ?_, ?_⟩
          · rw [hres2]
            refine ⟨?_, ?_⟩ <;> simp only [Node.entries]
            · exact fun e he => hflat e (s1.subset he)
            · exact hpw.sublist s1
          · rw [hres1, keys_mk]
            exact s2
          · rw [hres2, keys_mk]
            exact s3
          · intro q w hq
            rw [hres2, keysVals_mk, keysVals_mk]
            exact s4 q w hq
          · intro q hq
            rw [hres2, keys_mk] at hq
            rw [keys_mk]
            by_cases hqk : q = k
            · subst hqk
              exact absurd hq s3
            · obtain ⟨w, hw⟩ := (mem_map_fst_iff _ q).mp hq
              exact (mem_map_fst_iff _ q).mpr ⟨w, (s4 q w hqk).mp hw⟩
          · rw [hres1, hres2, keysVals_mk, keysVals_mk]
            exact s5
  | succ fuel ih =>
      intro consumed k n hwf
      match n with
      | .mk bm es hc =>
          have hbm : bm < 2 ^ 64 := by simpa only [Node.bitmap] using hwf.1
          have hlen : es.length = popcount bm := by
            simpa only [Node.entries, Node.bitmap] using hwf.2.1
          have hslots := hwf.2.2
          simp only [Node.bitmap, Node.entries] at hslots
          have hidx64 : keyChunk k consumed < 64 := keyChunk_lt_64 k consumed
          by_cases hbit : bm &&& (1 <<< keyChunk k consumed) = 0
          · have hclear : bm / 2 ^ (keyChunk k consumed) % 2 = 0 :=
              (and_pow_eq_zero_iff bm _).mp hbit
            have hres1 : (deleteAux (fuel + 1) k consumed (.mk bm es hc)).1 = false := by
              simp only [deleteAux]
              rw [if_pos hbit]
            have hres2 : (deleteAux (fuel + 1) k consumed (.mk bm es hc)).2 =
                .mk bm es hc := by
              simp only [deleteAux]
              rw [if_pos hbit]
            have hnk : ¬ k ∈ (Node.mk bm es hc).keys :=
              not_mem_keys_of_bit_clear fuel consumed bm es hc hwf k hclear
            refine ⟨?_, ?_, ?_, ?_, ?_, ?_⟩
            · rw [hres2]
              exact hwf
            · rw [hres1]
              exact ⟨fun h => by simp at h, fun h => absurd h hnk⟩
            · rw [hres2]
              exact hnk
            · intro q w hq
              rw [hres2]
            · intro q hq
              rw [hres2] at hq
              exact hq
            · rw [hres1, hres2]
              simp
          · have hset : bm / 2 ^ (keyChunk k consumed) % 2 = 1 :=
              bit_set_of_not_and bm _ hbit
            have hpos : count_ones bm (keyChunk k consumed) < es.length := by
              rw [hlen]
              exact count_ones_lt_popcount bm _ hbm hidx64 hset
            obtain ⟨e, hget⟩ :
                ∃ e, es.get? (count_ones bm (keyChunk k consumed)) = some e :=
              ⟨_, List.get?_eq_get hpos⟩
            have hslotE : (unpack 64 bm es).getD (keyChunk k consumed) none = some e := by
              rw [unpack_getD _ 64 bm es hidx64, if_pos hset]
              exact hget
            have hclause := hslots (keyChunk k consumed) e hslotE
            obtain ⟨ekey, eval, ech⟩ := e
            cases ech with
            | none =>
                simp only [Entry.child, Entry.key] at hclause
                obtain ⟨k0, hk0, hchunk0⟩ := hclause
                subst hk0
                by_cases hkk : (some k0 : Option Bytes) = some k
                · -- remove the matching leaf, clear the bit
                  have hk0k : k0 = k := by injection hkk
                  have hres1 : (deleteAux (fuel + 1) k consumed (.mk bm es hc)).1
                      = true := by
                    simp only [deleteAux]
                    rw [if_neg hbit, hget]
                    simp only [Entry.child, Entry.key]
                    rw [if_pos hkk]
                  have hres2 : (deleteAux (fuel + 1) k consumed (.mk bm es hc)).2 =
                      .mk (clearBit bm (keyChunk k consumed))
                        (es.eraseIdx (count_ones bm (keyChunk k consumed))) none := by
                    simp only [deleteAux]
                    rw [if_neg hbit, hget]
                    simp only [Entry.child, Entry.key]
                    rw [if_pos hkk]
                  have hpcc := popcount_clearBit bm _ hbm hidx64 hset
                  have hwf' : NodeWF (fuel + 1) consumed
                      (.mk (clearBit bm (keyChunk k consumed))
                        (es.eraseIdx (count_ones bm (keyChunk k consumed))) none) := by
                    refine ⟨?_, ?_, ?_⟩
                    · simp only [Node.bitmap]
                      exact Nat.lt_of_le_of_lt (clearBit_le bm _) hbm
                    · simp only [Node.bitmap, Node.entries]
                      rw [List.eraseIdx_eq_take_drop_succ]
                      simp only [List.length_append, List.length_take, List.length_drop]
                      omega
                    · simp only [Node.bitmap, Node.entries]
                      intro j e' hslot
                      by_cases hj64 : j < 64
                      · rw [slots_erase bm es _ hidx64 hset j hj64] at hslot
                        by_cases hjc : j = keyChunk k consumed
                        · rw [if_pos hjc] at hslot
                          simp at hslot
                        · rw [if_neg hjc] at hslot
                          exact hslots j e' hslot
                      · rw [slot_oob _ _ j (by omega)] at hslot
                        simp at hslot
                  have hkm : k ∈ (Node.mk bm es hc).keys :=
                    (mem_keys_slot_iff fuel consumed bm es hc hwf k _ hget).mpr
                      ⟨eval, by simp [entryKVs, hk0k]⟩
                  obtain ⟨hnew, hold⟩ := content_eraseIdx es
                    (count_ones bm (keyChunk k consumed)) (.mk (some k0) eval none) hget
                  have hkv1 : entryKVs (Entry.mk (some k0) eval none) = [(k0, eval)] := by
                    simp [entryKVs]
                  rw [hkv1] at hold
                  have hnew' : entriesKeysVals
                      (es.eraseIdx (count_ones bm (keyChunk k consumed))) =
                      entriesKeysVals (es.take (count_ones bm (keyChunk k consumed))) ++ [] ++
                      entriesKeysVals (es.drop (count_ones bm (keyChunk k consumed) + 1)) := by
                    rw [hnew]
                    simp
                  obtain ⟨g2, g3, g4⟩ := content_mid_del
                    (entriesKeysVals (es.take (count_ones bm (keyChunk k consumed))))
                    (entriesKeysVals (es.drop (count_ones bm (keyChunk k consumed) + 1)))
                    [(k0, eval)] [] k true
                    (by
                      intro q w hq
                      have hqk0 : q ≠ k0 := by rw [hk0k]; exact hq
                      simp [hqk0])
                    (by simp)
                    (by simp)
                  refine ⟨?_, ?_, ?_, ?_, ?_, ?_⟩
                  · rw [hres2]
                    exact hwf'
                  · rw [hres1]
                    exact ⟨fun _ => hkm, fun _ => rfl⟩
                  · rw [hres2]
                    apply not_mem_keys_of_bit_clear fuel consumed _ _ _ hwf' k
                    rw [clearBit_div_pow_mod]
                    simp
                  · intro q w hq
                    rw [hres2, keysVals_mk, keysVals_mk, hnew', hold]
                    exact g2 q w hq
                  · intro q hq
                    rw [hres2, keys_mk, hnew'] at hq
                    rw [keys_mk, hold]
                    exact g3 q hq
                  · rw [hres1, hres2, keysVals_mk, keysVals_mk, hnew', hold]
                    exact g4
                · -- leaf with a different key: nothing to delete
                  have hres1 : (deleteAux (fuel + 1) k consumed (.mk bm es hc)).1
                      = false := by
                    simp only [deleteAux]
                    rw [if_neg hbit, hget]
                    simp only [Entry.child, Entry.key]
                    rw [if_neg hkk]
                  have hres2 : (deleteAux (fuel + 1) k consumed (.mk bm es hc)).2 =
                      .mk bm es hc := by
                    simp only [deleteAux]
                    rw [if_neg hbit, hget]
                    simp only [Entry.child, Entry.key]
                    rw [if_neg hkk]
                  have hnk : ¬ k ∈ (Node.mk bm es hc).keys := by
                    intro hkm
                    obtain ⟨w, hw⟩ :=
                      (mem_keys_slot_iff fuel consumed bm es hc hwf k _ hget).mp hkm
                    simp [entryKVs] at hw
                    exact hkk (by rw [hw.1])
                  refine ⟨?_, ?_, ?_, ?_, ?_, ?_⟩
                  · rw [hres2]
                    exact hwf
                  · rw [hres1]
                    exact ⟨fun h => by simp at h, fun h => absurd h hnk⟩
                  · rw [hres2]
                    exact hnk
                  · intro q w hq
                    rw [hres2]
                  · intro q hq
                    rw [hres2] at hq
                    exact hq
                  · rw [hres1, hres2]
                    simp
            | some child =>
                simp only [Entry.child, Entry.key] at hclause
                obtain ⟨hekey, hcwf, hchunkC, hc2⟩ := hclause
                subst hekey
                rcases hrec : deleteAux fuel k (consumed + BITS_PER_STEP) child
                    with ⟨del, child'⟩
                have IH := ih (consumed + BITS_PER_STEP) k child hcwf
                rw [hrec] at IH
                simp only at IH
                obtain ⟨W, F, NM, I, S, L⟩ := IH
                have hnodemem : k ∈ (Node.mk bm es hc).keys ↔ k ∈ child.keys := by
                  rw [mem_keys_slot_iff fuel consumed bm es hc hwf k _ hget]
                  simp only [entryKVs]
                  exact (mem_keys_iff child k).symm
                have hkvC : entryKVs (Entry.mk none eval (some child)) = child.keysVals := by
                  simp [entryKVs]
                cases del with
                | false =>
                    simp at F L
                    have hres1 : (deleteAux (fuel + 1) k consumed (.mk bm es hc)).1
                        = false := by
                      simp only [deleteAux]
                      rw [if_neg hbit, hget]
                      simp only [Entry.child, Entry.key, Entry.value]
                      simp [hrec]
                    have hres2 : (deleteAux (fuel + 1) k consumed (.mk bm es hc)).2 =
                        .mk bm (es.set (count_ones bm (keyChunk k consumed))
                          (.mk none eval (some child'))) hc := by
                      simp only [deleteAux]
                      rw [if_neg hbit, hget]
                      simp only [Entry.child, Entry.key, Entry.value]
                      simp [hrec]
                    have hwf' : NodeWF (fuel + 1) consumed
                        (.mk bm (es.set (count_ones bm (keyChunk k consumed))
                          (.mk none eval (some child'))) hc) := by
                      refine ⟨?_, ?_, ?_⟩
                      · simp only [Node.bitmap]
                        exact hbm
                      · simp only [Node.bitmap, Node.entries, List.length_set]
                        exact hlen
                      · simp only [Node.bitmap, Node.entries]
                        intro j e' hslot
                        by_cases hj64 : j < 64
                        · rw [slots_set bm es _ _ hbm hidx64 hlen hset j hj64] at hslot
                          by_cases hjc : j = keyChunk k consumed
                          · rw [if_pos hjc] at hslot
                            injection hslot with he
                            subst he
                            subst hjc
                            simp only [Entry.child, Entry.key]
                            refine ⟨trivial, W, ?_, ?_⟩
                            · intro q hq
                              exact hchunkC q (S q hq)
                            · rw [keys_length] at hc2 ⊢
                              omega
                          · rw [if_neg hjc] at hslot
                            exact hslots j e' hslot
                        · rw [slot_oob _ _ j (by omega)] at hslot
                          simp at hslot
                    have hget' : (es.set (count_ones bm (keyChunk k consumed))
                        (.mk none eval (some child'))).get?
                        (count_ones bm (keyChunk k consumed)) =
                        some (.mk none eval (some child')) :=
                      get?_set_self es _ _ hpos
                    obtain ⟨hnew, hold⟩ := content_set es
                      (count_ones bm (keyChunk k consumed))
                      (.mk none eval (some child)) (.mk none eval (some child')) hget
                    have hkvC' : entryKVs (Entry.mk none eval (some child')) =
                        child'.keysVals := by
                      simp [entryKVs]
                    rw [hkvC'] at hnew
                    rw [hkvC] at hold
                    obtain ⟨g2, g3, g4⟩ := content_mid_del
                      (entriesKeysVals (es.take (count_ones bm (keyChunk k consumed))))
                      (entriesKeysVals (es.drop (count_ones bm (keyChunk k consumed) + 1)))
                      child.keysVals child'.keysVals k false
                      I
                      (by
                        intro q hq
                        rw [← keys_eq_map child'] at hq
                        rw [← keys_eq_map child]
                        exact S q hq)
                      (by simp [L])
                    refine ⟨?_, ?_, ?_, ?_, ?_, ?_⟩
                    · rw [hres2]
                      exact hwf'
                    · rw [hres1, hnodemem]
                      exact ⟨fun h => by simp at h, fun h => absurd h F⟩
                    · rw [hres2]
                      intro hk
                      obtain ⟨w, hw⟩ :=
                        (mem_keys_slot_iff fuel consumed bm _ hc hwf' k _ hget').mp hk
                      rw [hkvC'] at hw
                      exact NM ((mem_keys_iff child' k).mpr ⟨w, hw⟩)
                    · intro q w hq
                      rw [hres2, keysVals_mk, keysVals_mk, hnew, hold]
                      exact g2 q w hq
                    · intro q hq
                      rw [hres2, keys_mk, hnew] at hq
                      rw [keys_mk, hold]
                      exact g3 q hq
                    · rw [hres1, hres2, keysVals_mk, keysVals_mk, hnew, hold]
                      simp only [if_neg (by simp : ¬ (false = true))] at g4 ⊢
                      exact g4
                | true =>
                    simp at F L
                    obtain ⟨bm', es', hc'⟩ := child'
                    have hkvlen : 2 ≤ child.keysVals.length := by
                      rw [keys_length] at hc2
                      exact hc2
                    cases es' with
                    | nil =>
                        exfalso
                        have h0 : (Node.mk bm' ([] : List Entry) hc').keysVals = [] := rfl
                        rw [h0] at L
                        simp at L
                        omega
                    | cons ce rest =>
                        cases rest with
                        | nil =>
                            obtain ⟨cek, cev, cech⟩ := ce
                            cases cech with
                            | none =>
                                obtain ⟨k1, hk1⟩ := wf_entry_key_of_leaf fuel
                                  (consumed + BITS_PER_STEP) bm' _ hc' W
                                  (.mk cek cev none) (by simp) (by simp [Entry.child])
                                simp only [Entry.key] at hk1
                                subst hk1
                                have hckv : (Node.mk bm' [Entry.mk (some k1) cev none]
                                    hc').keysVals = [(k1, cev)] := by
                                  simp [Node.keysVals, entriesKeysVals]
                                have hres1 : (deleteAux (fuel + 1) k consumed
                                    (.mk bm es hc)).1 = true := by
                                  simp only [deleteAux]
                                  rw [if_neg hbit, hget]
                                  simp only [Entry.child, Entry.key, Entry.value]
                                  simp [hrec, Node.entries]
                                have hres2 : (deleteAux (fuel + 1) k consumed
                                    (.mk bm es hc)).2 =
                                    .mk bm (es.set (count_ones bm (keyChunk k consumed))
                                      (.mk (some k1) cev none)) none := by
                                  simp only [deleteAux]
                                  rw [if_neg hbit, hget]
                                  simp only [Entry.child, Entry.key, Entry.value]
                                  simp [hrec, Node.entries, Entry.key, Entry.child]
                                have hk1mem : k1 ∈ (Node.mk bm' [Entry.mk (some k1) cev none]
                                    hc').keys := by
                                  rw [keys_eq_map, hckv]
                                  simp
                                have hk1chunk : keyChunk k1 consumed = keyChunk k consumed :=
                                  hchunkC k1 (S k1 hk1mem)
                                have hk1ne : k1 ≠ k := by
                                  intro h
                                  subst h
                                  exact NM hk1mem
                                have hwf' : NodeWF (fuel + 1) consumed
                                    (.mk bm (es.set (count_ones bm (keyChunk k consumed))
                                      (.mk (some k1) cev none)) none) := by
                                  refine ⟨?_, ?_, ?_⟩
                                  · simp only [Node.bitmap]
                                    exact hbm
                                  · simp only [Node.bitmap, Node.entries, List.length_set]
                                    exact hlen
                                  · simp only [Node.bitmap, Node.entries]
                                    intro j e' hslot
                                    by_cases hj64 : j < 64
                                    · rw [slots_set bm es _ _ hbm hidx64 hlen hset j hj64]
                                        at hslot
                                      by_cases hjc : j = keyChunk k consumed
                                      · rw [if_pos hjc] at hslot
                                        injection hslot with he
                                        subst he
                                        subst hjc
                                        simp only [Entry.child, Entry.key]
                                        exact ⟨k1, rfl, hk1chunk⟩
                                      · rw [if_neg hjc] at hslot
                                        exact hslots j e' hslot
                                    · rw [slot_oob _ _ j (by omega)] at hslot
                                      simp at hslot
                                have hget' : (es.set (count_ones bm (keyChunk k consumed))
                                    (.mk (some k1) cev none)).get?
                                    (count_ones bm (keyChunk k consumed)) =
                                    some (.mk (some k1) cev none) :=
                                  get?_set_self es _ _ hpos
                                obtain ⟨hnew, hold⟩ := content_set es
                                  (count_ones bm (keyChunk k consumed))
                                  (.mk none eval (some child)) (.mk (some k1) cev none) hget
                                have hkvE' : entryKVs (Entry.mk (some k1) cev none) =
                                    (Node.mk bm' [Entry.mk (some k1) cev none]
                                      hc').keysVals := by
                                  rw [hckv]
                                  simp [entryKVs]
                                rw [hkvE'] at hnew
                                rw [hkvC] at hold
                                obtain ⟨g2, g3, g4⟩ := content_mid_del
                                  (entriesKeysVals
                                    (es.take (count_ones bm (keyChunk k consumed))))
                                  (entriesKeysVals
                                    (es.drop (count_ones bm (keyChunk k consumed) + 1)))
                                  child.keysVals
                                  ((Node.mk bm' [Entry.mk (some k1) cev none] hc').keysVals)
                                  k true I
                                  (by
                                    intro q hq
                                    rw [← keys_eq_map] at hq
                                    rw [← keys_eq_map]
                                    exact S q hq)
                                  (by
                                    rw [if_pos rfl]
                                    omega)
                                refine ⟨?_, ?_, ?_, ?_, ?_, ?_⟩
                                · rw [hres2]
                                  exact hwf'
                                · rw [hres1]
                                  exact ⟨fun _ => hnodemem.mpr F, fun _ => rfl⟩
                                · rw [hres2]
                                  intro hk
                                  obtain ⟨w, hw⟩ :=
                                    (mem_keys_slot_iff fuel consumed bm _ none hwf' k _
                                      hget').mp hk
                                  simp [entryKVs] at hw
                                  exact hk1ne hw.1.symm
                                · intro q w hq
                                  rw [hres2, keysVals_mk, keysVals_mk, hnew, hold]
                                  exact g2 q w hq
                                · intro q hq
                                  rw [hres2, keys_mk, hnew] at hq
                                  rw [keys_mk, hold]
                                  exact g3 q hq
                                · rw [hres1, hres2, keysVals_mk, keysVals_mk, hnew, hold]
                                  exact g4
                            | some gc =>
                                have hgc2 : 2 ≤ gc.keys.length :=
                                  wf_branch_child_keys fuel (consumed + BITS_PER_STEP)
                                    bm' _ hc' W (.mk cek cev (some gc)) (by simp) gc
                                    (by simp [Entry.child])
                                have hckv : (Node.mk bm' [Entry.mk cek cev (some gc)]
                                    hc').keysVals = gc.keysVals := by
                                  simp [Node.keysVals, entriesKeysVals]
                                have hres1 : (deleteAux (fuel + 1) k consumed
                                    (.mk bm es hc)).1 = true := by
                                  simp only [deleteAux]
                                  rw [if_neg hbit, hget]
                                  simp only [Entry.child, Entry.key, Entry.value]
                                  simp [hrec, Node.entries, Entry.child]
                                have hres2 : (deleteAux (fuel + 1) k consumed
                                    (.mk bm es hc)).2 =
                                    .mk bm (es.set (count_ones bm (keyChunk k consumed))
                                      (.mk none eval
                                        (some (.mk bm' [Entry.mk cek cev (some gc)] hc'))))
                                      none := by
                                  simp only [deleteAux]
                                  rw [if_neg hbit, hget]
                                  simp only [Entry.child, Entry.key, Entry.value]
                                  simp [hrec, Node.entries, Entry.child]
                                have hwf' : NodeWF (fuel + 1) consumed
                                    (.mk bm (es.set (count_ones bm (keyChunk k consumed))
                                      (.mk none eval
                                        (some (.mk bm' [Entry.mk cek cev (some gc)] hc'))))
                                      none) := by
                                  refine ⟨?_, ?_, ?_⟩
                                  · simp only [Node.bitmap]
                                    exact hbm
                                  · simp only [Node.bitmap, Node.entries, List.length_set]
                                    exact hlen
                                  · simp only [Node.bitmap, Node.entries]
                                    intro j e' hslot
                                    by_cases hj64 : j < 64
                                    · rw [slots_set bm es _ _ hbm hidx64 hlen hset j hj64]
                                        at hslot
                                      by_cases hjc : j = keyChunk k consumed
                                      · rw [if_pos hjc] at hslot
                                        injection hslot with he
                                        subst he
                                        subst hjc
                                        simp only [Entry.child, Entry.key]
                                        refine ⟨trivial, W, ?_, ?_⟩
                                        · intro q hq
                                          exact hchunkC q (S q hq)
                                        · rw [keys_length, hckv, ← keys_length]
                                          exact hgc2
                                      · rw [if_neg hjc] at hslot
                                        exact hslots j e' hslot
                                    · rw [slot_oob _ _ j (by omega)] at hslot
                                      simp at hslot
                                have hget' : (es.set (count_ones bm (keyChunk k consumed))
                                    (.mk none eval
                                      (some (.mk bm' [Entry.mk cek cev (some gc)] hc')))).get?
                                    (count_ones bm (keyChunk k consumed)) =
                                    some (.mk none eval
                                      (some (.mk bm' [Entry.mk cek cev (some gc)] hc'))) :=
                                  get?_set_self es _ _ hpos
                                obtain ⟨hnew, hold⟩ := content_set es
                                  (count_ones bm (keyChunk k consumed))
                                  (.mk none eval (some child))
                                  (.mk none eval
                                    (some (.mk bm' [Entry.mk cek cev (some gc)] hc'))) hget
                                have hkvE' : entryKVs (Entry.mk none eval
                                    (some (.mk bm' [Entry.mk cek cev (some gc)] hc'))) =
                                    (Node.mk bm' [Entry.mk cek cev (some gc)]
                                      hc').keysVals := by
                                  simp [entryKVs]
                                rw [hkvE'] at hnew
                                rw [hkvC] at hold
                                obtain ⟨g2, g3, g4⟩ := content_mid_del
                                  (entriesKeysVals
                                    (es.take (count_ones bm (keyChunk k consumed))))
                                  (entriesKeysVals
                                    (es.drop (count_ones bm (keyChunk k consumed) + 1)))
                                  child.keysVals
                                  ((Node.mk bm' [Entry.mk cek cev (some gc)] hc').keysVals)
                                  k true I
                                  (by
                                    intro q hq
                                    rw [← keys_eq_map] at hq
                                    rw [← keys_eq_map]
                                    exact S q hq)
                                  (by
                                    rw [if_pos rfl]
                                    omega)
                                refine ⟨?_, ?_, ?_, ?_, ?_, ?_⟩
                                · rw [hres2]
                                  exact hwf'
                                · rw [hres1]
                                  exact ⟨fun _ => hnodemem.mpr F, fun _ => rfl⟩
                                · rw [hres2]
                                  intro hk
                                  obtain ⟨w, hw⟩ :=
                                    (mem_keys_slot_iff fuel consumed bm _ none hwf' k _
                                      hget').mp hk
                                  rw [hkvE'] at hw
                                  exact NM ((mem_keys_iff _ k).mpr ⟨w, hw⟩)
                                · intro q w hq
                                  rw [hres2, keysVals_mk, keysVals_mk, hnew, hold]
                                  exact g2 q w hq
                                · intro q hq
                                  rw [hres2, keys_mk, hnew] at hq
                                  rw [keys_mk, hold]
                                  exact g3 q hq
                                · rw [hres1, hres2, keysVals_mk, keysVals_mk, hnew, hold]
                                  exact g4
                        | cons ce2 rest2 =>
                            have hlen2 : 2 ≤ (Node.mk bm' (ce :: ce2 :: rest2)
                                hc').keysVals.length := by
                              have := wf_entries_le_keysVals fuel (consumed + BITS_PER_STEP)
                                bm' (ce :: ce2 :: rest2) hc' W
                              rw [keysVals_mk]
                              simp only [List.length_cons] at this
                              omega
                            have hres1 : (deleteAux (fuel + 1) k consumed
                                (.mk bm es hc)).1 = true := by
                              simp only [deleteAux]
                              rw [if_neg hbit, hget]
                              simp only [Entry.child, Entry.key, Entry.value]
                              simp [hrec, Node.entries]
                            have hres2 : (deleteAux (fuel + 1) k consumed
                                (.mk bm es hc)).2 =
                                .mk bm (es.set (count_ones bm (keyChunk k consumed))
                                  (.mk none eval
                                    (some (.mk bm' (ce :: ce2 :: rest2) hc')))) none := by
                              simp only [deleteAux]
                              rw [if_neg hbit, hget]
                              simp only [Entry.child, Entry.key, Entry.value]
                              simp [hrec, Node.entries]
                            have hwf' : NodeWF (fuel + 1) consumed
                                (.mk bm (es.set (count_ones bm (keyChunk k consumed))
                                  (.mk none eval
                                    (some (.mk bm' (ce :: ce2 :: rest2) hc')))) none) := by
                              refine ⟨?_, ?_, ?_⟩
                              · simp only [Node.bitmap]
                                exact hbm
                              · simp only [Node.bitmap, Node.entries, List.length_set]
                                exact hlen
                              · simp only [Node.bitmap, Node.entries]
                                intro j e' hslot
                                by_cases hj64 : j < 64
                                · rw [slots_set bm es _ _ hbm hidx64 hlen hset j hj64]
                                    at hslot
                                  by_cases hjc : j = keyChunk k consumed
                                  · rw [if_pos hjc] at hslot
                                    injection hslot with he
                                    subst he
                                    subst hjc
                                    simp only [Entry.child, Entry.key]
                                    refine ⟨trivial, W, ?_, ?_⟩
                                    · intro q hq
                                      exact hchunkC q (S q hq)
                                    · rw [keys_length]
                                      exact hlen2
                                  · rw [if_neg hjc] at hslot
                                    exact hslots j e' hslot
                                · rw [slot_oob _ _ j (by omega)] at hslot
                                  simp at hslot
                            have hget' : (es.set (count_ones bm (keyChunk k consumed))
                                (.mk none eval
                                  (some (.mk bm' (ce :: ce2 :: rest2) hc')))).get?
                                (count_ones bm (keyChunk k consumed)) =
                                some (.mk none eval
                                  (some (.mk bm' (ce :: ce2 :: rest2) hc'))) :=
                              get?_set_self es _ _ hpos
                            obtain ⟨hnew, hold⟩ := content_set es
                              (count_ones bm (keyChunk k consumed))
                              (.mk none eval (some child))
                              (.mk none eval
                                (some (.mk bm' (ce :: ce2 :: rest2) hc'))) hget
                            have hkvE' : entryKVs (Entry.mk none eval
                                (some (.mk bm' (ce :: ce2 :: rest2) hc'))) =
                                (Node.mk bm' (ce :: ce2 :: rest2) hc').keysVals := by
                              simp [entryKVs]
                            rw [hkvE'] at hnew
                            rw [hkvC] at hold
                            obtain ⟨g2, g3, g4⟩ := content_mid_del
                              (entriesKeysVals
                                (es.take (count_ones bm (keyChunk k consumed))))
                              (entriesKeysVals
                                (es.drop (count_ones bm (keyChunk k consumed) + 1)))
                              child.keysVals
                              ((Node.mk bm' (ce :: ce2 :: rest2) hc').keysVals)
                              k true I
                              (by
                                intro q hq
                                rw [← keys_eq_map] at hq
                                rw [← keys_eq_map]
                                exact S q hq)
                              (by
                                rw [if_pos rfl]
                                omega)
                            refine ⟨?_, ?_, ?_, ?_, ?_, ?_⟩
                            · rw [hres2]
                              exact hwf'
                            · rw [hres1]
                              exact ⟨fun _ => hnodemem.mpr F, fun _ => rfl⟩
                            · rw [hres2]
                              intro hk
                              obtain ⟨w, hw⟩ :=
                                (mem_keys_slot_iff fuel consumed bm _ none hwf' k _
                                  hget').mp hk
                              rw [hkvE'] at hw
                              exact NM ((mem_keys_iff _ k).mpr ⟨w, hw⟩)
                            · intro q w hq
                              rw [hres2, keysVals_mk, keysVals_mk, hnew, hold]
                              exact g2 q w hq
                            · intro q hq
                              rw [hres2, keys_mk, hnew] at hq
                              rw [keys_mk, hold]
                              exact g3 q hq
                            · rw [hres1, hres2, keysVals_mk, keysVals_mk, hnew, hold]
                              exact g4

end Hamt

namespace Hamt


theorem assocGet_eq_none_iff : ∀ (l : List (Bytes × Cbor)) (k : Bytes),
    assocGet l k = none ↔ ¬ k ∈ l.map Prod.fst := by
  intro l
  induction l with
  | nil => intro k; simp [assocGet]
  | cons a l ih =>
      intro k
      obtain ⟨k0, v0⟩ := a
      rw [assocGet]
      by_cases hk : k0 = k
      · subst hk
        simp
      · rw [if_neg hk, List.map_cons, List.mem_cons]
        rw [ih k]
        constructor
        · intro h hm
          rcases hm with hm | hm
          · exact hk hm.symm
          · exact h hm
        · intro h
          exact fun hm => h (.inr hm)

theorem assocGet_mem : ∀ (l : List (Bytes × Cbor)) (k : Bytes) (w : Cbor),
    assocGet l k = some w → (k, w) ∈ l := by
  intro l
  induction l with
  | nil => intro k w h; simp [assocGet] at h
  | cons a l ih =>
      intro k w h
      obtain ⟨k0, v0⟩ := a
      rw [assocGet] at h
      by_cases hk : k0 = k
      · subst hk
        rw [if_pos rfl] at h
        injection h with h
        subst h
        simp
      · rw [if_neg hk] at h
        exact List.mem_cons.mpr (.inr (ih k w h))

theorem assocGet_eq_some_of_mem : ∀ (l : List (Bytes × Cbor)) (k : Bytes) (w : Cbor),
    (l.map Prod.fst).Pairwise (· ≠ ·) → (k, w) ∈ l → assocGet l k = some w := by
  intro l
  induction l with
  | nil => intro k w _ h; simp at h
  | cons a l ih =>
      intro k w hpw hm
      obtain ⟨k0, v0⟩ := a
      rw [List.map_cons, List.pairwise_cons] at hpw
      obtain ⟨hhead, htail⟩ := hpw
      rw [assocGet]
      rcases List.mem_cons.mp hm with he | hm'
      · injection he with h1 h2
        subst h1
        subst h2
        rw [if_pos rfl]
      · by_cases hk : k0 = k
        · subst hk
          exfalso
          exact hhead k0 (List.mem_map.mpr ⟨(k0, w), hm', rfl⟩) rfl
        · rw [if_neg hk]
          exact ih k w htail hm'

/-- Node.find returns the unique live binding (or Python `None`) whenever
the trie stays above the collision-fallback depth. -/
theorem findAux_ok : ∀ (fuel consumed : Nat) (k : Bytes) (n : Node),
    NodeWF fuel consumed n → chunkDepthOK fuel n →
    findAux fuel k consumed n = .regular ((assocGet n.keysVals k).getD Cbor.null) := by
  intro fuel
  induction fuel with
  | zero =>
      intro consumed k n hwf hcd
      exact absurd hcd (by rw [chunkDepthOK]; exact not_false)
  | succ fuel ih =>
      intro consumed k n hwf hcd
      match n with
      | .mk bm es hc =>
          have hbm : bm < 2 ^ 64 := by simpa only [Node.bitmap] using hwf.1
          have hlen : es.length = popcount bm := by
            simpa only [Node.entries, Node.bitmap] using hwf.2.1
          have hidx64 : keyChunk k consumed < 64 := keyChunk_lt_64 k consumed
          have hpw : ((Node.mk bm es hc).keysVals.map Prod.fst).Pairwise (· ≠ ·) := by
            rw [← keys_eq_map]
            exact nodeKeys_pairwise (fuel + 1) consumed _ hwf
          by_cases hbit : bm &&& (1 <<< keyChunk k consumed) = 0
          · have hclear : bm / 2 ^ (keyChunk k consumed) % 2 = 0 :=
              (and_pow_eq_zero_iff bm _).mp hbit
            have hres : findAux (fuel + 1) k consumed (.mk bm es hc) = .regular .null := by
              simp only [findAux]
              rw [if_pos hbit]
            have hnone : assocGet (Node.mk bm es hc).keysVals k = none := by
              rw [assocGet_eq_none_iff, ← keys_eq_map]
              exact not_mem_keys_of_bit_clear fuel consumed bm es hc hwf k hclear
            rw [hres, hnone]
            rfl
          · have hset : bm / 2 ^ (keyChunk k consumed) % 2 = 1 :=
              bit_set_of_not_and bm _ hbit
            have hpos : count_ones bm (keyChunk k consumed) < es.length := by
              rw [hlen]
              exact count_ones_lt_popcount bm _ hbm hidx64 hset
            obtain ⟨e, hget⟩ :
                ∃ e, es.get? (count_ones bm (keyChunk k consumed)) = some e :=
              ⟨_, List.get?_eq_get hpos⟩
            have hslotE : (unpack 64 bm es).getD (keyChunk k consumed) none = some e := by
              rw [unpack_getD _ 64 bm es hidx64, if_pos hset]
              exact hget
            have hclause := hwf.2.2 (keyChunk k consumed) e (by
              simpa only [Node.bitmap, Node.entries] using hslotE)
            obtain ⟨ekey, eval, ech⟩ := e
            cases ech with
            | none =>
                simp only [Entry.child, Entry.key] at hclause
                obtain ⟨k0, hk0, hchunk0⟩ := hclause
                subst hk0
                by_cases hkk : (some k0 : Option Bytes) = some k
                · have hk0k : k0 = k := by injection hkk
                  have hres : findAux (fuel + 1) k consumed (.mk bm es hc)
                      = .regular eval := by
                    simp only [findAux]
                    rw [if_neg hbit, hget]
                    simp only [Entry.child, Entry.key, Entry.value]
                    rw [if_pos hkk]
                  have hmem : (k, eval) ∈ (Node.mk bm es hc).keysVals := by
                    rw [keysVals_mk]
                    exact (mem_keysVals_iff es k eval).mpr
                      ⟨_, _, hget, by simp [entryKVs, hk0k]⟩
                  have hsome : assocGet (Node.mk bm es hc).keysVals k = some eval :=
                    assocGet_eq_some_of_mem _ k eval hpw hmem
                  rw [hres, hsome]
                  rfl
                · have hres : findAux (fuel + 1) k consumed (.mk bm es hc)
                      = .regular .null := by
                    simp only [findAux]
                    rw [if_neg hbit, hget]
                    simp only [Entry.child, Entry.key, Entry.value]
                    rw [if_neg hkk]
                  have hnk : ¬ k ∈ (Node.mk bm es hc).keys := by
                    intro hkm
                    obtain ⟨w, hw⟩ :=
                      (mem_keys_slot_iff fuel consumed bm es hc hwf k _ hget).mp hkm
                    simp [entryKVs] at hw
                    exact hkk (by rw [hw.1])
                  have hnone : assocGet (Node.mk bm es hc).keysVals k = none := by
                    rw [assocGet_eq_none_iff, ← keys_eq_map]
                    exact hnk
                  rw [hres, hnone]
                  rfl
            | some child =>
                simp only [Entry.child, Entry.key] at hclause
                obtain ⟨hekey, hcwf, hchunkC, hc2⟩ := hclause
                subst hekey
                have hres : findAux (fuel + 1) k consumed (.mk bm es hc)
                    = findAux fuel k (consumed + BITS_PER_STEP) child := by
                  simp only [findAux]
                  rw [if_neg hbit, hget]
                  simp only [Entry.child]
                have hcd' : chunkDepthOK fuel child := by
                  rw [chunkDepthOK] at hcd
                  exact hcd (.mk none eval (some child))
                    (mem_of_get? es _ _ hget) child (by simp [Entry.child])
                have hiff : ∀ w, (k, w) ∈ (Node.mk bm es hc).keysVals ↔
                    (k, w) ∈ child.keysVals := by
                  intro w
                  constructor
                  · intro hw
                    rw [keysVals_mk] at hw
                    obtain ⟨-, e', hget'', hkv⟩ :=
                      mem_slot fuel consumed bm es hc hwf k w hw
                    rw [hget] at hget''
                    injection hget'' with he
                    subst he
                    simpa [entryKVs] using hkv
                  · intro hw
                    rw [keysVals_mk]
                    exact (mem_keysVals_iff es k w).mpr
                      ⟨_, _, hget, by simpa [entryKVs] using hw⟩
                have heq : assocGet (Node.mk bm es hc).keysVals k
                    = assocGet child.keysVals k := by
                  cases hag : assocGet child.keysVals k with
                  | some w =>
                      exact assocGet_eq_some_of_mem _ k w hpw
                        ((hiff w).mpr (assocGet_mem _ k w hag))
                  | none =>
                      rw [assocGet_eq_none_iff] at hag ⊢
                      intro hm
                      obtain ⟨w, hw⟩ := (mem_map_fst_iff _ k).mp hm
                      exact hag ((mem_map_fst_iff _ k).mpr ⟨w, (hiff w).mp hw⟩)
                rw [hres, ih (consumed + BITS_PER_STEP) k child hcwf hcd', heq]

end Hamt

namespace Hamt

theorem insert_into_empty (fuel consumed : Nat) (k : Bytes) (v : Cbor) :
    insertAux (fuel + 1) k v consumed (.mk 0 [] none) =
    (true, .mk (2 ^ keyChunk k consumed) [.mk (some k) v none] none) := by
  have h0 : (0 : Nat) &&& (1 <<< keyChunk k consumed) = 0 := by simp
  have hco : count_ones 0 (keyChunk k consumed) = 0 := by
    rw [count_ones_eq_mod]
    simp [popcount, popcountGo]
  simp only [insertAux]
  rw [if_pos h0, hco]
  simp [List.insertIdx, Nat.shiftLeft_eq]

theorem keys_singleton (k : Bytes) (v : Cbor) (bm : Nat) (hc : Option Bytes) :
    (Node.mk bm [Entry.mk (some k) v none] hc).keys = [k] := by
  simp [keys_mk, entriesKeysVals]

theorem insertAux_chunkDepthOK : ∀ (fuel consumed : Nat) (k : Bytes) (v : Cbor) (n : Node),
    NodeWF fuel consumed n → chunkDepthOK fuel n →
    (∀ q ∈ n.keys, q ≠ k → ∃ i, i < fuel ∧
      keyChunk k (consumed + BITS_PER_STEP * i) ≠ keyChunk q (consumed + BITS_PER_STEP * i)) →
    chunkDepthOK fuel (insertAux fuel k v consumed n).2 := by
  intro fuel
  induction fuel with
  | zero =>
      intro consumed k v n hwf hcd hq
      exact absurd hcd (by rw [chunkDepthOK]; exact not_false)
  | succ fuel ih =>
      intro consumed k v n hwf hcd hq
      match n with
      | .mk bm es hc =>
          have hbm : bm < 2 ^ 64 := by simpa only [Node.bitmap] using hwf.1
          have hlen : es.length = popcount bm := by
            simpa only [Node.entries, Node.bitmap] using hwf.2.1
          have hslots := hwf.2.2
          simp only [Node.bitmap, Node.entries] at hslots
          have hidx64 : keyChunk k consumed < 64 := keyChunk_lt_64 k consumed
          rw [chunkDepthOK] at hcd
          by_cases hbit : bm &&& (1 <<< keyChunk k consumed) = 0
          · have hclear : bm / 2 ^ (keyChunk k consumed) % 2 = 0 :=
              (and_pow_eq_zero_iff bm _).mp hbit
            have hple : count_ones bm (keyChunk k consumed) ≤ es.length := by
              rw [hlen]
              exact count_ones_le_popcount bm _ hbm (by omega)
            have hres2 : (insertAux (fuel + 1) k v consumed (.mk bm es hc)).2 =
                .mk (bm ||| 2 ^ keyChunk k consumed)
                  (es.insertIdx (count_ones bm (keyChunk k consumed)) (.mk (some k) v none))
                  none := by
              simp only [insertAux]
              rw [if_pos hbit, Nat.shiftLeft_eq, one_mul]
            rw [hres2, chunkDepthOK]
            intro e he c hch
            rw [insertIdx_decomp es _ _ hple] at he
            rcases List.mem_append.mp he with he | he
            · exact hcd e (List.take_subset _ es he) c hch
            · rcases List.mem_cons.mp he with he | he
              · subst he
                simp [Entry.child] at hch
              · exact hcd e (List.drop_subset _ es he) c hch
          · have hset : bm / 2 ^ (keyChunk k consumed) % 2 = 1 :=
              bit_set_of_not_and bm _ hbit
            have hpos : count_ones bm (keyChunk k consumed) < es.length := by
              rw [hlen]
              exact count_ones_lt_popcount bm _ hbm hidx64 hset
            obtain ⟨e, hget⟩ :
                ∃ e, es.get? (count_ones bm (keyChunk k consumed)) = some e :=
              ⟨_, List.get?_eq_get hpos⟩
            have hslotE : (unpack 64 bm es).getD (keyChunk k consumed) none = some e := by
              rw [unpack_getD _ 64 bm es hidx64, if_pos hset]
              exact hget
            have hclause := hslots (keyChunk k consumed) e hslotE
            obtain ⟨ekey, eval, ech⟩ := e
            cases ech with
            | none =>
                simp only [Entry.child, Entry.key] at hclause
                obtain ⟨k0, hk0, hchunk0⟩ := hclause
                subst hk0
                by_cases hkk : (some k0 : Option Bytes) = some k
                · have hres2 : (insertAux (fuel + 1) k v consumed (.mk bm es hc)).2 =
                      .mk bm (es.set (count_ones bm (keyChunk k consumed))
                        (.mk (some k0) v none)) none := by
                    simp only [insertAux]
                    rw [if_neg hbit, hget]
                    simp only [Entry.child, Entry.key]
                    rw [if_pos hkk]
                  rw [hres2, chunkDepthOK]
                  intro e he c hch
                  rcases List.mem_or_eq_of_mem_set he with he | he
                  · exact hcd e he c hch
                  · subst he
                    simp [Entry.child] at hch
                · have hne : k0 ≠ k := fun h => hkk (by rw [h])
                  have hk0mem : k0 ∈ (Node.mk bm es hc).keys :=
                    (mem_keys_slot_iff fuel consumed bm es hc hwf k0 _ (by
                      rw [hchunk0]
                      exact hget)).mpr ⟨eval, by simp [entryKVs]⟩
                  rcases hrec1 : insertAux fuel k0 eval (consumed + BITS_PER_STEP)
                      (.mk 0 [] none) with ⟨i1, b1⟩
                  rcases hrec2 : insertAux fuel k v (consumed + BITS_PER_STEP) b1
                      with ⟨i2, b2⟩
                  have hres2 : (insertAux (fuel + 1) k v consumed (.mk bm es hc)).2 =
                      .mk bm (es.set (count_ones bm (keyChunk k consumed))
                        (.mk none Cbor.null (some b2))) none := by
                    simp only [insertAux]
                    rw [if_neg hbit, hget]
                    simp only [Entry.child, Entry.key, Entry.value, Option.getD]
                    rw [if_neg hkk]
                    simp only [hrec1]
                    simp only [hrec2]
                  have hq0 := hq k0 hk0mem hne
                  have hb2 : chunkDepthOK fuel b2 := by
                    cases fuel with
                    | zero =>
                        obtain ⟨i, hi, hdiff⟩ := hq0
                        interval_cases i
                        simp at hdiff
                        exact absurd hchunk0.symm hdiff
                    | succ f =>
                        have hb1 := insert_into_empty f (consumed + BITS_PER_STEP) k0 eval
                        have hb1' : b1 = .mk (2 ^ keyChunk k0 (consumed + BITS_PER_STEP))
                            [Entry.mk (some k0) eval none] none := by
                          rw [hrec1] at hb1
                          injection hb1 with h1 h2
                        have W1 : NodeWF (f + 1) (consumed + BITS_PER_STEP) b1 := by
                          have := (insertAux_ok (f + 1) (consumed + BITS_PER_STEP) k0 eval
                            (.mk 0 [] none) (emptyWF _ _)).1
                          rw [hrec1] at this
                          exact this
                        have hcd1 : chunkDepthOK (f + 1) b1 := by
                          rw [hb1', chunkDepthOK]
                          intro e he c hch
                          rcases List.mem_singleton.mp he with he
                          subst he
                          simp [Entry.child] at hch
                        have hq1 : ∀ q ∈ b1.keys, q ≠ k → ∃ i, i < f + 1 ∧
                            keyChunk k (consumed + BITS_PER_STEP + BITS_PER_STEP * i) ≠
                            keyChunk q (consumed + BITS_PER_STEP + BITS_PER_STEP * i) := by
                          intro q hqm hqne
                          rw [hb1', keys_singleton] at hqm
                          rcases List.mem_singleton.mp hqm with hqm
                          subst hqm
                          obtain ⟨i, hi, hdiff⟩ := hq0
                          cases i with
                          | zero =>
                              simp at hdiff
                              exact absurd hchunk0.symm hdiff
                          | succ i' =>
                              refine ⟨i', by omega, ?_⟩
                              have harith : consumed + BITS_PER_STEP * (i' + 1) =
                                  consumed + BITS_PER_STEP + BITS_PER_STEP * i' := by
                                ring
                              rw [harith] at hdiff
                              exact hdiff
                        have := ih (consumed + BITS_PER_STEP) k v b1 W1 hcd1 hq1
                        rw [hrec2] at this
                        exact this
                  rw [hres2, chunkDepthOK]
                  intro e he c hch
                  rcases List.mem_or_eq_of_mem_set he with he | he
                  · exact hcd e he c hch
                  · subst he
                    simp only [Entry.child] at hch
                    injection hch with hch
                    subst hch
                    exact hb2
            | some child =>
                simp only [Entry.child, Entry.key] at hclause
                obtain ⟨hekey, hcwf, hchunkC, hc2⟩ := hclause
                subst hekey
                rcases hrec : insertAux fuel k v (consumed + BITS_PER_STEP) child
                    with ⟨ins, child'⟩
                have hres2 : (insertAux (fuel + 1) k v consumed (.mk bm es hc)).2 =
                    .mk bm (es.set (count_ones bm (keyChunk k consumed))
                      (.mk none eval (some child')))
                      (if ins then none else hc) := by
                  simp only [insertAux]
                  rw [if_neg hbit, hget]
                  simp only [Entry.child, Entry.key, Entry.value]
                  simp only [hrec]
                have hcdc : chunkDepthOK fuel child :=
                  hcd (.mk none eval (some child)) (mem_of_get? es _ _ hget) child
                    (by simp [Entry.child])
                have hqc : ∀ q ∈ child.keys, q ≠ k → ∃ i, i < fuel ∧
                    keyChunk k (consumed + BITS_PER_STEP + BITS_PER_STEP * i) ≠
                    keyChunk q (consumed + BITS_PER_STEP + BITS_PER_STEP * i) := by
                  intro q hqm hqne
                  have hqnode : q ∈ (Node.mk bm es hc).keys := by
                    obtain ⟨w, hw⟩ := (mem_keys_iff child q).mp hqm
                    apply (mem_keys_iff _ q).mpr ⟨w, ?_⟩
                    rw [keysVals_mk]
                    exact (mem_keysVals_iff es q w).mpr
                      ⟨_, _, hget, by simpa [entryKVs] using hw⟩
                  obtain ⟨i, hi, hdiff⟩ := hq q hqnode hqne
                  cases i with
                  | zero =>
                      simp at hdiff
                      exact absurd (hchunkC q hqm).symm hdiff
                  | succ i' =>
                      refine ⟨i', by omega, ?_⟩
                      have harith : consumed + BITS_PER_STEP * (i' + 1) =
                          consumed + BITS_PER_STEP + BITS_PER_STEP * i' := by
                        ring
                      rw [harith] at hdiff
                      exact hdiff
                have hc' : chunkDepthOK fuel child' := by
                  have := ih (consumed + BITS_PER_STEP) k v child hcwf hcdc hqc
                  rw [hrec] at this
                  exact this
                rw [hres2, chunkDepthOK]
                intro e he c hch
                rcases List.mem_or_eq_of_mem_set he with he | he
                · exact hcd e he c hch
                · subst he
                  simp only [Entry.child] at hch
                  injection hch with hch
                  subst hch
                  exact hc'

end Hamt

namespace Hamt

theorem deleteAux_chunkDepthOK : ∀ (fuel consumed : Nat) (k : Bytes) (n : Node),
    NodeWF fuel consumed n → chunkDepthOK fuel n →
    chunkDepthOK fuel (deleteAux fuel k consumed n).2 := by
  intro fuel
  induction fuel with
  | zero =>
      intro consumed k n hwf hcd
      exact absurd hcd (by rw [chunkDepthOK]; exact not_false)
  | succ fuel ih =>
      intro consumed k n hwf hcd
      match n with
      | .mk bm es hc =>
          have hbm : bm < 2 ^ 64 := by simpa only [Node.bitmap] using hwf.1
          have hlen : es.length = popcount bm := by
            simpa only [Node.entries, Node.bitmap] using hwf.2.1
          have hslots := hwf.2.2
          simp only [Node.bitmap, Node.entries] at hslots
          have hidx64 : keyChunk k consumed < 64 := keyChunk_lt_64 k consumed
          rw [chunkDepthOK] at hcd
          by_cases hbit : bm &&& (1 <<< keyChunk k consumed) = 0
          · have hres2 : (deleteAux (fuel + 1) k consumed (.mk bm es hc)).2 =
                .mk bm es hc := by
              simp only [deleteAux]
              rw [if_pos hbit]
            rw [hres2, chunkDepthOK]
            exact hcd
          · have hset : bm / 2 ^ (keyChunk k consumed) % 2 = 1 :=
              bit_set_of_not_and bm _ hbit
            have hpos : count_ones bm (keyChunk k consumed) < es.length := by
              rw [hlen]
              exact count_ones_lt_popcount bm _ hbm hidx64 hset
            obtain ⟨e, hget⟩ :
                ∃ e, es.get? (count_ones bm (keyChunk k consumed)) = some e :=
              ⟨_, List.get?_eq_get hpos⟩
            have hslotE : (unpack 64 bm es).getD (keyChunk k consumed) none = some e := by
              rw [unpack_getD _ 64 bm es hidx64, if_pos hset]
              exact hget
            have hclause := hslots (keyChunk k consumed) e hslotE
            obtain ⟨ekey, eval, ech⟩ := e
            cases ech with
            | none =>
                simp only [Entry.child, Entry.key] at hclause
                obtain ⟨k0, hk0, hchunk0⟩ := hclause
                subst hk0
                by_cases hkk : (some k0 : Option Bytes) = some k
                · have hres2 : (deleteAux (fuel + 1) k consumed (.mk bm es hc)).2 =
                      .mk (clearBit bm (keyChunk k consumed))
                        (es.eraseIdx (count_ones bm (keyChunk k consumed))) none := by
                    simp only [deleteAux]
                    rw [if_neg hbit, hget]
                    simp only [Entry.child, Entry.key]
                    rw [if_pos hkk]
                  rw [hres2, chunkDepthOK]
                  intro e he c hch
                  exact hcd e (List.eraseIdx_subset _ _ he) c hch
                · have hres2 : (deleteAux (fuel + 1) k consumed (.mk bm es hc)).2 =
                      .mk bm es hc := by
                    simp only [deleteAux]
                    rw [if_neg hbit, hget]
                    simp only [Entry.child, Entry.key]
                    rw [if_neg hkk]
                  rw [hres2, chunkDepthOK]
                  exact hcd
            | some child =>
                simp only [Entry.child, Entry.key] at hclause
                obtain ⟨hekey, hcwf, hchunkC, hc2⟩ := hclause
                subst hekey
                rcases hrec : deleteAux fuel k (consumed + BITS_PER_STEP) child
                    with ⟨del, child'⟩
                have hcdc : chunkDepthOK fuel child :=
                  hcd (.mk none eval (some child)) (mem_of_get? es _ _ hget) child
                    (by simp [Entry.child])
                have hcdc' : chunkDepthOK fuel child' := by
                  have := ih (consumed + BITS_PER_STEP) k child hcwf hcdc
                  rw [hrec] at this
                  exact this
                cases del with
                | false =>
                    have hres2 : (deleteAux (fuel + 1) k consumed (.mk bm es hc)).2 =
                        .mk bm (es.set (count_ones bm (keyChunk k consumed))
                          (.mk none eval (some child'))) hc := by
                      simp only [deleteAux]
                      rw [if_neg hbit, hget]
                      simp only [Entry.child, Entry.key, Entry.value]
                      simp [hrec]
                    rw [hres2, chunkDepthOK]
                    intro e he c hch
                    rcases List.mem_or_eq_of_mem_set he with he | he
                    · exact hcd e he c hch
                    · subst he
                      simp only [Entry.child] at hch
                      injection hch with hch
                      subst hch
                      exact hcdc'
                | true =>
                    obtain ⟨bm', es', hc'⟩ := child'
                    cases es' with
                    | nil =>
                        have hres2 : (deleteAux (fuel + 1) k consumed (.mk bm es hc)).2 =
                            .mk (clearBit bm (keyChunk k consumed))
                              (es.eraseIdx (count_ones bm (keyChunk k consumed))) none := by
                          simp only [deleteAux]
                          rw [if_neg hbit, hget]
                          simp only [Entry.child, Entry.key, Entry.value]
                          simp [hrec, Node.entries]
                        rw [hres2, chunkDepthOK]
                        intro e he c hch
                        exact hcd e (List.eraseIdx_subset _ _ he) c hch
                    | cons ce rest =>
                        cases rest with
                        | nil =>
                            obtain ⟨cek, cev, cech⟩ := ce
                            cases cech with
                            | none =>
                                have hres2 : (deleteAux (fuel + 1) k consumed
                                    (.mk bm es hc)).2 =
                                    .mk bm (es.set (count_ones bm (keyChunk k consumed))
                                      (.mk cek cev none)) none := by
                                  simp only [deleteAux]
                                  rw [if_neg hbit, hget]
                                  simp only [Entry.child, Entry.key, Entry.value]
                                  simp [hrec, Node.entries, Entry.key, Entry.child]
                                rw [hres2, chunkDepthOK]
                                intro e he c hch
                                rcases List.mem_or_eq_of_mem_set he with he | he
                                · exact hcd e he c hch
                                · subst he
                                  simp [Entry.child] at hch
                            | some gc =>
                                have hres2 : (deleteAux (fuel + 1) k consumed
                                    (.mk bm es hc)).2 =
                                    .mk bm (es.set (count_ones bm (keyChunk k consumed))
                                      (.mk none eval
                                        (some (.mk bm' [Entry.mk cek cev (some gc)] hc'))))
                                      none := by
                                  simp only [deleteAux]
                                  rw [if_neg hbit, hget]
                                  simp only [Entry.child, Entry.key, Entry.value]
                                  simp [hrec, Node.entries, Entry.child]
                                rw [hres2, chunkDepthOK]
                                intro e he c hch
                                rcases List.mem_or_eq_of_mem_set he with he | he
                                · exact hcd e he c hch
                                · subst he
                                  simp only [Entry.child] at hch
                                  injection hch with hch
                                  subst hch
                                  exact hcdc'
                        | cons ce2 rest2 =>
                            have hres2 : (deleteAux (fuel + 1) k consumed
                                (.mk bm es hc)).2 =
                                .mk bm (es.set (count_ones bm (keyChunk k consumed))
                                  (.mk none eval
                                    (some (.mk bm' (ce :: ce2 :: rest2) hc')))) none := by
                              simp only [deleteAux]
                              rw [if_neg hbit, hget]
                              simp only [Entry.child, Entry.key, Entry.value]
                              simp [hrec, Node.entries]
                            rw [hres2, chunkDepthOK]
                            intro e he c hch
                            rcases List.mem_or_eq_of_mem_set he with he | he
                            · exact hcd e he c hch
                            · subst he
                              simp only [Entry.child] at hch
                              injection hch with hch
                              subst hch
                              exact hcdc'

end Hamt

namespace Hamt

theorem assocSet_mem_ne : ∀ (m : List (Bytes × Cbor)) (k : Bytes) (v : Cbor)
    (q : Bytes) (w : Cbor), q ≠ k →
    ((q, w) ∈ assocSet m k v ↔ (q, w) ∈ m) := by
  intro m k v q w hq
  induction m with
  | nil => simp [assocSet, hq]
  | cons a rest ih =>
      obtain ⟨k0, v0⟩ := a
      rw [assocSet]
      by_cases hk : k0 = k
      · subst hk
        rw [if_pos rfl]
        simp only [List.mem_cons]
        constructor
        · rintro (h | h)
          · exfalso
            injection h with h1 h2
            exact hq h1
          · exact .inr h
        · rintro (h | h)
          · exfalso
            injection h with h1 h2
            exact hq h1
          · exact .inr h
      · rw [if_neg hk]
        simp only [List.mem_cons]
        rw [ih]

theorem assocSet_mem_self : ∀ (m : List (Bytes × Cbor)) (k : Bytes) (v : Cbor)
    (w : Cbor), (m.map Prod.fst).Pairwise (· ≠ ·) →
    ((k, w) ∈ assocSet m k v ↔ w = v) := by
  intro m k v
  induction m with
  | nil => intro w _; simp [assocSet]
  | cons a rest ih =>
      intro w hpw
      obtain ⟨k0, v0⟩ := a
      rw [List.map_cons, List.pairwise_cons] at hpw
      obtain ⟨hhead, htail⟩ := hpw
      rw [assocSet]
      by_cases hk : k0 = k
      · subst hk
        rw [if_pos rfl]
        have hnr : ¬ (k0, w) ∈ rest := fun h =>
          hhead k0 (List.mem_map.mpr ⟨(k0, w), h, rfl⟩) rfl
        simp [hnr]
      · rw [if_neg hk]
        have hk2 : k ≠ k0 := fun h => hk h.symm
        simp [hk2, ih w htail]

theorem assocSet_length : ∀ (m : List (Bytes × Cbor)) (k : Bytes) (v : Cbor),
    (assocSet m k v).length =
      if k ∈ m.map Prod.fst then m.length else m.length + 1 := by
  intro m k v
  induction m with
  | nil => simp [assocSet]
  | cons a rest ih =>
      obtain ⟨k0, v0⟩ := a
      rw [assocSet]
      by_cases hk : k0 = k
      · subst hk
        rw [if_pos rfl]
        simp
      · rw [if_neg hk]
        simp only [List.length_cons, List.map_cons, List.mem_cons, ih]
        by_cases hm : k ∈ rest.map Prod.fst
        · rw [if_pos hm, if_pos (.inr hm)]
        · rw [if_neg hm, if_neg (by rintro (h | h); exact hk h.symm; exact hm h)]

theorem assocSet_keys_sub : ∀ (m : List (Bytes × Cbor)) (k : Bytes) (v : Cbor)
    (q : Bytes), q ∈ (assocSet m k v).map Prod.fst → q = k ∨ q ∈ m.map Prod.fst := by
  intro m k v q
  induction m with
  | nil => simp [assocSet]
  | cons a rest ih =>
      obtain ⟨k0, v0⟩ := a
      rw [assocSet]
      by_cases hk : k0 = k
      · subst hk
        rw [if_pos rfl]
        simp only [List.map_cons, List.mem_cons]
        rintro (h | h)
        · exact .inr (.inl h)
        · exact .inr (.inr h)
      · rw [if_neg hk]
        simp only [List.map_cons, List.mem_cons]
        rintro (h | h)
        · exact .inr (.inl h)
        · rcases ih h with h | h
          · exact .inl h
          · exact .inr (.inr h)

theorem assocSet_pairwise : ∀ (m : List (Bytes × Cbor)) (k : Bytes) (v : Cbor),
    (m.map Prod.fst).Pairwise (· ≠ ·) →
    ((assocSet m k v).map Prod.fst).Pairwise (· ≠ ·) := by
  intro m k v
  induction m with
  | nil => intro _; simp [assocSet]
  | cons a rest ih =>
      intro hpw
      obtain ⟨k0, v0⟩ := a
      rw [List.map_cons, List.pairwise_cons] at hpw
      obtain ⟨hhead, htail⟩ := hpw
      rw [assocSet]
      by_cases hk : k0 = k
      · subst hk
        rw [if_pos rfl, List.map_cons, List.pairwise_cons]
        exact ⟨hhead, htail⟩
      · rw [if_neg hk, List.map_cons, List.pairwise_cons]
        refine ⟨?_, ih htail⟩
        intro q hq
        rcases assocSet_keys_sub rest k v q hq with h | h
        · subst h
          exact fun he => hk he
        · exact hhead q h

theorem assocDel_sublist : ∀ (m : List (Bytes × Cbor)) (k : Bytes),
    (assocDel m k).Sublist m := by
  intro m k
  induction m with
  | nil => simp [assocDel]
  | cons a rest ih =>
      obtain ⟨k0, v0⟩ := a
      rw [assocDel]
      by_cases hk : k0 = k
      · rw [if_pos hk]
        exact List.sublist_cons_self _ _
      · rw [if_neg hk]
        exact ih.cons₂ _

theorem assocDel_mem_ne : ∀ (m : List (Bytes × Cbor)) (k : Bytes) (q : Bytes)
    (w : Cbor), q ≠ k → ((q, w) ∈ assocDel m k ↔ (q, w) ∈ m) := by
  intro m k q w hq
  induction m with
  | nil => simp [assocDel]
  | cons a rest ih =>
      obtain ⟨k0, v0⟩ := a
      rw [assocDel]
      by_cases hk : k0 = k
      · subst hk
        rw [if_pos rfl]
        simp only [List.mem_cons]
        constructor
        · exact fun h => .inr h
        · rintro (h | h)
          · exfalso
            injection h with h1 h2
            exact hq h1
          · exact h
      · rw [if_neg hk]
        simp only [List.mem_cons]
        rw [ih]

theorem assocDel_not_mem : ∀ (m : List (Bytes × Cbor)) (k : Bytes),
    (m.map Prod.fst).Pairwise (· ≠ ·) →
    ¬ k ∈ (assocDel m k).map Prod.fst := by
  intro m k
  induction m with
  | nil => intro _; simp [assocDel]
  | cons a rest ih =>
      intro hpw
      obtain ⟨k0, v0⟩ := a
      rw [List.map_cons, List.pairwise_cons] at hpw
      obtain ⟨hhead, htail⟩ := hpw
      rw [assocDel]
      by_cases hk : k0 = k
      · subst hk
        rw [if_pos rfl]
        intro hm
        exact hhead k0 hm rfl
      · rw [if_neg hk, List.map_cons]
        intro hm
        rcases List.mem_cons.mp hm with h | h
        · exact hk h.symm
        · exact ih htail h

theorem assocDel_length : ∀ (m : List (Bytes × Cbor)) (k : Bytes),
    (if k ∈ m.map Prod.fst then (assocDel m k).length + 1
      else (assocDel m k).length) = m.length := by
  intro m k
  induction m with
  | nil => simp [assocDel]
  | cons a rest ih =>
      obtain ⟨k0, v0⟩ := a
      rw [assocDel]
      by_cases hk : k0 = k
      · rw [if_pos hk]
        rw [if_pos (by simp [hk])]
        simp
      · rw [if_neg hk]
        simp only [List.map_cons, List.mem_cons, List.length_cons]
        by_cases hm : k ∈ rest.map Prod.fst
        · rw [if_pos (.inr hm)]
          rw [if_pos hm] at ih
          simp
          omega
        · rw [if_neg (by rintro (h | h); exact hk h.symm; exact hm h)]
          rw [if_neg hm] at ih
          simp
          omega

end Hamt

namespace Hamt

theorem assocGet_assocSet_self : ∀ (m : List (Bytes × Cbor)) (k : Bytes) (v : Cbor),
    assocGet (assocSet m k v) k = some v := by
  intro m k v
  induction m with
  | nil => simp [assocSet, assocGet]
  | cons a rest ih =>
      obtain ⟨k0, v0⟩ := a
      rw [assocSet]
      by_cases hk : k0 = k
      · rw [if_pos hk, assocGet, if_pos hk]
      · rw [if_neg hk, assocGet, if_neg hk, ih]

theorem assocGet_assocSet_ne : ∀ (m : List (Bytes × Cbor)) (k : Bytes) (v : Cbor)
    (q : Bytes), q ≠ k → assocGet (assocSet m k v) q = assocGet m q := by
  intro m k v q hq
  induction m with
  | nil =>
      rw [assocSet]
      simp [assocGet, Ne.symm hq]
  | cons a rest ih =>
      obtain ⟨k0, v0⟩ := a
      rw [assocSet]
      by_cases hk : k0 = k
      · rw [if_pos hk, assocGet, assocGet]
        by_cases hk0q : k0 = q
        · exfalso
          exact hq (by rw [← hk0q, hk])
        · rw [if_neg hk0q, if_neg hk0q]
      · rw [if_neg hk, assocGet, assocGet]
        by_cases hk0q : k0 = q
        · rw [if_pos hk0q, if_pos hk0q]
        · rw [if_neg hk0q, if_neg hk0q, ih]

theorem assocGet_assocDel_ne : ∀ (m : List (Bytes × Cbor)) (k : Bytes)
    (q : Bytes), q ≠ k → assocGet (assocDel m k) q = assocGet m q := by
  intro m k q hq
  induction m with
  | nil => rw [assocDel]
  | cons a rest ih =>
      obtain ⟨k0, v0⟩ := a
      rw [assocDel]
      by_cases hk : k0 = k
      · rw [if_pos hk, assocGet, if_neg (by rw [hk]; exact fun h => hq h.symm)]
      · rw [if_neg hk, assocGet, assocGet]
        by_cases hk0q : k0 = q
        · rw [if_pos hk0q, if_pos hk0q]
        · rw [if_neg hk0q, if_neg hk0q, ih]

theorem assocGet_assocDel_self (m : List (Bytes × Cbor)) (k : Bytes)
    (hpw : (m.map Prod.fst).Pairwise (· ≠ ·)) :
    assocGet (assocDel m k) k = none := by
  rw [assocGet_eq_none_iff]
  exact assocDel_not_mem m k hpw

theorem specStep_pairwise (m : List (Bytes × Cbor)) (op : TrieOp)
    (hpw : (m.map Prod.fst).Pairwise (· ≠ ·)) :
    ((specStep m op).map Prod.fst).Pairwise (· ≠ ·) := by
  cases op with
  | ins k v => exact assocSet_pairwise m k v hpw
  | del k =>
      rw [specStep]
      exact (List.Pairwise.sublist ((assocDel_sublist m k).map Prod.fst) hpw)

theorem firstTouch_append_touch : ∀ (l1 l2 : List TrieOp) (k : Bytes),
    (∃ op ∈ l1, opKey op = k) →
    firstTouch (l1 ++ l2) k = firstTouch l1 k := by
  intro l1
  induction l1 with
  | nil =>
      intro l2 k h
      simp at h
  | cons op rest ih =>
      intro l2 k h
      cases op with
      | ins k0 v =>
          rw [List.cons_append, firstTouch, firstTouch]
          by_cases hk : k0 = k
          · rw [if_pos hk, if_pos hk]
          · rw [if_neg hk, if_neg hk]
            apply ih
            rcases h with ⟨op', hop', hkey⟩
            rcases List.mem_cons.mp hop' with he | hm
            · exfalso
              subst he
              exact hk hkey
            · exact ⟨op', hm, hkey⟩
      | del k0 =>
          rw [List.cons_append, firstTouch, firstTouch]
          by_cases hk : k0 = k
          · rw [if_pos hk, if_pos hk]
          · rw [if_neg hk, if_neg hk]
            apply ih
            rcases h with ⟨op', hop', hkey⟩
            rcases List.mem_cons.mp hop' with he | hm
            · exfalso
              subst he
              exact hk hkey
            · exact ⟨op', hm, hkey⟩

theorem firstTouch_append_no : ∀ (l1 l2 : List TrieOp) (k : Bytes),
    (∀ op ∈ l1, ¬ opKey op = k) →
    firstTouch (l1 ++ l2) k = firstTouch l2 k := by
  intro l1
  induction l1 with
  | nil => intro l2 k _; rw [List.nil_append]
  | cons op rest ih =>
      intro l2 k h
      cases op with
      | ins k0 v =>
          rw [List.cons_append, firstTouch]
          rw [if_neg (show ¬ k0 = k by simpa [opKey] using h (.ins k0 v) (by simp))]
          exact ih l2 k (fun op' hm => h op' (by simp [hm]))
      | del k0 =>
          rw [List.cons_append, firstTouch]
          rw [if_neg (show ¬ k0 = k by simpa [opKey] using h (.del k0) (by simp))]
          exact ih l2 k (fun op' hm => h op' (by simp [hm]))

theorem firstTouch_none : ∀ (l : List TrieOp) (k : Bytes),
    (∀ op ∈ l, ¬ opKey op = k) → firstTouch l k = none := by
  intro l
  induction l with
  | nil => intro k _; rw [firstTouch]
  | cons op rest ih =>
      intro k h
      cases op with
      | ins k0 v =>
          rw [firstTouch,
            if_neg (show ¬ k0 = k by simpa [opKey] using h (.ins k0 v) (by simp))]
          exact ih k (fun op' hm => h op' (by simp [hm]))
      | del k0 =>
          rw [firstTouch,
            if_neg (show ¬ k0 = k by simpa [opKey] using h (.del k0) (by simp))]
          exact ih k (fun op' hm => h op' (by simp [hm]))

theorem lastWrite_cons_touch (op : TrieOp) (rest : List TrieOp) (k : Bytes)
    (h : ∃ op' ∈ rest, opKey op' = k) :
    lastWrite (op :: rest) k = lastWrite rest k := by
  rw [lastWrite, lastWrite, List.reverse_cons]
  apply firstTouch_append_touch
  obtain ⟨op', hm, hk⟩ := h
  exact ⟨op', List.mem_reverse.mpr hm, hk⟩

theorem lastWrite_cons_no (op : TrieOp) (rest : List TrieOp) (k : Bytes)
    (h : ∀ op' ∈ rest, ¬ opKey op' = k) :
    lastWrite (op :: rest) k = firstTouch [op] k := by
  rw [lastWrite, List.reverse_cons]
  apply firstTouch_append_no
  exact fun op' hm => h op' (List.mem_reverse.mp hm)

theorem lastWrite_none (ops : List TrieOp) (k : Bytes)
    (h : ∀ op ∈ ops, ¬ opKey op = k) : lastWrite ops k = none := by
  rw [lastWrite]
  exact firstTouch_none _ k (fun op hm => h op (List.mem_reverse.mp hm))

theorem specRun_get : ∀ (ops : List TrieOp) (m : List (Bytes × Cbor)) (k : Bytes),
    (m.map Prod.fst).Pairwise (· ≠ ·) →
    assocGet (specRun m ops) k =
      if ∃ op ∈ ops, opKey op = k then lastWrite ops k else assocGet m k := by
  intro ops
  induction ops with
  | nil =>
      intro m k _
      rw [if_neg (by simp)]
      rfl
  | cons op rest ih =>
      intro m k hpw
      have hstep : specRun m (op :: rest) = specRun (specStep m op) rest := rfl
      rw [hstep, ih (specStep m op) k (specStep_pairwise m op hpw)]
      by_cases hr : ∃ op' ∈ rest, opKey op' = k
      · rw [if_pos hr, if_pos (by obtain ⟨o, hm, hk⟩ := hr; exact ⟨o, by simp [hm], hk⟩)]
        rw [lastWrite_cons_touch op rest k hr]
      · rw [if_neg hr]
        push_neg at hr
        by_cases hop : opKey op = k
        · rw [if_pos ⟨op, by simp, hop⟩, lastWrite_cons_no op rest k hr]
          cases op with
          | ins k0 v =>
              simp only [opKey] at hop
              subst hop
              rw [firstTouch, if_pos rfl]
              exact assocGet_assocSet_self m k0 v
          | del k0 =>
              simp only [opKey] at hop
              subst hop
              rw [firstTouch, if_pos rfl]
              exact assocGet_assocDel_self m k0 hpw
        · rw [if_neg (by
            rintro ⟨o, hm, hk⟩
            rcases List.mem_cons.mp hm with he | hm'
            · exact hop (he ▸ hk)
            · exact hr o hm' hk)]
          cases op with
          | ins k0 v =>
              simp only [opKey] at hop
              exact assocGet_assocSet_ne m k0 v k (fun h => hop h.symm)
          | del k0 =>
              simp only [opKey] at hop
              exact assocGet_assocDel_ne m k0 k (fun h => hop h.symm)

theorem specRun_pairwise : ∀ (ops : List TrieOp) (m : List (Bytes × Cbor)),
    (m.map Prod.fst).Pairwise (· ≠ ·) →
    ((specRun m ops).map Prod.fst).Pairwise (· ≠ ·) := by
  intro ops
  induction ops with
  | nil => intro m hpw; exact hpw
  | cons op rest ih =>
      intro m hpw
      exact ih (specStep m op) (specStep_pairwise m op hpw)

theorem specRun_lastWrite (ops : List TrieOp) (k : Bytes) :
    assocGet (specRun [] ops) k = lastWrite ops k := by
  have h := specRun_get ops [] k (by simp)
  by_cases he : ∃ op ∈ ops, opKey op = k
  · rw [h, if_pos he]
  · rw [h, if_neg he]
    push_neg at he
    rw [lastWrite_none ops k he]
    rfl

end Hamt

namespace Hamt

theorem chunkSeq_ne_exists (a b : Bytes) (h : chunkSeq a ≠ chunkSeq b) :
    ∃ i, i < MAX_DEPTH ∧
      keyChunk a (BITS_PER_STEP * i) ≠ keyChunk b (BITS_PER_STEP * i) := by
  by_contra hc
  push_neg at hc
  apply h
  rw [chunkSeq, chunkSeq]
  apply List.map_congr_left
  intro i hi
  exact hc i (List.mem_range.mp hi)


theorem trieInv_new : TrieInv Trie.new [] := by
  refine ⟨.mk 0 [] none, rfl, emptyWF _ _, ?_, ?_, rfl, rfl, by simp⟩
  · rw [show (MAX_DEPTH : Nat) = 41 + 1 from rfl, chunkDepthOK]
    intro e he
    simp at he
  · intro q w
    simp [keysVals_empty]

theorem runOps_ok : ∀ (ops : List TrieOp) (t : Trie) (m : List (Bytes × Cbor)),
    TrieInv t m →
    (∀ q ∈ m.map Prod.fst, ∀ b ∈ ops.map opKey, q ≠ b → chunkSeq q ≠ chunkSeq b) →
    (∀ a ∈ ops.map opKey, ∀ b ∈ ops.map opKey, a ≠ b → chunkSeq a ≠ chunkSeq b) →
    TrieInv (Trie.runOps t ops) (specRun m ops) := by
  intro ops
  induction ops with
  | nil =>
      intro t m hinv _ _
      exact hinv
  | cons op rest ih =>
      intro t m hinv h1 h2
      obtain ⟨r, hroot, hwf, hcd, hmem, hlen, hsize, hpw⟩ := hinv
      have hkin : ∀ k0 : Bytes, k0 ∈ r.keys ↔ k0 ∈ m.map Prod.fst := by
        intro k0
        rw [mem_keys_iff]
        constructor
        · rintro ⟨w, hw⟩
          exact (mem_map_fst_iff m k0).mpr ⟨w, (hmem k0 w).mp hw⟩
        · intro h
          obtain ⟨w, hw⟩ := (mem_map_fst_iff m k0).mp h
          exact ⟨w, (hmem k0 w).mpr hw⟩
      cases op with
      | ins k v =>
          rcases hins : insertAux MAX_DEPTH k v 0 r with ⟨flag, r'⟩
          have ht' : t.insert (.kbytes k) v =
              ⟨some r', if flag then t.size + 1 else t.size⟩ := by
            rw [Trie.insert, hroot]
            simp [encode_key, hins]
          have hIA := insertAux_ok MAX_DEPTH 0 k v r hwf
          rw [hins] at hIA
          simp only at hIA
          obtain ⟨W, F, M, I, S, L⟩ := hIA
          have hHQ : ∀ q ∈ r.keys, q ≠ k → ∃ i, i < MAX_DEPTH ∧
              keyChunk k (0 + BITS_PER_STEP * i) ≠ keyChunk q (0 + BITS_PER_STEP * i) := by
            intro q hqm hqne
            have hq' : q ∈ m.map Prod.fst := (hkin q).mp hqm
            have hck := h1 q hq' k (by simp [opKey]) hqne
            obtain ⟨i, hi, hd⟩ := chunkSeq_ne_exists k q (fun h => hck h.symm)
            exact ⟨i, hi, by simpa using hd⟩
          have hCD : chunkDepthOK MAX_DEPTH r' := by
            have := insertAux_chunkDepthOK MAX_DEPTH 0 k v r hwf hcd hHQ
            rw [hins] at this
            exact this
          have hpw'' : (r'.keysVals.map Prod.fst).Pairwise (· ≠ ·) := by
            rw [← keys_eq_map]
            exact nodeKeys_pairwise _ _ _ W
          have hmem' : ∀ q w, (q, w) ∈ r'.keysVals ↔ (q, w) ∈ assocSet m k v := by
            intro q w
            by_cases hq : q = k
            · subst hq
              rw [assocSet_mem_self m q v w hpw]
              constructor
              · intro hw
                exact mem_unique r'.keysVals hpw'' q w v hw M
              · intro hw
                subst hw
                exact M
            · rw [I q w hq, hmem q w, assocSet_mem_ne m k v q w hq]
          have hflag : ∀ hk : k ∈ m.map Prod.fst, flag = false := by
            intro hk
            cases hfl : flag
            · rfl
            · rw [hfl] at F
              exact absurd ((hkin k).mpr hk) (F.mp rfl)
          have hlen' : r'.keysVals.length = (assocSet m k v).length := by
            rw [assocSet_length]
            by_cases hk : k ∈ m.map Prod.fst
            · rw [if_pos hk]
              rw [hflag hk] at L
              simp at L
              rw [L, hlen]
            · rw [if_neg hk]
              have hfl : flag = true := F.mpr (fun hks => hk ((hkin k).mp hks))
              rw [hfl] at L
              simp at L
              rw [L, hlen]
          have hsize' : (t.insert (.kbytes k) v).size = (assocSet m k v).length := by
            rw [ht']
            rw [assocSet_length]
            by_cases hk : k ∈ m.map Prod.fst
            · rw [if_pos hk, hflag hk]
              simp [hsize]
            · have hfl : flag = true := F.mpr (fun hks => hk ((hkin k).mp hks))
              rw [if_neg hk, hfl]
              simp [hsize]
          refine ih (t.insert (.kbytes k) v) (assocSet m k v)
            ⟨r', by rw [ht'], W, hCD, hmem', hlen', hsize',
              assocSet_pairwise m k v hpw⟩ ?_ ?_
          · intro q hq b hb hne
            rcases assocSet_keys_sub m k v q hq with h | h
            · subst h
              exact h2 q (by simp [opKey]) b (by simp [hb]) hne
            · exact h1 q h b (by simp [hb]) hne
          · intro a ha b hb
            exact h2 a (by simp [ha]) b (by simp [hb])
      | del k =>
          rcases hdelr : deleteAux MAX_DEPTH k 0 r with ⟨flag, r'⟩
          have ht' : t.delete (.kbytes k) =
              ⟨some r', if flag then t.size - 1 else t.size⟩ := by
            rw [Trie.delete, hroot]
            simp [encode_key, hdelr]
          have hDA := deleteAux_ok MAX_DEPTH 0 k r hwf
          rw [hdelr] at hDA
          simp only at hDA
          obtain ⟨W, F, NM, I, S, L⟩ := hDA
          have hCD : chunkDepthOK MAX_DEPTH r' := by
            have := deleteAux_chunkDepthOK MAX_DEPTH 0 k r hwf hcd
            rw [hdelr] at this
            exact this
          have hmem' : ∀ q w, (q, w) ∈ r'.keysVals ↔ (q, w) ∈ assocDel m k := by
            intro q w
            by_cases hq : q = k
            · subst hq
              constructor
              · intro hw
                exact absurd ((mem_keys_iff r' q).mpr ⟨w, hw⟩) NM
              · intro hw
                exfalso
                apply assocDel_not_mem m q hpw
                exact (mem_map_fst_iff _ q).mpr ⟨w, hw⟩
            · rw [I q w hq, hmem q w, assocDel_mem_ne m k q w hq]
          have hdl := assocDel_length m k
          have hlen' : r'.keysVals.length = (assocDel m k).length := by
            by_cases hk : k ∈ m.map Prod.fst
            · have hfl : flag = true := F.mpr ((hkin k).mpr hk)
              rw [hfl] at L
              rw [if_pos hk] at hdl
              simp at L
              omega
            · have hfl : flag = false := by
                cases hfl2 : flag
                · rfl
                · rw [hfl2] at F
                  exact absurd ((hkin k).mp (F.mp rfl)) hk
              rw [hfl] at L
              rw [if_neg hk] at hdl
              simp at L
              omega
          have hsize' : (t.delete (.kbytes k)).size = (assocDel m k).length := by
            rw [ht']
            by_cases hk : k ∈ m.map Prod.fst
            · have hfl : flag = true := F.mpr ((hkin k).mpr hk)
              rw [hfl, if_pos hk] at *
              simp
              omega
            · have hfl : flag = false := by
                cases hfl2 : flag
                · rfl
                · rw [hfl2] at F
                  exact absurd ((hkin k).mp (F.mp rfl)) hk
              rw [hfl, if_neg hk] at *
              simp
              omega
          refine ih (t.delete (.kbytes k)) (assocDel m k)
            ⟨r', by rw [ht'], W, hCD, hmem', hlen',  hsize',
              (hpw.sublist ((assocDel_sublist m k).map Prod.fst))⟩ ?_ ?_
          · intro q hq b hb hne
            exact h1 q (((assocDel_sublist m k).map Prod.fst).subset hq) b
              (by simp [hb]) hne
          · intro a ha b hb
            exact h2 a (by simp [ha]) b (by simp [hb])

end Hamt

namespace Hamt


theorem lastWrite_isSome_touched (ops : List TrieOp) (k : Bytes)
    (h : (lastWrite ops k).isSome) : k ∈ ops.map opKey := by
  by_contra hm
  rw [lastWrite_none ops k (by
    intro op hop hk
    exact hm (List.mem_map.mpr ⟨op, hop, hk⟩))] at h
  simp at h

end Hamt

/-- C1: starting from an empty Trie and applying any sequence of insert and
delete operations whose distinct keys have pairwise distinct 42-chunk hash
paths (true of any real key set barring a 252-bit SHA-256 collision),
`get(k)` returns the value of the last `insert(k, v)` not followed by a
later `delete(k)` and Python `None` otherwise, and `size()` equals the
number of distinct keys whose last operation was an insert. -/
theorem claim_C1 (ops : List Hamt.TrieOp)
    (hnc : ∀ a ∈ ops.map Hamt.opKey, ∀ b ∈ ops.map Hamt.opKey, a ≠ b →
      Hamt.chunkSeq a ≠ Hamt.chunkSeq b) :
    (∀ k : Bytes, (Hamt.Trie.runOps Hamt.Trie.new ops).get (.kbytes k)
        = .regular ((Hamt.lastWrite ops k).getD Cbor.null)) ∧
    (Hamt.Trie.runOps Hamt.Trie.new ops).size = (Hamt.liveKeys ops).length := by
  have hinv := Hamt.runOps_ok ops Hamt.Trie.new [] Hamt.trieInv_new (by simp) hnc
  obtain ⟨r, hroot, hwf, hcd, hmem, hlen, hsize, hpw⟩ := hinv
  constructor
  · intro k
    have hg : (Hamt.Trie.runOps Hamt.Trie.new ops).get (.kbytes k) =
        Hamt.findAux Hamt.MAX_DEPTH k 0 r := by
      rw [Hamt.Trie.get, hroot]
      rfl
    have hag : Hamt.assocGet r.keysVals k = Hamt.lastWrite ops k := by
      rw [← Hamt.specRun_lastWrite ops k]
      cases hg2 : Hamt.assocGet (Hamt.specRun [] ops) k with
      | some w =>
          exact Hamt.assocGet_eq_some_of_mem _ k w
            (by rw [← Hamt.keys_eq_map]; exact Hamt.nodeKeys_pairwise _ _ _ hwf)
            ((hmem k w).mpr (Hamt.assocGet_mem _ k w hg2))
      | none =>
          rw [Hamt.assocGet_eq_none_iff] at hg2 ⊢
          intro hm
          obtain ⟨w, hw⟩ := (Hamt.mem_map_fst_iff _ k).mp hm
          exact hg2 ((Hamt.mem_map_fst_iff _ k).mpr ⟨w, (hmem k w).mp hw⟩)
    rw [hg, Hamt.findAux_ok Hamt.MAX_DEPTH 0 k r hwf hcd, hag]
  · rw [hsize]
    have hnd1 : ((Hamt.specRun [] ops).map Prod.fst).Nodup := hpw
    have hnd2 : (Hamt.liveKeys ops).Nodup :=
      ((ops.map Hamt.opKey).nodup_dedup).filter _
    have hsetiff : ∀ q : Bytes,
        q ∈ (Hamt.specRun [] ops).map Prod.fst ↔ q ∈ Hamt.liveKeys ops := by
      intro q
      rw [Hamt.liveKeys, List.mem_filter, List.mem_dedup]
      constructor
      · intro hm
        have hne : Hamt.assocGet (Hamt.specRun [] ops) q ≠ none := by
          intro h
          exact (Hamt.assocGet_eq_none_iff _ q).mp h hm
        rw [Hamt.specRun_lastWrite ops q] at hne
        have hs : (Hamt.lastWrite ops q).isSome := by
          cases h : Hamt.lastWrite ops q
          · exact absurd h hne
          · rfl
        exact ⟨Hamt.lastWrite_isSome_touched ops q hs, by simpa using hs⟩
      · rintro ⟨-, hs⟩
        have hne : Hamt.lastWrite ops q ≠ none := by
          intro h
          rw [h] at hs
          simp at hs
        rw [← Hamt.specRun_lastWrite ops q] at hne
        by_contra hm
        exact hne ((Hamt.assocGet_eq_none_iff _ q).mpr hm)
    have hperm := (List.perm_ext_iff_of_nodup hnd1 hnd2).mpr hsetiff
    rw [← List.length_map (Hamt.specRun [] ops) Prod.fst]
    exact hperm.length_eq

theorem claim_C1_witness :
    (∀ a ∈ ([Hamt.TrieOp.ins [0] (Cbor.cuint 1),
        Hamt.TrieOp.del [0]].map Hamt.opKey),
      ∀ b ∈ ([Hamt.TrieOp.ins [0] (Cbor.cuint 1),
        Hamt.TrieOp.del [0]].map Hamt.opKey),
        a ≠ b → Hamt.chunkSeq a ≠ Hamt.chunkSeq b) ∧
    ((∀ k : Bytes, (Hamt.Trie.runOps Hamt.Trie.new
        [Hamt.TrieOp.ins [0] (Cbor.cuint 1), Hamt.TrieOp.del [0]]).get (.kbytes k)
        = .regular ((Hamt.lastWrite [Hamt.TrieOp.ins [0] (Cbor.cuint 1),
            Hamt.TrieOp.del [0]] k).getD Cbor.null)) ∧
      (Hamt.Trie.runOps Hamt.Trie.new [Hamt.TrieOp.ins [0] (Cbor.cuint 1),
        Hamt.TrieOp.del [0]]).size =
        (Hamt.liveKeys [Hamt.TrieOp.ins [0] (Cbor.cuint 1),
          Hamt.TrieOp.del [0]]).length) :=
  ⟨by decide, claim_C1 [Hamt.TrieOp.ins [0] (Cbor.cuint 1), Hamt.TrieOp.del [0]]
    (by decide)⟩

/-- C10: storing the value Python `None` under a fresh key makes `has`
report absence and `get` return `None` — indistinguishable from a missing
key through the public interface — while `size` is nevertheless
incremented like any other first insert. -/
theorem claim_C10 (k : Bytes) :
    ((Hamt.Trie.new.insert (.kbytes k) Cbor.null).has (.kbytes k) = false) ∧
    ((Hamt.Trie.new.insert (.kbytes k) Cbor.null).get (.kbytes k)
      = .regular Cbor.null) ∧
    (Hamt.Trie.new.insert (.kbytes k) Cbor.null).size = Hamt.Trie.new.size + 1 := by
  have hM : Hamt.MAX_DEPTH = 41 + 1 := rfl
  have hins := Hamt.insert_into_empty 41 0 k Cbor.null
  have ht : Hamt.Trie.new.insert (.kbytes k) Cbor.null =
      ⟨some (.mk (2 ^ Hamt.keyChunk k 0) [.mk (some k) Cbor.null none] none), 1⟩ := by
    rw [Hamt.Trie.insert, Hamt.Trie.new]
    simp only [Hamt.encode_key, Option.getD_some, hM, hins]
    rfl
  have hb : ¬ (2 ^ Hamt.keyChunk k 0 &&& (1 <<< Hamt.keyChunk k 0) = 0) := by
    rw [Hamt.and_pow_eq_zero_iff]
    rw [Nat.div_self (Nat.pos_pow_of_pos _ (by omega))]
    omega
  have hco : Hamt.count_ones (2 ^ Hamt.keyChunk k 0) (Hamt.keyChunk k 0) = 0 := by
    rw [Hamt.count_ones_eq_mod, Nat.mod_self]
    simp [Hamt.popcount, Hamt.popcountGo]
  have hget : (⟨some (.mk (2 ^ Hamt.keyChunk k 0)
      [.mk (some k) Cbor.null none] none), 1⟩ : Hamt.Trie).get (.kbytes k)
      = .regular Cbor.null := by
    rw [Hamt.Trie.get]
    simp only [Hamt.encode_key]
    rw [hM]
    simp only [Hamt.findAux]
    rw [if_neg hb, hco]
    simp [Hamt.Entry.child, Hamt.Entry.key, Hamt.Entry.value]
  refine ⟨?_, ?_, ?_⟩
  · rw [Hamt.Trie.has, ht, hget]
    simp
  · rw [ht, hget]
  · rw [ht]
    rfl

namespace Hamt

mutual
theorem deep_copy_node_ok : ∀ n : Node,
    (deep_copy_node n).keysVals = n.keysVals ∧
    Node.hashR (deep_copy_node n) = Node.hashR n ∧
    Node.cacheFree (deep_copy_node n)
  | .mk bm es hc => by
      rw [deep_copy_node]
      obtain ⟨h1, h2, h3⟩ := deepCopyEntries_ok es
      refine ⟨?_, ?_, ?_⟩
      · rw [Node.keysVals, Node.keysVals]
        exact h1
      · rw [Node.hashR, Node.hashR, h2]
      · rw [Node.cacheFree]
        exact ⟨rfl, h3⟩
theorem deepCopyEntries_ok : ∀ es : List Entry,
    entriesKeysVals (deepCopyEntries es) = entriesKeysVals es ∧
    entriesStreamR (deepCopyEntries es) = entriesStreamR es ∧
    entriesCacheFree (deepCopyEntries es)
  | [] => by
      rw [deepCopyEntries]
      exact ⟨rfl, rfl, trivial⟩
  | .mk k v none :: rest => by
      rw [deepCopyEntries, deepCopyEntry]
      obtain ⟨h1, h2, h3⟩ := deepCopyEntries_ok rest
      refine ⟨?_, ?_, ?_⟩
      · rw [entriesKeysVals, entriesKeysVals, h1]
      · rw [entriesStreamR, entriesStreamR, h2]
      · rw [entriesCacheFree]
        exact h3
  | .mk k v (some c) :: rest => by
      rw [deepCopyEntries, deepCopyEntry]
      obtain ⟨h1, h2, h3⟩ := deepCopyEntries_ok rest
      obtain ⟨g1, g2, g3⟩ := deep_copy_node_ok c
      refine ⟨?_, ?_, ?_⟩
      · rw [entriesKeysVals, entriesKeysVals, h1, g1]
      · rw [entriesStreamR, entriesStreamR, h2, g2]
      · rw [entriesCacheFree]
        exact ⟨g3, h3⟩
end

end Hamt

/-- C7: `copy()` rebuilds the whole node structure afresh: the copy shares
no node with the original, visits exactly the same key/value pairs, has the
same size and the same recomputed root hash, and every cache in the copy is
cleared — so no later mutation of the copy can reach back into the
original, whose `hash()` and iteration stay those of its pre-copy state. -/
theorem claim_C7 (t : Hamt.Trie) :
    t.copy.visits = t.visits ∧
    t.copy.size = t.size ∧
    (∀ r, t.root = some r →
      t.copy.root = some (Hamt.deep_copy_node r) ∧
      Hamt.Node.hashR (Hamt.deep_copy_node r) = Hamt.Node.hashR r ∧
      Hamt.Node.cacheFree (Hamt.deep_copy_node r)) := by
  refine ⟨?_, rfl, ?_⟩
  · rw [Hamt.Trie.visits, Hamt.Trie.visits, Hamt.Trie.copy]
    cases hr : t.root with
    | none => rfl
    | some r =>
        simp only [Option.map_some]
        exact (Hamt.deep_copy_node_ok r).1
  · intro r hr
    refine ⟨?_, (Hamt.deep_copy_node_ok r).2.1, (Hamt.deep_copy_node_ok r).2.2⟩
    rw [Hamt.Trie.copy, hr]
    rfl

namespace Hamt


theorem entriesStreamR_cons (e : Entry) (rest : List Entry) :
    entriesStreamR (e :: rest) = entryContrib e ++ entriesStreamR rest := by
  match e with
  | .mk k v none => rw [entriesStreamR, entryContrib]
  | .mk k v (some c) => rw [entriesStreamR, entryContrib]

theorem entriesStreamR_congr : ∀ (es1 es2 : List Entry), es1.length = es2.length →
    (∀ p e1 e2, es1.get? p = some e1 → es2.get? p = some e2 →
      entryContrib e1 = entryContrib e2) →
    entriesStreamR es1 = entriesStreamR es2 := by
  intro es1
  induction es1 with
  | nil =>
      intro es2 hlen _
      cases es2 with
      | nil => rfl
      | cons e2 rest2 => simp at hlen
  | cons e1 rest1 ih =>
      intro es2 hlen hp
      cases es2 with
      | nil => simp at hlen
      | cons e2 rest2 =>
          rw [entriesStreamR_cons, entriesStreamR_cons]
          rw [hp 0 e1 e2 rfl rfl]
          rw [ih rest2 (by simpa using hlen)
            (fun p a1 a2 h1 h2 => hp (p + 1) a1 a2 (by simpa using h1) (by simpa using h2))]

theorem count_ones_inj_set (bm j1 j2 : Nat)
    (h1 : bm / 2 ^ j1 % 2 = 1) (h2 : bm / 2 ^ j2 % 2 = 1)
    (hc : count_ones bm j1 = count_ones bm j2) : j1 = j2 := by
  by_contra hne
  rcases Nat.lt_or_ge j1 j2 with h | h
  · have := count_ones_strict bm j1 j2 h h1
    omega
  · have hlt : j2 < j1 := by omega
    have := count_ones_strict bm j2 j1 hlt h2
    omega

theorem bitmap_eq_of_bits (bm1 bm2 : Nat) (h1 : bm1 < 2 ^ 64) (h2 : bm2 < 2 ^ 64)
    (h : ∀ j, j < 64 → (bm1 / 2 ^ j % 2 = 1 ↔ bm2 / 2 ^ j % 2 = 1)) : bm1 = bm2 := by
  apply Nat.eq_of_testBit_eq
  intro j
  by_cases hj : j < 64
  · have e1 := div_pow_mod_two_eq_one_iff bm1 j
    have e2 := div_pow_mod_two_eq_one_iff bm2 j
    have hiff := h j hj
    cases hb1 : bm1.testBit j <;> cases hb2 : bm2.testBit j
    · rfl
    · rw [hb2] at e2
      rw [hb1] at e1
      have := e2.mpr rfl
      have h1' := hiff.mpr this
      have := e1.mp h1'
      simp at this
    · rw [hb1] at e1
      rw [hb2] at e2
      have := e1.mpr rfl
      have h2' := hiff.mp this
      have := e2.mp h2'
      simp at this
    · rfl
  · have hle : 2 ^ 64 ≤ 2 ^ j := Nat.pow_le_pow_right (by omega) (by omega)
    rw [Nat.testBit_lt_two_pow (by omega), Nat.testBit_lt_two_pow (by omega)]

theorem entryKVs_nonempty (fuel consumed j : Nat) (e : Entry)
    (hcl : match e.child with
       | none => ∃ k, e.key = some k ∧ keyChunk k consumed = j
       | some c => e.key = none ∧ NodeWF fuel (consumed + BITS_PER_STEP) c ∧
           (∀ k ∈ c.keys, keyChunk k consumed = j) ∧ 2 ≤ c.keys.length) :
    ∃ q w, (q, w) ∈ entryKVs e := by
  match e with
  | .mk key v none =>
      exact ⟨key.getD [], v, by simp [entryKVs]⟩
  | .mk key v (some c) =>
      simp only [Entry.child] at hcl
      obtain ⟨-, -, -, h2⟩ := hcl
      rw [keys_length] at h2
      rcases hkv : c.keysVals with _ | ⟨⟨q, w⟩, rest⟩
      · rw [hkv] at h2
        simp at h2
      · exact ⟨q, w, by simp [entryKVs, hkv]⟩

end Hamt

namespace Hamt

theorem occupied_bit (fuel consumed bm : Nat) (es : List Entry) (hc : Option Bytes)
    (hwf : NodeWF (fuel + 1) consumed (.mk bm es hc)) (j : Nat) (hj : j < 64)
    (hbit : bm / 2 ^ j % 2 = 1) :
    ∃ q w, keyChunk q consumed = j ∧ (q, w) ∈ entriesKeysVals es := by
  have hbm : bm < 2 ^ 64 := by simpa only [Node.bitmap] using hwf.1
  have hlen : es.length = popcount bm := by
    simpa only [Node.entries, Node.bitmap] using hwf.2.1
  have hslots := hwf.2.2
  simp only [Node.bitmap, Node.entries] at hslots
  have hp : count_ones bm j < es.length := by
    rw [hlen]
    exact count_ones_lt_popcount bm j hbm hj hbit
  obtain ⟨e, hget⟩ : ∃ e, es.get? (count_ones bm j) = some e := ⟨_, List.get?_eq_get hp⟩
  have hslotE : (unpack 64 bm es).getD j none = some e := by
    rw [unpack_getD _ _ _ _ hj, if_pos hbit]
    exact hget
  have hcl := hslots j e hslotE
  obtain ⟨q, w, hkv⟩ := entryKVs_nonempty fuel consumed j e hcl
  exact ⟨q, w, kvs_chunk consumed j fuel e hcl q w hkv,
    (mem_keysVals_iff es q w).mpr ⟨_, e, hget, hkv⟩⟩

/-- The recomputed hash of a well-formed, collision-free node is a function
of its key/value content alone: the packed-array layout is canonical. -/
theorem hashR_ext : ∀ (fuel consumed : Nat) (n1 n2 : Node),
    NodeWF fuel consumed n1 → NodeWF fuel consumed n2 →
    chunkDepthOK fuel n1 → chunkDepthOK fuel n2 →
    (∀ q w, (q, w) ∈ n1.keysVals ↔ (q, w) ∈ n2.keysVals) →
    Node.hashR n1 = Node.hashR n2 := by
  intro fuel
  induction fuel with
  | zero =>
      intro consumed n1 n2 _ _ hcd1 _ _
      exact absurd hcd1 (by rw [chunkDepthOK]; exact not_false)
  | succ fuel ih =>
      intro consumed n1 n2 hwf1 hwf2 hcd1 hcd2 hiff
      match n1, n2 with
      | .mk bm1 es1 hc1, .mk bm2 es2 hc2 =>
          have hbm1 : bm1 < 2 ^ 64 := by simpa only [Node.bitmap] using hwf1.1
          have hbm2 : bm2 < 2 ^ 64 := by simpa only [Node.bitmap] using hwf2.1
          have hlen1 : es1.length = popcount bm1 := by
            simpa only [Node.entries, Node.bitmap] using hwf1.2.1
          have hlen2 : es2.length = popcount bm2 := by
            simpa only [Node.entries, Node.bitmap] using hwf2.2.1
          have hiff' : ∀ q w, (q, w) ∈ entriesKeysVals es1 ↔ (q, w) ∈ entriesKeysVals es2 := by
            intro q w
            have := hiff q w
            rw [keysVals_mk, keysVals_mk] at this
            exact this
          rw [chunkDepthOK] at hcd1 hcd2
          have hbmeq : bm1 = bm2 := by
            apply bitmap_eq_of_bits bm1 bm2 hbm1 hbm2
            intro j hj
            constructor
            · intro hbit
              obtain ⟨q, w, hchq, hm⟩ :=
                occupied_bit fuel consumed bm1 es1 hc1 hwf1 j hj hbit
              have hm2 : (q, w) ∈ entriesKeysVals es2 := (hiff' q w).mp hm
              have := (mem_slot fuel consumed bm2 es2 hc2 hwf2 q w hm2).1
              rw [hchq] at this
              exact this
            · intro hbit
              obtain ⟨q, w, hchq, hm⟩ :=
                occupied_bit fuel consumed bm2 es2 hc2 hwf2 j hj hbit
              have hm1 : (q, w) ∈ entriesKeysVals es1 := (hiff' q w).mpr hm
              have := (mem_slot fuel consumed bm1 es1 hc1 hwf1 q w hm1).1
              rw [hchq] at this
              exact this
          subst hbmeq
          have hleneq : es1.length = es2.length := by rw [hlen1, hlen2]
          rw [Node.hashR, Node.hashR]
          congr 1
          apply entriesStreamR_congr es1 es2 hleneq
          intro p e1 e2 hget1 hget2
          obtain ⟨j1, hj1, hbit1, hcnt1, hcl1⟩ :=
            slotWF fuel consumed bm1 es1 hc1 hwf1 p e1 hget1
          obtain ⟨j2, hj2, hbit2, hcnt2, hcl2⟩ :=
            slotWF fuel consumed bm1 es2 hc2 hwf2 p e2 hget2
          have hjeq : j1 = j2 :=
            count_ones_inj_set bm1 j1 j2 hbit1 hbit2 (by rw [hcnt1, hcnt2])
          subst hjeq
          have hkviff : ∀ q w, (q, w) ∈ entryKVs e1 ↔ (q, w) ∈ entryKVs e2 := by
            intro q w
            constructor
            · intro hkv
              have hch : keyChunk q consumed = j1 :=
                kvs_chunk consumed j1 fuel e1 hcl1 q w hkv
              have hm2 : (q, w) ∈ entriesKeysVals es2 :=
                (hiff' q w).mp ((mem_keysVals_iff es1 q w).mpr ⟨p, e1, hget1, hkv⟩)
              obtain ⟨-, e', hget', hkv'⟩ :=
                mem_slot fuel consumed bm1 es2 hc2 hwf2 q w hm2
              rw [hch, hcnt1, hget2] at hget'
              injection hget' with he
              subst he
              exact hkv'
            · intro hkv
              have hch : keyChunk q consumed = j1 :=
                kvs_chunk consumed j1 fuel e2 hcl2 q w hkv
              have hm1 : (q, w) ∈ entriesKeysVals es1 :=
                (hiff' q w).mpr ((mem_keysVals_iff es2 q w).mpr ⟨p, e2, hget2, hkv⟩)
              obtain ⟨-, e', hget', hkv'⟩ :=
                mem_slot fuel consumed bm1 es1 hc1 hwf1 q w hm1
              rw [hch, hcnt1, hget1] at hget'
              injection hget' with he
              subst he
              exact hkv'
          obtain ⟨k1e, v1e, ch1⟩ := e1
          obtain ⟨k2e, v2e, ch2⟩ := e2
          cases ch1 with
          | none =>
              simp only [Entry.child, Entry.key] at hcl1
              obtain ⟨k1, hk1, hchk1⟩ := hcl1
              subst hk1
              cases ch2 with
              | none =>
                  simp only [Entry.child, Entry.key] at hcl2
                  obtain ⟨k2, hk2, hchk2⟩ := hcl2
                  subst hk2
                  have := (hkviff k1 v1e).mp (by simp [entryKVs])
                  simp [entryKVs] at this
                  rw [entryContrib, entryContrib]
                  rw [this.1, this.2]
              | some c2 =>
                  exfalso
                  simp only [Entry.child, Entry.key] at hcl2
                  obtain ⟨-, hwfc2, -, hk2⟩ := hcl2
                  have hpw2 : c2.keys.Pairwise (· ≠ ·) :=
                    nodeKeys_pairwise fuel (consumed + BITS_PER_STEP) c2 hwfc2
                  rw [keys_length] at hk2
                  rcases hkv2 : c2.keysVals with _ | ⟨⟨qa, wa⟩, tail⟩
                  · rw [hkv2] at hk2
                    simp at hk2
                  · rcases htail : tail with _ | ⟨⟨qb, wb⟩, tail2⟩
                    · rw [hkv2, htail] at hk2
                      simp at hk2
                    · subst htail
                      have ha : (qa, wa) ∈ entryKVs (Entry.mk k2e v2e (some c2)) := by
                        simp [entryKVs, hkv2]
                      have hb : (qb, wb) ∈ entryKVs (Entry.mk k2e v2e (some c2)) := by
                        simp [entryKVs, hkv2]
                      have ha' := (hkviff qa wa).mpr ha
                      have hb' := (hkviff qb wb).mpr hb
                      simp [entryKVs] at ha' hb'
                      rw [keys_eq_map, hkv2] at hpw2
                      simp only [List.map_cons, List.pairwise_cons] at hpw2
                      exact hpw2.1 qb (by simp) (by rw [ha'.1, hb'.1])
          | some c1 =>
              simp only [Entry.child, Entry.key] at hcl1
              obtain ⟨-, hwfc1, -, hk1⟩ := hcl1
              cases ch2 with
              | none =>
                  exfalso
                  simp only [Entry.child, Entry.key] at hcl2
                  obtain ⟨k2, hk2e, hchk2⟩ := hcl2
                  subst hk2e
                  have hpw1 : c1.keys.Pairwise (· ≠ ·) :=
                    nodeKeys_pairwise fuel (consumed + BITS_PER_STEP) c1 hwfc1
                  rw [keys_length] at hk1
                  rcases hkv1 : c1.keysVals with _ | ⟨⟨qa, wa⟩, tail⟩
                  · rw [hkv1] at hk1
                    simp at hk1
                  · rcases htail : tail with _ | ⟨⟨qb, wb⟩, tail2⟩
                    · rw [hkv1, htail] at hk1
                      simp at hk1
                    · subst htail
                      have ha : (qa, wa) ∈ entryKVs (Entry.mk k1e v1e (some c1)) := by
                        simp [entryKVs, hkv1]
                      have hb : (qb, wb) ∈ entryKVs (Entry.mk k1e v1e (some c1)) := by
                        simp [entryKVs, hkv1]
                      have ha' := (hkviff qa wa).mp ha
                      have hb' := (hkviff qb wb).mp hb
                      simp [entryKVs] at ha' hb'
                      rw [keys_eq_map, hkv1] at hpw1
                      simp only [List.map_cons, List.pairwise_cons] at hpw1
                      exact hpw1.1 qb (by simp) (by rw [ha'.1, hb'.1])
              | some c2 =>
                  simp only [Entry.child, Entry.key] at hcl2
                  obtain ⟨-, hwfc2, -, hk2⟩ := hcl2
                  have hcdc1 : chunkDepthOK fuel c1 :=
                    hcd1 (.mk k1e v1e (some c1)) (mem_of_get? es1 p _ hget1) c1
                      (by simp [Entry.child])
                  have hcdc2 : chunkDepthOK fuel c2 :=
                    hcd2 (.mk k2e v2e (some c2)) (mem_of_get? es2 p _ hget2) c2
                      (by simp [Entry.child])
                  have hciff : ∀ q w, (q, w) ∈ c1.keysVals ↔ (q, w) ∈ c2.keysVals := by
                    intro q w
                    have := hkviff q w
                    simpa [entryKVs] using this
                  rw [entryContrib, entryContrib]
                  exact ih (consumed + BITS_PER_STEP) c1 c2 hwfc1 hwfc2 hcdc1 hcdc2 hciff

end Hamt

namespace Hamt

theorem entriesCacheFree_iff : ∀ es : List Entry,
    entriesCacheFree es ↔ ∀ e ∈ es, ∀ c : Node, e.child = some c → Node.cacheFree c := by
  intro es
  induction es with
  | nil =>
      rw [entriesCacheFree]
      simp
  | cons e rest ih =>
      obtain ⟨k, v, ch⟩ := e
      cases ch with
      | none =>
          rw [entriesCacheFree, ih]
          constructor
          · intro h e' he' c hc
            rcases List.mem_cons.mp he' with he' | he'
            · subst he'
              simp [Entry.child] at hc
            · exact h e' he' c hc
          · intro h e' he' c hc
            exact h e' (by simp [he']) c hc
      | some c0 =>
          rw [entriesCacheFree]
          constructor
          · rintro ⟨h1, h2⟩ e' he' c hc
            rcases List.mem_cons.mp he' with he' | he'
            · subst he'
              simp only [Entry.child] at hc
              injection hc with hc
              subst hc
              exact h1
            · exact (ih.mp h2) e' he' c hc
          · intro h
            refine ⟨h (.mk k v (some c0)) (by simp) c0 (by simp [Entry.child]), ?_⟩
            exact ih.mpr (fun e' he' c hc => h e' (by simp [he']) c hc)

mutual
theorem hashM_cacheFree_fst : ∀ n : Node, Node.cacheFree n →
    (Node.hashM n).1 = Node.hashR n
  | .mk bm es (some h), hcf => by
      rw [Node.cacheFree] at hcf
      exact absurd hcf.1 (by simp)
  | .mk bm es none, hcf => by
      rw [Node.cacheFree] at hcf
      rw [Node.hashM, Node.hashR]
      have := entriesHashStream_cacheFree_fst es hcf.2
      simp only
      rw [this]
theorem entriesHashStream_cacheFree_fst : ∀ es : List Entry, entriesCacheFree es →
    (entriesHashStream es).1 = entriesStreamR es
  | [], _ => rfl
  | .mk k v none :: rest, hcf => by
      rw [entriesCacheFree] at hcf
      rw [entriesHashStream, entriesStreamR]
      have h2 := entriesHashStream_cacheFree_fst rest hcf
      have h1 : (entryHashStream (.mk k v none)).1 = k.getD [] ++ cbor_encode v := by
        rw [entryHashStream]
      simp only
      rw [h1, h2]
  | .mk k v (some c) :: rest, hcf => by
      rw [entriesCacheFree] at hcf
      rw [entriesHashStream, entriesStreamR]
      have h2 := entriesHashStream_cacheFree_fst rest hcf.2
      have h1 : (entryHashStream (.mk k v (some c))).1 = Node.hashR c := by
        rw [entryHashStream]
        simp only
        rw [hashM_cacheFree_fst c hcf.1]
      simp only
      rw [h1, h2]
end

end Hamt

namespace Hamt

theorem insert_fallback_cacheFree (k : Bytes) (v : Cbor) :
    ∀ es : List Entry, entriesCacheFree es →
    entriesCacheFree (insert_fallback k v es).2 := by
  intro es
  induction es with
  | nil =>
      intro _
      rw [insert_fallback]
      rw [entriesCacheFree]
      rw [entriesCacheFree]
      trivial
  | cons e rest ih =>
      intro hcf
      obtain ⟨k0, v0, ch⟩ := e
      rw [insert_fallback]
      by_cases hk : (Entry.mk k0 v0 ch).key = some k
      · rw [if_pos hk]
        cases ch with
        | none =>
            simp only [Entry.key, Entry.child]
            rw [entriesCacheFree] at hcf ⊢
            exact hcf
        | some c =>
            simp only [Entry.key, Entry.child]
            rw [entriesCacheFree] at hcf ⊢
            exact hcf
      · rw [if_neg hk]
        rcases hif : insert_fallback k v rest with ⟨b, rest'⟩
        simp only
        cases ch with
        | none =>
            rw [entriesCacheFree] at hcf ⊢
            have := ih hcf
            rw [hif] at this
            exact this
        | some c =>
            rw [entriesCacheFree] at hcf ⊢
            have := ih hcf.2
            rw [hif] at this
            exact ⟨hcf.1, this⟩

theorem cacheFree_empty : Node.cacheFree (.mk 0 [] none) := by
  rw [Node.cacheFree, entriesCacheFree]
  exact ⟨rfl, trivial⟩

end Hamt

namespace Hamt

theorem mem_insertIdx_any {α : Type} {a b : α} (n : Nat) (l : List α)
    (h : a ∈ l.insertIdx n b) : a = b ∨ a ∈ l := by
  rcases Nat.lt_or_ge l.length n with hlt | hge
  · rw [List.insertIdx_of_length_lt l b n hlt] at h
    exact .inr h
  · exact (List.mem_insertIdx hge).mp h

theorem insertAux_cacheFree : ∀ (fuel consumed : Nat) (k : Bytes) (v : Cbor) (n : Node),
    Node.cacheFree n → Node.cacheFree (insertAux fuel k v consumed n).2 := by
  intro fuel
  induction fuel with
  | zero =>
      intro consumed k v n hcf
      match n with
      | .mk bm es hc =>
          rw [Node.cacheFree] at hcf
          rcases hif : insert_fallback k v es with ⟨b, es'⟩
          have hres2 : (insertAux 0 k v consumed (.mk bm es hc)).2 =
              .mk bm es' (if b then none else hc) := by
            simp only [insertAux, hif]
          rw [hres2, Node.cacheFree]
          have hcf' := insert_fallback_cacheFree k v es hcf.2
          rw [hif] at hcf'
          refine ⟨?_, hcf'⟩
          rw [hcf.1]
          cases b <;> rfl
  | succ fuel ih =>
      intro consumed k v n hcf
      match n with
      | .mk bm es hc =>
          rw [Node.cacheFree] at hcf
          obtain ⟨hhc, hecf⟩ := hcf
          rw [entriesCacheFree_iff] at hecf
          by_cases hbit : bm &&& (1 <<< keyChunk k consumed) = 0
          · have hres2 : (insertAux (fuel + 1) k v consumed (.mk bm es hc)).2 =
                .mk (bm ||| (1 <<< keyChunk k consumed))
                  (es.insertIdx (count_ones bm (keyChunk k consumed))
                    (.mk (some k) v none)) none := by
              simp only [insertAux]
              rw [if_pos hbit]
            rw [hres2, Node.cacheFree, entriesCacheFree_iff]
            refine ⟨rfl, ?_⟩
            intro e he c hch
            rcases mem_insertIdx_any _ es he with he | he
            · subst he
              simp [Entry.child] at hch
            · exact hecf e he c hch
          · rcases hget : es.get? (count_ones bm (keyChunk k consumed)) with _ | e
            · have hres2 : (insertAux (fuel + 1) k v consumed (.mk bm es hc)).2 =
                  .mk bm es hc := by
                simp only [insertAux]
                rw [if_neg hbit, hget]
              rw [hres2, Node.cacheFree, entriesCacheFree_iff]
              exact ⟨hhc, hecf⟩
            · obtain ⟨ekey, eval, ech⟩ := e
              cases ech with
              | none =>
                  by_cases hkk : (ekey : Option Bytes) = some k
                  · have hres2 : (insertAux (fuel + 1) k v consumed (.mk bm es hc)).2 =
                        .mk bm (es.set (count_ones bm (keyChunk k consumed))
                          (.mk ekey v none)) none := by
                      simp only [insertAux]
                      rw [if_neg hbit, hget]
                      simp only [Entry.child, Entry.key]
                      rw [if_pos hkk]
                    rw [hres2, Node.cacheFree, entriesCacheFree_iff]
                    refine ⟨rfl, ?_⟩
                    intro e he c hch
                    rcases List.mem_or_eq_of_mem_set he with he | he
                    · exact hecf e he c hch
                    · subst he
                      simp [Entry.child] at hch
                  · rcases hrec1 : insertAux fuel (ekey.getD []) eval
                        (consumed + BITS_PER_STEP) (.mk 0 [] none) with ⟨i1, b1⟩
                    rcases hrec2 : insertAux fuel k v (consumed + BITS_PER_STEP) b1
                        with ⟨i2, b2⟩
                    have hres2 : (insertAux (fuel + 1) k v consumed (.mk bm es hc)).2 =
                        .mk bm (es.set (count_ones bm (keyChunk k consumed))
                          (.mk none Cbor.null (some b2))) none := by
                      simp only [insertAux]
                      rw [if_neg hbit, hget]
                      simp only [Entry.child, Entry.key, Entry.value]
                      rw [if_neg hkk]
                      simp only [hrec1]
                      simp only [hrec2]
                    have hcfb1 : Node.cacheFree b1 := by
                      have := ih (consumed + BITS_PER_STEP) (ekey.getD []) eval
                        (.mk 0 [] none) cacheFree_empty
                      rw [hrec1] at this
                      exact this
                    have hcfb2 : Node.cacheFree b2 := by
                      have := ih (consumed + BITS_PER_STEP) k v b1 hcfb1
                      rw [hrec2] at this
                      exact this
                    rw [hres2, Node.cacheFree, entriesCacheFree_iff]
                    refine ⟨rfl, ?_⟩
                    intro e he c hch
                    rcases List.mem_or_eq_of_mem_set he with he | he
                    · exact hecf e he c hch
                    · subst he
                      simp only [Entry.child] at hch
                      injection hch with hch
                      subst hch
                      exact hcfb2
              | some child =>
                  rcases hrec : insertAux fuel k v (consumed + BITS_PER_STEP) child
                      with ⟨ins, child'⟩
                  have hres2 : (insertAux (fuel + 1) k v consumed (.mk bm es hc)).2 =
                      .mk bm (es.set (count_ones bm (keyChunk k consumed))
                        (.mk ekey eval (some child')))
                        (if ins then none else hc) := by
                    simp only [insertAux]
                    rw [if_neg hbit, hget]
                    simp only [Entry.child, Entry.key, Entry.value]
                    simp only [hrec]
                  have hcfc : Node.cacheFree child :=
                    hecf (.mk ekey eval (some child)) (mem_of_get? es _ _ hget) child
                      (by simp [Entry.child])
                  have hcfc' : Node.cacheFree child' := by
                    have := ih (consumed + BITS_PER_STEP) k v child hcfc
                    rw [hrec] at this
                    exact this
                  rw [hres2, Node.cacheFree, entriesCacheFree_iff]
                  constructor
                  · rw [hhc]
                    cases ins <;> rfl
                  · intro e he c hch
                    rcases List.mem_or_eq_of_mem_set he with he | he
                    · exact hecf e he c hch
                    · subst he
                      simp only [Entry.child] at hch
                      injection hch with hch
                      subst hch
                      exact hcfc'

end Hamt

namespace Hamt

theorem assocSet_append : ∀ (m : List (Bytes × Cbor)) (k : Bytes) (v : Cbor),
    ¬ k ∈ m.map Prod.fst → assocSet m k v = m ++ [(k, v)] := by
  intro m k v
  induction m with
  | nil => intro _; rw [assocSet]; rfl
  | cons a rest ih =>
      intro hk
      obtain ⟨k0, v0⟩ := a
      rw [assocSet]
      have hne : ¬ k0 = k := by
        intro h
        exact hk (by simp [h])
      rw [if_neg hne, ih (fun h => hk (by simp [h]))]
      rfl

theorem specRun_ins_mem : ∀ (l : List (Bytes × Cbor)) (m : List (Bytes × Cbor)),
    ((l.map Prod.fst).Pairwise (· ≠ ·)) →
    (∀ q ∈ l.map Prod.fst, ¬ q ∈ m.map Prod.fst) →
    ∀ q w, ((q, w) ∈ specRun m (l.map fun p => .ins p.1 p.2) ↔
      (q, w) ∈ m ∨ (q, w) ∈ l) := by
  intro l
  induction l with
  | nil =>
      intro m _ _ q w
      simp [specRun]
  | cons p rest ih =>
      intro m hpw hdis q w
      obtain ⟨k, v⟩ := p
      rw [List.map_cons, List.pairwise_cons] at hpw
      obtain ⟨hhead, htail⟩ := hpw
      have hkm : ¬ k ∈ m.map Prod.fst := hdis k (by simp)
      have hstep : specRun m ((((k, v) :: rest).map fun p => TrieOp.ins p.1 p.2)) =
          specRun (assocSet m k v) (rest.map fun p => TrieOp.ins p.1 p.2) := rfl
      rw [hstep, assocSet_append m k v hkm]
      rw [ih (m ++ [(k, v)]) htail ?hdis q w]
      case hdis =>
        intro q' hq'
        simp only [List.map_append, List.mem_append]
        rintro (h | h)
        · exact hdis q' (by simp [hq']) h
        · simp at h
          exact hhead q' hq' h.symm
      simp only [List.mem_append, List.mem_cons]
      constructor
      · rintro ((h | h) | h)
        · exact .inl h
        · simp at h
          exact .inr (.inl (by rw [h.1, h.2]))
        · exact .inr (.inr h)
      · rintro (h | h | h)
        · exact .inl (.inl h)
        · exact .inl (.inr (by simp [h]))
        · exact .inr h

theorem ofPairs_runOps : ∀ (l : List (Bytes × Cbor)) (t : Trie),
    l.foldl (fun t p => t.insert (.kbytes p.1) p.2) t =
      Trie.runOps t (l.map fun p => .ins p.1 p.2) := by
  intro l
  induction l with
  | nil => intro t; rfl
  | cons p rest ih =>
      intro t
      rw [List.foldl_cons, List.map_cons]
      exact ih (t.insert (.kbytes p.1) p.2)

theorem insOps_keys (l : List (Bytes × Cbor)) :
    (l.map fun p => TrieOp.ins p.1 p.2).map opKey = l.map Prod.fst := by
  rw [List.map_map]
  rfl

theorem insert_root_cacheFree (t : Trie) (key : KeyType) (v : Cbor)
    (h : ∀ r, t.root = some r → Node.cacheFree r) :
    ∀ r', (t.insert key v).root = some r' → Node.cacheFree r' := by
  intro r' hr'
  rw [Trie.insert] at hr'
  have hcf0 : Node.cacheFree (t.root.getD (.mk 0 [] none)) := by
    cases hroot : t.root with
    | none => exact cacheFree_empty
    | some r0 => exact h r0 hroot
  have := insertAux_cacheFree MAX_DEPTH 0 (encode_key key) v
    (t.root.getD (.mk 0 [] none)) hcf0
  simp only at hr'
  injection hr' with hr'
  rw [← hr']
  exact this

theorem ofPairs_root_cacheFree : ∀ (l : List (Bytes × Cbor)) (t : Trie),
    (∀ r, t.root = some r → Node.cacheFree r) →
    ∀ r, (l.foldl (fun t p => t.insert (.kbytes p.1) p.2) t).root = some r →
      Node.cacheFree r := by
  intro l
  induction l with
  | nil => intro t h; exact h
  | cons p rest ih =>
      intro t h
      rw [List.foldl_cons]
      exact ih (t.insert (.kbytes p.1) p.2)
        (insert_root_cacheFree t (.kbytes p.1) p.2 h)

end Hamt

/-- C5: building a fresh Trie from any permutation of a set of pairs with
distinct keys (of pairwise distinct 42-chunk hash paths) yields the same
`hash()`: the root digest depends only on the set of live key/value pairs,
not on insertion order. -/
theorem claim_C5 (l1 l2 : List (Bytes × Cbor))
    (hperm : l1.Perm l2)
    (hpw : (l1.map Prod.fst).Pairwise (· ≠ ·))
    (hnc : ∀ a ∈ l1.map Prod.fst, ∀ b ∈ l1.map Prod.fst, a ≠ b →
      Hamt.chunkSeq a ≠ Hamt.chunkSeq b) :
    (Hamt.Trie.ofPairs l1).hash.1 = (Hamt.Trie.ofPairs l2).hash.1 := by
  have hpermk : (l1.map Prod.fst).Perm (l2.map Prod.fst) := hperm.map Prod.fst
  have hpw2 : (l2.map Prod.fst).Pairwise (· ≠ ·) :=
    (hpermk.pairwise_iff (fun h => h.symm)).mp hpw
  have hnc2 : ∀ a ∈ l2.map Prod.fst, ∀ b ∈ l2.map Prod.fst, a ≠ b →
      Hamt.chunkSeq a ≠ Hamt.chunkSeq b := by
    intro a ha b hb
    exact hnc a (hpermk.mem_iff.mpr ha) b (hpermk.mem_iff.mpr hb)
  have hn1 : Hamt.Trie.ofPairs l1 =
      Hamt.Trie.runOps Hamt.Trie.new (l1.map fun p => .ins p.1 p.2) := by
    rw [Hamt.Trie.ofPairs]
    exact Hamt.ofPairs_runOps l1 Hamt.Trie.new
  have hn2 : Hamt.Trie.ofPairs l2 =
      Hamt.Trie.runOps Hamt.Trie.new (l2.map fun p => .ins p.1 p.2) := by
    rw [Hamt.Trie.ofPairs]
    exact Hamt.ofPairs_runOps l2 Hamt.Trie.new
  have hinv1 := Hamt.runOps_ok (l1.map fun p => .ins p.1 p.2) Hamt.Trie.new []
    Hamt.trieInv_new (by simp)
    (by
      intro a ha b hb
      rw [Hamt.insOps_keys] at ha hb
      exact hnc a ha b hb)
  have hinv2 := Hamt.runOps_ok (l2.map fun p => .ins p.1 p.2) Hamt.Trie.new []
    Hamt.trieInv_new (by simp)
    (by
      intro a ha b hb
      rw [Hamt.insOps_keys] at ha hb
      exact hnc2 a ha b hb)
  obtain ⟨r1, hroot1, hwf1, hcd1, hmem1, -, -, -⟩ := hinv1
  obtain ⟨r2, hroot2, hwf2, hcd2, hmem2, -, -, -⟩ := hinv2
  have hct1 : ∀ q w, (q, w) ∈ r1.keysVals ↔ (q, w) ∈ l1 := by
    intro q w
    rw [hmem1 q w, Hamt.specRun_ins_mem l1 [] hpw (by simp) q w]
    simp
  have hct2 : ∀ q w, (q, w) ∈ r2.keysVals ↔ (q, w) ∈ l2 := by
    intro q w
    rw [hmem2 q w, Hamt.specRun_ins_mem l2 [] hpw2 (by simp) q w]
    simp
  have hciff : ∀ q w, (q, w) ∈ r1.keysVals ↔ (q, w) ∈ r2.keysVals := by
    intro q w
    rw [hct1 q w, hct2 q w]
    exact hperm.mem_iff
  have hhr : Hamt.Node.hashR r1 = Hamt.Node.hashR r2 :=
    Hamt.hashR_ext Hamt.MAX_DEPTH 0 r1 r2 hwf1 hwf2 hcd1 hcd2 hciff
  have hcf1 : Hamt.Node.cacheFree r1 := by
    apply Hamt.ofPairs_root_cacheFree l1 Hamt.Trie.new
    · intro r hr
      injection hr with hr
      rw [← hr]
      exact Hamt.cacheFree_empty
    · rw [← Hamt.Trie.ofPairs] at *
      rw [hn1]
      exact hroot1
  have hcf2 : Hamt.Node.cacheFree r2 := by
    apply Hamt.ofPairs_root_cacheFree l2 Hamt.Trie.new
    · intro r hr
      injection hr with hr
      rw [← hr]
      exact Hamt.cacheFree_empty
    · rw [← Hamt.Trie.ofPairs] at *
      rw [hn2]
      exact hroot2
  have hh1 : (Hamt.Trie.ofPairs l1).hash.1 = (Hamt.Node.hashM r1).1 := by
    rw [hn1, Hamt.Trie.hash, hroot1]
  have hh2 : (Hamt.Trie.ofPairs l2).hash.1 = (Hamt.Node.hashM r2).1 := by
    rw [hn2, Hamt.Trie.hash, hroot2]
  rw [hh1, hh2, Hamt.hashM_cacheFree_fst r1 hcf1, Hamt.hashM_cacheFree_fst r2 hcf2, hhr]

theorem claim_C5_witness :
    (([([0], Cbor.cuint 1), ([1], Cbor.cuint 2)] : List (Bytes × Cbor)).Perm
      [([1], Cbor.cuint 2), ([0], Cbor.cuint 1)]) ∧
    ((([([0], Cbor.cuint 1), ([1], Cbor.cuint 2)] : List (Bytes × Cbor)).map
      Prod.fst).Pairwise (· ≠ ·)) ∧
    (∀ a ∈ ([([0], Cbor.cuint 1), ([1], Cbor.cuint 2)] :
        List (Bytes × Cbor)).map Prod.fst,
      ∀ b ∈ ([([0], Cbor.cuint 1), ([1], Cbor.cuint 2)] :
        List (Bytes × Cbor)).map Prod.fst,
      a ≠ b → Hamt.chunkSeq a ≠ Hamt.chunkSeq b) ∧
    (Hamt.Trie.ofPairs [([0], Cbor.cuint 1), ([1], Cbor.cuint 2)]).hash.1 =
      (Hamt.Trie.ofPairs [([1], Cbor.cuint 2), ([0], Cbor.cuint 1)]).hash.1 :=
  ⟨by decide, by decide, by decide,
    claim_C5 [([0], Cbor.cuint 1), ([1], Cbor.cuint 2)]
      [([1], Cbor.cuint 2), ([0], Cbor.cuint 1)]
      (by decide) (by decide) (by decide)⟩

theorem and255 (n : Nat) : n &&& 255 = n % 256 := by
  have h := Hamt.and_two_pow_sub_one n 8
  norm_num at h
  exact h

theorem shiftr_div (n k : Nat) : n >>> k = n / 2 ^ k := Nat.shiftRight_eq_div_pow n k

theorem or_shift_add (hi lo k : Nat) (hlo : lo < 2 ^ k) :
    (hi <<< k) ||| lo = hi * 2 ^ k + lo := by
  rw [Nat.shiftLeft_eq]
  exact Hamt.mul_pow_or_mod hi lo k hlo

theorem beBytes2_eq (n : Nat) :
    Sha256.beBytes 2 n = [(n >>> 8) &&& 255, n &&& 255] := rfl

theorem beBytes4_eq (n : Nat) :
    Sha256.beBytes 4 n =
      [((n >>> 8) >>> 8) >>> 8 &&& 255, (n >>> 8) >>> 8 &&& 255,
       (n >>> 8) &&& 255, n &&& 255] := rfl

theorem beBytes8_eq (n : Nat) :
    Sha256.beBytes 8 n =
      [((((((n >>> 8) >>> 8) >>> 8) >>> 8) >>> 8) >>> 8) >>> 8 &&& 255,
       (((((n >>> 8) >>> 8) >>> 8) >>> 8) >>> 8) >>> 8 &&& 255,
       ((((n >>> 8) >>> 8) >>> 8) >>> 8) >>> 8 &&& 255,
       (((n >>> 8) >>> 8) >>> 8) >>> 8 &&& 255,
       ((n >>> 8) >>> 8) >>> 8 &&& 255,
       (n >>> 8) >>> 8 &&& 255,
       (n >>> 8) &&& 255, n &&& 255] := rfl

theorem recompose2 (n : Nat) (h : n < 2 ^ 16) :
    ((((n >>> 8) &&& 255) <<< 8) ||| (n &&& 255)) = n := by
  rw [and255, and255, shiftr_div]
  rw [or_shift_add _ _ 8 (by norm_num; omega)]
  norm_num
  omega

theorem or_disjoint (a b k : Nat) (ha : 2 ^ k ∣ a) (hb : b < 2 ^ k) : a ||| b = a + b := by
  obtain ⟨c, hc⟩ := ha
  rw [hc, mul_comm]
  exact Hamt.mul_pow_or_mod c b k hb

theorem recompose4 (n : Nat) (h : n < 2 ^ 32) :
    (((((n >>> 8) >>> 8) >>> 8 &&& 255) <<< 24) |||
      (((n >>> 8) >>> 8 &&& 255) <<< 16) |||
      (((n >>> 8) &&& 255) <<< 8) ||| (n &&& 255)) = n := by
  simp only [and255, shiftr_div, Nat.shiftLeft_eq, Nat.div_div_eq_div_mul]
  norm_num
  have m0 : n % 256 < 256 := Nat.mod_lt _ (by norm_num)
  have m1 : n / 256 % 256 < 256 := Nat.mod_lt _ (by norm_num)
  have m2 : n / 65536 % 256 < 256 := Nat.mod_lt _ (by norm_num)
  have m3 : n / 16777216 % 256 < 256 := Nat.mod_lt _ (by norm_num)
  rw [or_disjoint (n / 16777216 % 256 * 16777216) (n / 65536 % 256 * 65536) 24
    ⟨n / 16777216 % 256, by ring⟩ (by norm_num; omega)]
  rw [or_disjoint _ (n / 256 % 256 * 256) 16
    ⟨n / 16777216 % 256 * 256 + n / 65536 % 256, by ring⟩ (by norm_num; omega)]
  rw [or_disjoint _ (n % 256) 8
    ⟨(n / 16777216 % 256 * 256 + n / 65536 % 256) * 256 + n / 256 % 256, by ring⟩
    (by norm_num; omega)]
  omega

theorem bytesToNatBE_append_one (l : Bytes) (b : Nat) :
    bytesToNatBE (l ++ [b]) = bytesToNatBE l * 256 + b := by
  rw [bytesToNatBE, bytesToNatBE, List.foldl_append]
  rfl

theorem bytesToNatBE_beBytes : ∀ (w n : Nat), n < 2 ^ (8 * w) →
    bytesToNatBE (Sha256.beBytes w n) = n := by
  intro w
  induction w with
  | zero =>
      intro n h
      norm_num at h
      rw [h]
      rfl
  | succ w ih =>
      intro n h
      rw [Sha256.beBytes, bytesToNatBE_append_one]
      rw [ih (n >>> 8) (by
        rw [shiftr_div]
        have h2 : 2 ^ (8 * (w + 1)) = 2 ^ (8 * w) * 2 ^ 8 := by
          rw [← pow_add]
          ring_nf
        rw [h2] at h
        norm_num at h ⊢
        omega)]
      rw [and255, shiftr_div]
      norm_num
      omega

theorem head_bytes (m arg : Nat) (hm : m ≤ 5) (ha : arg < 2 ^ 64) :
    ∃ ib tl, (∀ rest : Bytes, encodeHead m arg ++ rest = ib :: (tl ++ rest)) ∧
      m * 32 ≤ ib ∧ ib < m * 32 + 28 ∧ ib >>> 5 = m ∧
      (∀ rest : Bytes, decodeArg (ib &&& 31) (tl ++ rest) = some (arg, rest)) := by
  by_cases h1 : arg < 24
  · refine ⟨m * 32 + arg, [], ?_, by omega, by omega, ?_, ?_⟩
    · intro rest
      rw [encodeHead, if_pos h1, or_shift_add m arg 5 (by norm_num; omega)]
      norm_num
    · rw [shiftr_div]
      norm_num
      omega
    · intro rest
      have hand : (m * 32 + arg) &&& 31 = arg := by
        have h := Hamt.and_two_pow_sub_one (m * 32 + arg) 5
        norm_num at h
        rw [h]
        omega
      rw [hand]
      simp [decodeArg, h1]
  · by_cases h2 : arg < 0x100
    · refine ⟨m * 32 + 24, [arg], ?_, by omega, by omega, ?_, ?_⟩
      · intro rest
        rw [encodeHead, if_neg h1, if_pos h2, or_shift_add m 24 5 (by norm_num)]
        norm_num
      · rw [shiftr_div]
        norm_num
        omega
      · intro rest
        have hand : (m * 32 + 24) &&& 31 = 24 := by
          have h := Hamt.and_two_pow_sub_one (m * 32 + 24) 5
          norm_num at h
          rw [h]
          omega
        rw [hand]
        simp [decodeArg]
    · by_cases h3 : arg < 0x10000
      · refine ⟨m * 32 + 25, Sha256.beBytes 2 arg, ?_, by omega, by omega, ?_, ?_⟩
        · intro rest
          rw [encodeHead, if_neg h1, if_neg h2, if_pos h3,
            or_shift_add m 25 5 (by norm_num)]
          norm_num
        · rw [shiftr_div]
          norm_num
          omega
        · intro rest
          have hand : (m * 32 + 25) &&& 31 = 25 := by
            have h := Hamt.and_two_pow_sub_one (m * 32 + 25) 5
            norm_num at h
            rw [h]
            omega
          rw [hand, beBytes2_eq]
          simp only [decodeArg]
          norm_num
          rw [recompose2 arg (by norm_num at h3 ⊢; omega)]
      · by_cases h4 : arg < 0x100000000
        · refine ⟨m * 32 + 26, Sha256.beBytes 4 arg, ?_, by omega, by omega, ?_, ?_⟩
          · intro rest
            rw [encodeHead, if_neg h1, if_neg h2, if_neg h3, if_pos h4,
              or_shift_add m 26 5 (by norm_num)]
            norm_num
          · rw [shiftr_div]
            norm_num
            omega
          · intro rest
            have hand : (m * 32 + 26) &&& 31 = 26 := by
              have h := Hamt.and_two_pow_sub_one (m * 32 + 26) 5
              norm_num at h
              rw [h]
              omega
            rw [hand, beBytes4_eq]
            simp only [decodeArg]
            norm_num
            rw [recompose4 arg (by norm_num at h4 ⊢; omega)]
        · refine ⟨m * 32 + 27, Sha256.beBytes 8 arg, ?_, by omega, by omega, ?_, ?_⟩
          · intro rest
            rw [encodeHead, if_neg h1, if_neg h2, if_neg h3, if_neg h4,
              or_shift_add m 27 5 (by norm_num)]
            norm_num
          · rw [shiftr_div]
            norm_num
            omega
          · intro rest
            have hand : (m * 32 + 27) &&& 31 = 27 := by
              have h := Hamt.and_two_pow_sub_one (m * 32 + 27) 5
              norm_num at h
              rw [h]
              omega
            rw [hand, beBytes8_eq]
            simp only [decodeArg]
            norm_num
            rw [show [((((((arg >>> 8) >>> 8) >>> 8) >>> 8) >>> 8) >>> 8) >>> 8 &&& 255,
              (((((arg >>> 8) >>> 8) >>> 8) >>> 8) >>> 8) >>> 8 &&& 255,
              ((((arg >>> 8) >>> 8) >>> 8) >>> 8) >>> 8 &&& 255,
              (((arg >>> 8) >>> 8) >>> 8) >>> 8 &&& 255,
              ((arg >>> 8) >>> 8) >>> 8 &&& 255,
              (arg >>> 8) >>> 8 &&& 255,
              (arg >>> 8) &&& 255, arg &&& 255] = Sha256.beBytes 8 arg from
                (beBytes8_eq arg).symm]
            rw [bytesToNatBE_beBytes 8 arg (by norm_num at ha ⊢; omega)]


theorem depth_pos (v : Cbor) : 1 ≤ Cbor.depth v := by
  match v with
  | .null => exact le_refl 1
  | .cb _ => exact le_refl 1
  | .cuint n =>
      rw [Cbor.depth]
      by_cases h : n < 0x10000000000000000
      · rw [if_pos h]
      · rw [if_neg h]
        omega
  | .cbytes _ => exact le_refl 1
  | .ctext _ => exact le_refl 1
  | .carr xs => rw [Cbor.depth]; omega
  | .cmap kvs => rw [Cbor.depth]; omega

theorem bytesToNatBE_natBytesBEGo : ∀ (fuel n : Nat), n ≤ fuel →
    bytesToNatBE (natBytesBEGo fuel n) = n := by
  intro fuel
  induction fuel with
  | zero =>
      intro n h
      rw [natBytesBEGo]
      have h0 : n = 0 := by omega
      rw [h0]
      rfl
  | succ fuel ih =>
      intro n h
      rw [natBytesBEGo]
      by_cases hn : n = 0
      · rw [if_pos hn, hn]
        rfl
      · rw [if_neg hn, bytesToNatBE_append_one]
        rw [ih (n >>> 8) (by rw [shiftr_div]; norm_num; omega)]
        rw [and255, shiftr_div]
        norm_num
        omega

theorem bytesToNatBE_natBytesBE (n : Nat) : bytesToNatBE (natBytesBE n) = n :=
  bytesToNatBE_natBytesBEGo n n (le_refl n)

theorem splitAtOpt_exact (bs tail : Bytes) :
    splitAtOpt bs.length (bs ++ tail) = some (bs, tail) := by
  rw [splitAtOpt, if_pos (by simp)]
  rw [List.take_left, List.drop_left]

theorem decItems_encode (fuel : Nat)
    (hdv : ∀ x t2, Cbor.canonB x = true → Cbor.depth x ≤ fuel →
      decodeVal fuel (cbor_encode x ++ t2) = some (x, t2)) :
    ∀ (xs : CborList) (tail : Bytes), CborList.canonItems xs = true →
    CborList.depthItems xs ≤ fuel →
    decItems (decodeVal fuel) xs.length (encodeItems xs ++ tail) = some (xs, tail)
  | .nil, tail, _, _ => by
      rw [CborList.length, encodeItems, decItems]
      rfl
  | .cons x xs, tail, hc, hd => by
      rw [CborList.canonItems, Bool.and_eq_true] at hc
      rw [CborList.depthItems] at hd
      rw [CborList.length, encodeItems, decItems, List.append_assoc]
      rw [hdv x (encodeItems xs ++ tail) hc.1 (by omega)]
      dsimp only
      rw [decItems_encode fuel hdv xs tail hc.2 (by omega)]

theorem decPairs_encode (fuel : Nat)
    (hdv : ∀ x t2, Cbor.canonB x = true → Cbor.depth x ≤ fuel →
      decodeVal fuel (cbor_encode x ++ t2) = some (x, t2)) :
    ∀ (kvs : CborPairs) (tail : Bytes), CborPairs.canonPairs kvs = true →
    CborPairs.depthPairs kvs ≤ fuel →
    decPairsGo (decodeVal fuel) kvs.length
      ((encodePairs kvs).foldr (fun p acc => p.1 ++ p.2 ++ acc) [] ++ tail) =
      some (kvs, tail)
  | .nil, tail, _, _ => by
      rw [CborPairs.length, encodePairs, decPairsGo]
      rfl
  | .cons k v rest, tail, hc, hd => by
      rw [CborPairs.canonPairs, Bool.and_eq_true, Bool.and_eq_true] at hc
      rw [CborPairs.depthPairs] at hd
      rw [CborPairs.length, encodePairs, decPairsGo]
      rw [List.foldr_cons, List.append_assoc, List.append_assoc]
      dsimp only
      rw [hdv k _ hc.1.1 (by omega)]
      dsimp only
      rw [hdv v _ hc.1.2 (by omega)]
      dsimp only
      rw [decPairs_encode fuel hdv rest tail hc.2 (by omega)]

/-- Decoding inverts canonical encoding: `cbor2.loads` of `cbor_encode v`
consumes exactly the encoding and returns `v`. -/
theorem decode_encode : ∀ (fuel : Nat) (v : Cbor) (tail : Bytes), Cbor.canonB v = true →
    Cbor.depth v ≤ fuel → decodeVal fuel (cbor_encode v ++ tail) = some (v, tail) := by
  intro fuel
  induction fuel with
  | zero =>
      intro v tail _ hd
      have := depth_pos v
      omega
  | succ fuel ih =>
      intro v tail hc hd
      match v with
      | .null => simp [cbor_encode, decodeVal]
      | .cb b => cases b <;> simp [cbor_encode, decodeVal]
      | .cuint n =>
          rw [Cbor.canonB] at hc
          rw [Cbor.depth] at hd
          by_cases hn : n < 0x10000000000000000
          · rw [cbor_encode, if_pos hn]
            obtain ⟨ib, tl, henc, hlb, hub, hshr, hdec⟩ := head_bytes 0 n (by omega) hn
            rw [henc tail]
            simp only [decodeVal]
            rw [if_neg (by omega), if_neg (by omega), if_neg (by omega), if_neg (by omega)]
            rw [hdec tail]
            dsimp only
            rw [hshr]
            simp
          · rw [cbor_encode, if_neg hn]
            rw [if_neg hn] at hd
            have hfe : decodeVal fuel
                ((encodeHead 2 (natBytesBE n).length ++ natBytesBE n) ++ tail)
                = some (Cbor.cbytes (natBytesBE n), tail) :=
              ih (.cbytes (natBytesBE n)) tail (by rw [Cbor.canonB]; exact hc)
                (by
                  have h1 : Cbor.depth (Cbor.cbytes (natBytesBE n)) = 1 := rfl
                  omega)
            rw [List.cons_append]
            simp only [decodeVal]
            rw [if_neg (by decide), if_neg (by decide), if_neg (by decide),
              if_pos (by trivial)]
            rw [hfe]
            dsimp only
            rw [bytesToNatBE_natBytesBE]
      | .cbytes bs =>
          rw [Cbor.canonB] at hc
          rw [cbor_encode, List.append_assoc]
          obtain ⟨ib, tl, henc, hlb, hub, hshr, hdec⟩ :=
            head_bytes 2 bs.length (by omega) (by simpa using hc)
          rw [henc (bs ++ tail)]
          simp only [decodeVal]
          rw [if_neg (by omega), if_neg (by omega), if_neg (by omega), if_neg (by omega)]
          rw [hdec (bs ++ tail)]
          dsimp only
          rw [hshr]
          norm_num
          rw [splitAtOpt_exact bs tail]
      | .ctext s =>
          rw [Cbor.canonB] at hc
          rw [cbor_encode, List.append_assoc]
          obtain ⟨ib, tl, henc, hlb, hub, hshr, hdec⟩ :=
            head_bytes 3 s.length (by omega) (by simpa using hc)
          rw [henc (s ++ tail)]
          simp only [decodeVal]
          rw [if_neg (by omega), if_neg (by omega), if_neg (by omega), if_neg (by omega)]
          rw [hdec (s ++ tail)]
          dsimp only
          rw [hshr]
          norm_num
          rw [splitAtOpt_exact s tail]
      | .carr xs =>
          rw [Cbor.canonB, Bool.and_eq_true] at hc
          rw [Cbor.depth] at hd
          rw [cbor_encode, List.append_assoc]
          obtain ⟨ib, tl, henc, hlb, hub, hshr, hdec⟩ :=
            head_bytes 4 xs.length (by omega) (by simpa using hc.1)
          rw [henc (encodeItems xs ++ tail)]
          simp only [decodeVal]
          rw [if_neg (by omega), if_neg (by omega), if_neg (by omega), if_neg (by omega)]
          rw [hdec (encodeItems xs ++ tail)]
          dsimp only
          rw [hshr]
          norm_num
          rw [decItems_encode fuel ih xs tail hc.2 (by omega)]
      | .cmap kvs =>
          rw [Cbor.canonB, Bool.and_eq_true, Bool.and_eq_true] at hc
          rw [Cbor.depth] at hd
          have hsort : sortPairsCanon (encodePairs kvs) = encodePairs kvs := by
            have := hc.2
            simpa using this
          rw [cbor_encode, hsort, List.append_assoc]
          obtain ⟨ib, tl, henc, hlb, hub, hshr, hdec⟩ :=
            head_bytes 5 kvs.length (by omega) (by simpa using hc.1.1)
          rw [henc _]
          simp only [decodeVal]
          rw [if_neg (by omega), if_neg (by omega), if_neg (by omega), if_neg (by omega)]
          rw [hdec _]
          dsimp only
          rw [hshr]
          rw [if_neg (by decide), if_neg (by decide), if_neg (by decide), if_neg (by decide),
            if_pos (by trivial)]
          rw [decPairs_encode fuel ih kvs tail hc.1.2 (by omega)]

theorem encodeHead_length_pos (m arg : Nat) : 1 ≤ (encodeHead m arg).length := by
  rw [encodeHead]
  repeat' split
  all_goals simp

mutual
/-- Depth never exceeds encoded length, so `cbor_loads`' fuel suffices. -/
theorem depth_le_encode : ∀ (v : Cbor), Cbor.canonB v = true →
    Cbor.depth v ≤ (cbor_encode v).length
  | .null, _ => by decide
  | .cb b, _ => by cases b <;> decide
  | .cuint n, hc => by
      by_cases hn : n < 0x10000000000000000
      · rw [Cbor.depth, if_pos hn, cbor_encode, if_pos hn]
        exact encodeHead_length_pos 0 n
      · rw [Cbor.depth, if_neg hn, cbor_encode, if_neg hn]
        simp only [List.length_cons, List.length_append]
        have h1 := encodeHead_length_pos 2 (natBytesBE n).length
        omega
  | .cbytes bs, _ => by
      have h1 : Cbor.depth (Cbor.cbytes bs) = 1 := rfl
      rw [h1, cbor_encode]
      simp only [List.length_append]
      have h2 := encodeHead_length_pos 2 bs.length
      omega
  | .ctext s, _ => by
      have h1 : Cbor.depth (Cbor.ctext s) = 1 := rfl
      rw [h1, cbor_encode]
      simp only [List.length_append]
      have h2 := encodeHead_length_pos 3 s.length
      omega
  | .carr xs, hc => by
      rw [Cbor.canonB, Bool.and_eq_true] at hc
      rw [Cbor.depth, cbor_encode]
      simp only [List.length_append]
      have h1 := encodeHead_length_pos 4 xs.length
      have h2 := depthItems_le_encode xs hc.2
      omega
  | .cmap kvs, hc => by
      rw [Cbor.canonB, Bool.and_eq_true, Bool.and_eq_true] at hc
      have hsort : sortPairsCanon (encodePairs kvs) = encodePairs kvs := by
        simpa using hc.2
      rw [Cbor.depth, cbor_encode, hsort]
      simp only [List.length_append]
      have h1 := encodeHead_length_pos 5 kvs.length
      have h2 := depthPairs_le_encode kvs hc.1.2
      omega

theorem depthItems_le_encode : ∀ (xs : CborList), CborList.canonItems xs = true →
    CborList.depthItems xs ≤ (encodeItems xs).length
  | .nil, _ => by simp [CborList.depthItems]
  | .cons x xs, hc => by
      rw [CborList.canonItems, Bool.and_eq_true] at hc
      rw [CborList.depthItems, encodeItems]
      simp only [List.length_append]
      have h1 := depth_le_encode x hc.1
      have h2 := depthItems_le_encode xs hc.2
      omega

theorem depthPairs_le_encode : ∀ (kvs : CborPairs), CborPairs.canonPairs kvs = true →
    CborPairs.depthPairs kvs ≤
      ((encodePairs kvs).foldr (fun p acc => p.1 ++ p.2 ++ acc) []).length
  | .nil, _ => by simp [CborPairs.depthPairs]
  | .cons k v rest, hc => by
      rw [CborPairs.canonPairs, Bool.and_eq_true, Bool.and_eq_true] at hc
      rw [CborPairs.depthPairs, encodePairs]
      simp only [List.foldr_cons, List.length_append]
      have h1 := depth_le_encode k hc.1.1
      have h2 := depth_le_encode v hc.1.2
      have h3 := depthPairs_le_encode rest hc.2
      omega
end

/-- `cbor2.loads` recovers any canonical value from its encoding. -/
theorem cbor_loads_encode (v : Cbor) (hc : Cbor.canonB v = true) :
    cbor_loads (cbor_encode v) = some v := by
  rw [cbor_loads]
  have h := decode_encode ((cbor_encode v).length + 1) v [] hc
    (by have := depth_le_encode v hc; omega)
  rw [List.append_nil] at h
  rw [h]


theorem CborList.toList_ofList : ∀ (l : List Cbor),
    CborList.toList (CborList.ofList l) = l
  | [] => rfl
  | x :: xs => by
      rw [CborList.ofList, CborList.toList, CborList.toList_ofList xs]

theorem OpString.fromStr_toStr (op : OpString) : OpString.fromStr op.toStr = some op := by
  cases op <;> rfl

theorem PatchPath.from_to (p : PatchPath) (h : PatchPath.rt_ok p) :
    PatchPath.from_cbor p.to_cbor_list = .ok p := by
  obtain ⟨ty, oid, addr, tag, fields⟩ := p
  obtain ⟨hsv, hman, hacc, hloi, htg⟩ := h
  cases ty with
  | SCHEMA_VERSION => exact absurd rfl hsv
  | MANIFEST =>
      obtain ⟨h1, h2, h3⟩ := hman rfl
      subst h1; subst h2; subst h3
      rfl
  | ACCOUNT =>
      obtain ⟨⟨b, hb, hlen⟩, h2, h3⟩ := hacc rfl
      subst hb; subst h2; subst h3
      show (if b.length = 20 then
          PatchPath.postInit ⟨.ACCOUNT, none, some b, none, fields⟩
        else .error "Invalid ethereum address") = .ok ⟨.ACCOUNT, none, some b, none, fields⟩
      rw [if_pos hlen]
      rfl
  | LISTING =>
      obtain ⟨h1, h2, h3⟩ := hloi (Or.inl rfl)
      subst h2; subst h3
      cases oid with
      | none => exact absurd rfl h1
      | some n => rfl
  | ORDER =>
      obtain ⟨h1, h2, h3⟩ := hloi (Or.inr (Or.inl rfl))
      subst h2; subst h3
      cases oid with
      | none => exact absurd rfl h1
      | some n => rfl
  | INVENTORY =>
      obtain ⟨h1, h2, h3⟩ := hloi (Or.inr (Or.inr rfl))
      subst h2; subst h3
      cases oid with
      | none => exact absurd rfl h1
      | some n => rfl
  | TAG =>
      obtain ⟨⟨t, ht, htne⟩, h2, h3⟩ := htg rfl
      subst ht; subst h2; subst h3
      have h1 : truthyStr (some t) = true := by
        simp only [truthyStr, decide_eq_true_eq]
        exact htne
      show (if !truthyStr (some t) then
            (.error "tag patch needs a tag name" : Except String PatchPath)
          else if truthyNat none || truthyAddr none then
            .error "tag patch should not have object_id or account_addr"
          else .ok ⟨.TAG, none, none, some t, fields⟩)
        = .ok ⟨.TAG, none, none, some t, fields⟩
      rw [h1]
      rfl

theorem Patch.from_cbor_dict_roundtrip (op : OpString) (path : PatchPath) (value : Cbor)
    (hpath : PatchPath.from_cbor path.to_cbor_list = .ok path) :
    Patch.from_cbor_dict (Patch.to_cbor_dict ⟨op, path, value⟩) = .ok ⟨op, path, value⟩ := by
  have h1 : Patch.from_cbor_dict (Patch.to_cbor_dict ⟨op, path, value⟩) =
      (match OpString.fromStr op.toStr with
      | none => .error "invalid op"
      | some op2 =>
          match PatchPath.from_cbor (CborList.toList (CborList.ofList path.to_cbor_list)) with
          | .error e => .error e
          | .ok path2 => .ok ⟨op2, path2, value⟩) := rfl
  rw [h1, OpString.fromStr_toStr, CborList.toList_ofList, hpath]

/-- C6: round-trip both directions. Amended first direction: for every
Patch whose path is of a round-trippable shape (rt_ok: not
SCHEMA_VERSION, exactly the type's id field set, ACCOUNT address 20
bytes) and whose CBOR dict is canonically encodable, decoding the
encoding returns the patch. -/
theorem claim_C6_amended (p : Patch) (h1 : PatchPath.rt_ok p.path)
    (h2 : Cbor.canonB p.to_cbor_dict = true) :
    Patch.from_cbor (Patch.to_cbor p) = .ok p := by
  have hload : cbor_loads (Patch.to_cbor p) = some p.to_cbor_dict :=
    cbor_loads_encode _ h2
  show (match cbor_loads (Patch.to_cbor p) with
    | none => (.error "CborDecodeError" : Except String Patch)
    | some d => Patch.from_cbor_dict d) = .ok p
  rw [hload]
  dsimp only
  obtain ⟨op, path, value⟩ := p
  exact Patch.from_cbor_dict_roundtrip op path value (PatchPath.from_to path h1)

theorem claim_C6_amended_witness :
    PatchPath.rt_ok (⟨.LISTING, some 1, none, none, []⟩ : PatchPath) ∧
    Cbor.canonB (Patch.to_cbor_dict ⟨.add, ⟨.LISTING, some 1, none, none, []⟩, .null⟩) = true ∧
    Patch.from_cbor (Patch.to_cbor ⟨.add, ⟨.LISTING, some 1, none, none, []⟩, .null⟩)
      = .ok ⟨.add, ⟨.LISTING, some 1, none, none, []⟩, .null⟩ := by
  have hrt : PatchPath.rt_ok ⟨.LISTING, some 1, none, none, []⟩ := by
    simp [PatchPath.rt_ok]
  exact ⟨hrt, by decide,
    claim_C6_amended ⟨.add, ⟨.LISTING, some 1, none, none, []⟩, .null⟩ hrt (by decide)⟩

/-- C6 counterexamples to both directions as literally claimed: a
SCHEMA_VERSION patch is constructible but `from_cbor (to_cbor p)`
errors with "patch needs an id"; and a non-canonical byte string is
accepted by `from_cbor` but re-encodes to different (canonical) bytes. -/
theorem claim_C6_counterexample :
    Patch.from_cbor (Patch.to_cbor ⟨.add, ⟨.SCHEMA_VERSION, none, none, none, []⟩, .null⟩)
        = .error "patch needs an id" ∧
    Patch.from_cbor nonCanonicalPatchBytes
        = .ok ⟨.add, ⟨.LISTING, some 1, none, none, []⟩, .null⟩ ∧
    Patch.to_cbor ⟨.add, ⟨.LISTING, some 1, none, none, []⟩, .null⟩ ≠ nonCanonicalPatchBytes := by
  exact ⟨rfl, rfl, by decide⟩

namespace Mmr

theorem bitLenGo_zero : ∀ fuel, bitLenGo fuel 0 = 0
  | 0 => rfl
  | _ + 1 => by rw [bitLenGo, if_pos rfl]

theorem bitLenGo_spec : ∀ (fuel n k : Nat), n ≤ fuel → 2 ^ k ≤ n → n < 2 ^ (k + 1) →
    bitLenGo fuel n = k + 1
  | 0, n, k => by
      intro h1 h2 _
      have h0 : 0 < 2 ^ k := pow_pos (by norm_num) k
      omega
  | fuel + 1, n, 0 => by
      intro h1 h2 h3
      norm_num at h2 h3
      have hn : n = 1 := by omega
      subst hn
      rw [bitLenGo, if_neg (by omega)]
      rw [show (1 : Nat) / 2 = 0 from rfl, bitLenGo_zero]
  | fuel + 1, n, k + 1 => by
      intro h1 h2 h3
      have e1 : (2 : Nat) ^ (k + 1) = 2 * 2 ^ k := by ring
      have e2 : (2 : Nat) ^ (k + 2) = 2 * 2 ^ (k + 1) := by ring
      have hk : (0 : Nat) < 2 ^ k := pow_pos (by norm_num) k
      rw [bitLenGo, if_neg (by omega)]
      rw [bitLenGo_spec fuel (n / 2) k (by omega) (by omega) (by omega)]

theorem bit_length_spec (n k : Nat) (h2 : 2 ^ k ≤ n) (h3 : n < 2 ^ (k + 1)) :
    bit_length n = k + 1 :=
  bitLenGo_spec n n k le_rfl h2 h3

theorem all_ones_false (m pos : Nat) (hl : 2 ^ m ≤ pos) (hu : pos < 2 ^ (m + 1) - 1) :
    all_ones pos = false := by
  have hbl : bit_length pos = m + 1 := bit_length_spec pos m hl (by omega)
  simp only [all_ones, hbl, Nat.one_shiftLeft, decide_eq_false_iff_not]
  omega

theorem all_ones_true (m pos : Nat) (h : pos = 2 ^ (m + 1) - 1) :
    all_ones pos = true := by
  have h0 : (0 : Nat) < 2 ^ m := pow_pos (by norm_num) m
  have e : (2 : Nat) ^ (m + 1) = 2 * 2 ^ m := by ring
  have hbl : bit_length pos = m + 1 := bit_length_spec pos m (by omega) (by omega)
  simp only [all_ones, hbl, Nat.one_shiftLeft, decide_eq_true_eq]
  omega

theorem most_sig_bit_eq (m pos : Nat) (hl : 2 ^ m ≤ pos) (hu : pos < 2 ^ (m + 1)) :
    most_sig_bit pos = 2 ^ m := by
  rw [most_sig_bit, bit_length_spec pos m hl hu]
  simp [Nat.one_shiftLeft]

theorem heightGo_one : ∀ fuel, heightGo fuel 1 = 0
  | 0 => by decide
  | fuel + 1 => by
      rw [heightGo, show all_ones 1 = true by decide, if_pos rfl]
      decide

theorem heightGo_step (fuel h r : Nat) (h1 : 1 ≤ r) (h2 : r ≤ 2 ^ (h + 1) - 1) :
    heightGo (fuel + 1) ((2 ^ (h + 1) - 1) + r) = heightGo fuel r := by
  have e1 : (2 : Nat) ^ (h + 2) = 2 * 2 ^ (h + 1) := by ring
  have h0 : (0 : Nat) < 2 ^ (h + 1) := pow_pos (by norm_num) (h + 1)
  have hao : all_ones ((2 ^ (h + 1) - 1) + r) = false :=
    all_ones_false (h + 1) _ (by omega) (by omega)
  have hmsb : most_sig_bit ((2 ^ (h + 1) - 1) + r) = 2 ^ (h + 1) :=
    most_sig_bit_eq (h + 1) _ (by omega) (by omega)
  rw [heightGo, hao, if_neg Bool.false_ne_true, hmsb]
  rw [show (2 ^ (h + 1) - 1) + r - (2 ^ (h + 1) - 1) = r by omega]

theorem Plist_nil : Plist [] = 0 := rfl

theorem Plist_cons (h : Nat) (rest : List Nat) :
    Plist (h :: rest) = (2 ^ (h + 1) - 1) + Plist rest := by
  simp [Plist]

theorem Plist_bound : ∀ (hs : List Nat) (g q h : Nat), stkOK hs g → (∀ x ∈ hs, x < h) →
    g < h → q ≤ 2 ^ (g + 2) - 1 → Plist hs + q ≤ 2 ^ (h + 1) - 1
  | [], g, q, h => by
      intro _ _ hgh hq
      have e : (2 : Nat) ^ (g + 2) ≤ 2 ^ (h + 1) := Nat.pow_le_pow_right (by norm_num) (by omega)
      simp only [Plist_nil, Nat.zero_add]
      omega
  | h1 :: rest, g, q, h => by
      intro hok hall hgh hq
      obtain ⟨hg1, hall1, hr⟩ := hok
      have ih := Plist_bound rest g q h1 hr hall1 hg1 hq
      have h1h : h1 < h := hall h1 (by simp)
      have e : (2 : Nat) ^ (h1 + 2) ≤ 2 ^ (h + 1) := Nat.pow_le_pow_right (by norm_num) (by omega)
      have e2 : (2 : Nat) ^ (h1 + 2) = 2 * 2 ^ (h1 + 1) := by ring
      rw [Plist_cons]
      omega

theorem heightGo_stk_zero : ∀ (hs : List Nat) (g fuel : Nat), stkOK hs g →
    Plist hs + 2 ^ (g + 1) ≤ fuel → heightGo fuel (Plist hs + 2 ^ (g + 1)) = 0
  | [], g, fuel => by
      intro _ hf
      have h0 : (0 : Nat) < 2 ^ g := pow_pos (by norm_num) g
      have e : (2 : Nat) ^ (g + 1) = 2 * 2 ^ g := by ring
      simp only [Plist_nil, Nat.zero_add] at hf ⊢
      obtain ⟨f, rfl⟩ : ∃ f, fuel = f + 1 := ⟨fuel - 1, by omega⟩
      rw [show (2 : Nat) ^ (g + 1) = (2 ^ (g + 1) - 1) + 1 by omega]
      rw [heightGo_step f g 1 le_rfl (by omega)]
      exact heightGo_one f
  | h :: rest, g, fuel => by
      intro hok hf
      obtain ⟨hgh, hall, hrest⟩ := hok
      have h0 : (0 : Nat) < 2 ^ (g + 1) := pow_pos (by norm_num) (g + 1)
      have h1 : (0 : Nat) < 2 ^ (h + 1) := pow_pos (by norm_num) (h + 1)
      have eg : (2 : Nat) ^ (g + 2) = 2 * 2 ^ (g + 1) := by ring
      have hb : Plist rest + 2 ^ (g + 1) ≤ 2 ^ (h + 1) - 1 :=
        Plist_bound rest g (2 ^ (g + 1)) h hrest hall hgh (by omega)
      rw [Plist_cons, Nat.add_assoc] at hf ⊢
      obtain ⟨f, rfl⟩ : ∃ f, fuel = f + 1 := ⟨fuel - 1, by omega⟩
      rw [heightGo_step f h (Plist rest + 2 ^ (g + 1)) (by omega) hb]
      exact heightGo_stk_zero rest g f hrest (by omega)

theorem heightGo_stk_merge : ∀ (hs : List Nat) (g fuel : Nat), stkOK hs g →
    Plist hs + (2 ^ (g + 2) - 1) ≤ fuel →
    heightGo fuel (Plist hs + (2 ^ (g + 2) - 1)) = g + 1
  | [], g, fuel => by
      intro _ _
      have h0 : (0 : Nat) < 2 ^ (g + 1) := pow_pos (by norm_num) (g + 1)
      have e : (2 : Nat) ^ (g + 2) = 2 * 2 ^ (g + 1) := by ring
      have hbl : bit_length (2 ^ (g + 2) - 1) = g + 2 :=
        bit_length_spec _ (g + 1) (by omega) (by omega)
      have hao : all_ones (2 ^ (g + 2) - 1) = true := all_ones_true (g + 1) _ rfl
      simp only [Plist_nil, Nat.zero_add]
      cases fuel with
      | zero => rw [heightGo, hbl]; omega
      | succ f => rw [heightGo, hao, if_pos rfl, hbl]; omega
  | h :: rest, g, fuel => by
      intro hok hf
      obtain ⟨hgh, hall, hrest⟩ := hok
      have h0 : (0 : Nat) < 2 ^ (g + 1) := pow_pos (by norm_num) (g + 1)
      have h1 : (0 : Nat) < 2 ^ (h + 1) := pow_pos (by norm_num) (h + 1)
      have eg : (2 : Nat) ^ (g + 2) = 2 * 2 ^ (g + 1) := by ring
      have hb : Plist rest + (2 ^ (g + 2) - 1) ≤ 2 ^ (h + 1) - 1 :=
        Plist_bound rest g (2 ^ (g + 2) - 1) h hrest hall hgh le_rfl
      rw [Plist_cons, Nat.add_assoc] at hf ⊢
      obtain ⟨f, rfl⟩ : ∃ f, fuel = f + 1 := ⟨fuel - 1, by omega⟩
      rw [heightGo_step f h (Plist rest + (2 ^ (g + 2) - 1)) (by omega) hb]
      exact heightGo_stk_merge rest g f hrest (by omega)

end Mmr

namespace Mmr

theorem stkOK_append : ∀ (xs : List Nat) (x g : Nat), stkOK xs x → g < x →
    stkOK (xs ++ [x]) g
  | [], x, g => by
      intro _ hg
      exact ⟨hg, by simp, trivial⟩
  | y :: xs, x, g => by
      intro hok hg
      obtain ⟨hxy, hall, hrest⟩ := hok
      refine ⟨lt_trans hg hxy, ?_, stkOK_append xs x g hrest hg⟩
      intro z hz
      rcases List.mem_append.mp hz with hz | hz
      · exact hall z hz
      · simp at hz
        exact hz ▸ hxy

theorem stkOK_of_wf : ∀ (st : List (Nat × List Bytes)) (g : Nat), StackWF st →
    (∀ p ∈ st, g < p.1) → stkOK ((st.map Prod.fst).reverse) g
  | [], g => fun _ _ => trivial
  | (h, ls) :: rest, g => by
      intro hwf hall
      obtain ⟨_, hgt, hwfr⟩ := hwf
      have ih := stkOK_of_wf rest h hwfr hgt
      simp only [List.map_cons, List.reverse_cons]
      exact stkOK_append _ h g ih (hall (h, ls) (by simp))

theorem Plist_reverse (l : List Nat) : Plist l.reverse = Plist l := by
  simp [Plist, List.map_reverse, List.sum_reverse]

theorem Plist_map_fst : ∀ (st : List (Nat × List Bytes)),
    Plist (st.map Prod.fst) = stackLen st
  | [] => rfl
  | (h, ls) :: rest => by
      rw [List.map_cons, Plist_cons, stackLen, Plist_map_fst rest]
      dsimp only
      omega

theorem index_height_push (st : List (Nat × List Bytes)) (g : Nat) (hwf : StackWF st)
    (hall : ∀ p ∈ st, g < p.1) :
    index_height (stackLen st + (2 ^ (g + 1) - 1)) = 0 := by
  have h0 : (0 : Nat) < 2 ^ (g + 1) := pow_pos (by norm_num) (g + 1)
  have h1 : stackLen st + (2 ^ (g + 1) - 1) + 1 =
      Plist ((st.map Prod.fst).reverse) + 2 ^ (g + 1) := by
    rw [Plist_reverse, Plist_map_fst]
    omega
  rw [index_height, h1]
  exact heightGo_stk_zero _ g _ (stkOK_of_wf st g hwf hall) le_rfl

theorem index_height_merge (st : List (Nat × List Bytes)) (g : Nat) (hwf : StackWF st)
    (hall : ∀ p ∈ st, g < p.1) :
    index_height (stackLen st + 2 * (2 ^ (g + 1) - 1)) = g + 1 := by
  have h0 : (0 : Nat) < 2 ^ (g + 1) := pow_pos (by norm_num) (g + 1)
  have e : (2 : Nat) ^ (g + 2) = 2 * 2 ^ (g + 1) := by ring
  have h1 : stackLen st + 2 * (2 ^ (g + 1) - 1) + 1 =
      Plist ((st.map Prod.fst).reverse) + (2 ^ (g + 2) - 1) := by
    rw [Plist_reverse, Plist_map_fst]
    omega
  rw [index_height, h1]
  exact heightGo_stk_merge _ g _ (stkOK_of_wf st g hwf hall) le_rfl

theorem specMtree_length : ∀ (k base : Nat) (ls : List Bytes),
    (specMtree k base ls).length = 2 ^ (k + 1) - 1
  | 0, base, ls => by simp [specMtree]
  | k + 1, base, ls => by
      have e : (2 : Nat) ^ (k + 2) = 2 * 2 ^ (k + 1) := by ring
      have h0 : (0 : Nat) < 2 ^ (k + 1) := pow_pos (by norm_num) (k + 1)
      rw [specMtree]
      simp only [List.length_append, List.length_singleton,
        specMtree_length k base, specMtree_length k (base + (2 ^ (k + 1) - 1))]
      omega

theorem specMtree_eq : ∀ (k base : Nat) (ls : List Bytes),
    ∃ pre, specMtree k base ls = pre ++ [specMroot k base ls] ∧
      pre.length = 2 ^ (k + 1) - 2
  | 0, base, ls => ⟨[], rfl, rfl⟩
  | k + 1, base, ls => by
      have e : (2 : Nat) ^ (k + 2) = 2 * 2 ^ (k + 1) := by ring
      have h0 : (0 : Nat) < 2 ^ (k + 1) := pow_pos (by norm_num) (k + 1)
      refine ⟨specMtree k base (ls.take (2 ^ k)) ++
        specMtree k (base + (2 ^ (k + 1) - 1)) (ls.drop (2 ^ k)), ?_, ?_⟩
      · rw [specMtree, specMroot, List.append_assoc]
      · simp only [List.length_append, specMtree_length]
        omega

theorem dbGet_root (db0 : List Bytes) (k base : Nat) (ls : List Bytes) :
    dbGet (db0 ++ specMtree k base ls) (db0.length + (2 ^ (k + 1) - 2)) =
      specMroot k base ls := by
  obtain ⟨pre, he, hl⟩ := specMtree_eq k base ls
  rw [dbGet, List.getD_append_right _ _ _ _ (by omega)]
  rw [show db0.length + (2 ^ (k + 1) - 2) - db0.length = 2 ^ (k + 1) - 2 by omega]
  rw [he, List.getD_append_right _ _ _ _ (by omega)]
  rw [show 2 ^ (k + 1) - 2 - pre.length = 0 by omega]
  rfl

theorem stackDb_length : ∀ (st : List (Nat × List Bytes)),
    (stackDb st).length = stackLen st
  | [] => rfl
  | (h, ls) :: rest => by
      rw [stackDb, stackLen, List.length_append, stackDb_length rest, specMtree_length]

theorem stackLen_ge : ∀ (st : List (Nat × List Bytes)), st.length ≤ stackLen st
  | [] => le_rfl
  | (h, ls) :: rest => by
      have h0 : (0 : Nat) < 2 ^ (h + 1) := pow_pos (by norm_num) (h + 1)
      have e : (2 : Nat) ^ (h + 1) = 2 * 2 ^ h := by ring
      have h1 : (0 : Nat) < 2 ^ h := pow_pos (by norm_num) h
      have := stackLen_ge rest
      rw [List.length_cons, stackLen]
      omega

theorem carry_wf : ∀ (st : List (Nat × List Bytes)) (g : Nat) (ls : List Bytes),
    StackWF st → (∀ p ∈ st, g ≤ p.1) → ls.length = 2 ^ g → StackWF (carry g ls st)
  | [], g, ls => by
      intro _ _ hlen
      exact ⟨hlen, by simp, trivial⟩
  | (h2, ls2) :: rest, g, ls => by
      intro hwf hall hlen
      obtain ⟨hlen2, hgt2, hwfr⟩ := hwf
      rw [carry]
      by_cases hh : h2 = g
      · rw [if_pos hh]
        subst hh
        refine carry_wf rest (h2 + 1) (ls2 ++ ls) hwfr (fun p hp => hgt2 p hp) ?_
        rw [List.length_append, hlen, hlen2]
        ring
      · rw [if_neg hh]
        have hgl : g < h2 := lt_of_le_of_ne (hall (h2, ls2) (by simp)) (fun e => hh e.symm)
        refine ⟨hlen, ?_, hlen2, hgt2, hwfr⟩
        intro p hp
        rcases List.mem_cons.mp hp with hp | hp
        · rw [hp]
          exact hgl
        · exact lt_trans hgl (hgt2 p hp)

end Mmr

namespace Mmr

theorem dbGet_front (A C : List Bytes) (j : Nat) (h : j < A.length) :
    dbGet (A ++ C) j = dbGet A j := by
  rw [dbGet, dbGet, List.getD_append _ _ _ _ h]

theorem addLeafGo_spec : ∀ (st : List (Nat × List Bytes)) (g : Nat) (ls : List Bytes)
    (fuel : Nat), StackWF st → (∀ p ∈ st, g ≤ p.1) → ls.length = 2 ^ g →
    st.length + 1 ≤ fuel →
    addLeafGo fuel g (stackLen st + (2 ^ (g + 1) - 1))
        (stackDb st ++ specMtree g (stackLen st) ls)
      = (stackDb (carry g ls st), stackLen (carry g ls st))
  | st, g, ls, 0 => by
      intro _ _ _ h
      omega
  | [], g, ls, fuel + 1 => by
      intro _ _ _ _
      rw [addLeafGo]
      rw [index_height_push [] g trivial (by simp)]
      rw [if_neg (Nat.not_lt_zero g)]
      rfl
  | (h2, ls2) :: rest, g, ls, fuel + 1 => by
      intro hwf hall hlen hfuel
      obtain ⟨hlen2, hgt2, hwfr⟩ := hwf
      by_cases hh : h2 = g
      · subst hh
        have h0 : (0 : Nat) < 2 ^ (h2 + 1) := pow_pos (by norm_num) (h2 + 1)
        have e1 : (2 : Nat) ^ (h2 + 1) = 2 * 2 ^ h2 := by ring
        have e2 : (2 : Nat) ^ (h2 + 2) = 2 * 2 ^ (h2 + 1) := by ring
        have hieq : stackLen ((h2, ls2) :: rest) + (2 ^ (h2 + 1) - 1) =
            stackLen rest + 2 * (2 ^ (h2 + 1) - 1) := by
          rw [stackLen]
          omega
        rw [addLeafGo, hieq]
        rw [index_height_merge rest h2 hwfr hgt2]
        rw [if_pos (Nat.lt_succ_self h2)]
        dsimp only [dbAppend]
        rw [show stackDb ((h2, ls2) :: rest) ++
            specMtree h2 (stackLen ((h2, ls2) :: rest)) ls
            = (stackDb rest ++ specMtree h2 (stackLen rest) ls2) ++
              specMtree h2 (stackLen rest + (2 ^ (h2 + 1) - 1)) ls from rfl]
        have hshift : (2 : Nat) <<< h2 = 2 ^ (h2 + 1) := by
          rw [Nat.shiftLeft_eq]
          ring
        have hleft : dbGet ((stackDb rest ++ specMtree h2 (stackLen rest) ls2) ++
              specMtree h2 (stackLen rest + (2 ^ (h2 + 1) - 1)) ls)
              (stackLen rest + 2 * (2 ^ (h2 + 1) - 1) - 2 <<< h2)
            = specMroot h2 (stackLen rest) ls2 := by
          rw [hshift]
          rw [show stackLen rest + 2 * (2 ^ (h2 + 1) - 1) - 2 ^ (h2 + 1) =
            stackLen rest + (2 ^ (h2 + 1) - 2) by omega]
          rw [dbGet_front _ _ _ (by
            rw [List.length_append, stackDb_length, specMtree_length]
            omega)]
          rw [show stackLen rest + (2 ^ (h2 + 1) - 2) =
            (stackDb rest).length + (2 ^ (h2 + 1) - 2) by rw [stackDb_length]]
          exact dbGet_root (stackDb rest) h2 (stackLen rest) ls2
        have hright : dbGet ((stackDb rest ++ specMtree h2 (stackLen rest) ls2) ++
              specMtree h2 (stackLen rest + (2 ^ (h2 + 1) - 1)) ls)
              (stackLen rest + 2 * (2 ^ (h2 + 1) - 1) - 1)
            = specMroot h2 (stackLen rest + (2 ^ (h2 + 1) - 1)) ls := by
          rw [show stackLen rest + 2 * (2 ^ (h2 + 1) - 1) - 1 =
            (stackDb rest ++ specMtree h2 (stackLen rest) ls2).length +
              (2 ^ (h2 + 1) - 2) by
            rw [List.length_append, stackDb_length, specMtree_length]
            omega]
          exact dbGet_root (stackDb rest ++ specMtree h2 (stackLen rest) ls2) h2
            (stackLen rest + (2 ^ (h2 + 1) - 1)) ls
        rw [hleft, hright]
        have hnew : ((stackDb rest ++ specMtree h2 (stackLen rest) ls2) ++
              specMtree h2 (stackLen rest + (2 ^ (h2 + 1) - 1)) ls) ++
              [hash_pospair64 (stackLen rest + 2 * (2 ^ (h2 + 1) - 1) + 1)
                (specMroot h2 (stackLen rest) ls2)
                (specMroot h2 (stackLen rest + (2 ^ (h2 + 1) - 1)) ls)]
            = stackDb rest ++ specMtree (h2 + 1) (stackLen rest) (ls2 ++ ls) := by
          rw [specMtree]
          rw [List.take_left' hlen2, List.drop_left' hlen2]
          rw [show stackLen rest + 2 * (2 ^ (h2 + 1) - 1) + 1 =
            stackLen rest + (2 ^ (h2 + 2) - 1) by omega]
          simp [List.append_assoc]
        rw [hnew]
        rw [show ((stackDb rest ++ specMtree h2 (stackLen rest) ls2) ++
              specMtree h2 (stackLen rest + (2 ^ (h2 + 1) - 1)) ls).length + 1 =
            stackLen rest + (2 ^ (h2 + 2) - 1) by
          simp only [List.length_append, stackDb_length, specMtree_length]
          omega]
        have hc : carry h2 ls ((h2, ls2) :: rest) = carry (h2 + 1) (ls2 ++ ls) rest := by
          rw [carry, if_pos rfl]
        rw [hc]
        have hf2 : rest.length + 1 + 1 ≤ fuel + 1 := by simpa using hfuel
        exact addLeafGo_spec rest (h2 + 1) (ls2 ++ ls) fuel hwfr
          (fun p hp => hgt2 p hp)
          (by rw [List.length_append, hlen2, hlen]; ring)
          (by omega)
      · have hgl : g < h2 :=
          lt_of_le_of_ne (hall (h2, ls2) (by simp)) (fun e => hh e.symm)
        rw [addLeafGo]
        rw [index_height_push ((h2, ls2) :: rest) g ⟨hlen2, hgt2, hwfr⟩ (by
          intro p hp
          rcases List.mem_cons.mp hp with hp | hp
          · rw [hp]
            exact hgl
          · exact lt_trans hgl (hgt2 p hp))]
        rw [if_neg (by omega)]
        have hc : carry g ls ((h2, ls2) :: rest) = (g, ls) :: (h2, ls2) :: rest := by
          rw [carry, if_neg hh]
        rw [hc]
        rfl

end Mmr

namespace Mmr

theorem add_leaf_hash_spec (st : List (Nat × List Bytes)) (l : Bytes) (hwf : StackWF st) :
    add_leaf_hash (stackDb st) l = (stackDb (carry 0 [l] st), stackLen (carry 0 [l] st)) := by
  have hsl := stackLen_ge st
  rw [add_leaf_hash]
  dsimp only [dbAppend]
  rw [stackDb_length]
  rw [show stackLen st + 1 = stackLen st + (2 ^ (0 + 1) - 1) by norm_num]
  rw [show stackDb st ++ [l] = stackDb st ++ specMtree 0 (stackLen st) [l] from rfl]
  exact addLeafGo_spec st 0 [l] _ hwf (fun p _ => Nat.zero_le _) rfl (by
    have hp : (2 : Nat) ^ (0 + 1) = 2 := by norm_num
    omega)

theorem build_spec : ∀ (leaves : List Bytes) (st : List (Nat × List Bytes))
    (pos0 : List Nat), StackWF st →
    List.foldl (fun (acc : List Bytes × List Nat) p =>
        let (db, i) := add_leaf_hash acc.1 p
        (db, acc.2 ++ [i])) (stackDb st, pos0) leaves
      = (stackDb (buildStack st leaves), pos0 ++ stackTrace st leaves)
  | [], st, pos0 => by
      intro _
      simp [buildStack, stackTrace]
  | l :: rest, st, pos0 => by
      intro hwf
      rw [List.foldl_cons]
      dsimp only
      rw [add_leaf_hash_spec st l hwf]
      dsimp only
      rw [build_spec rest (carry 0 [l] st) (pos0 ++ [stackLen (carry 0 [l] st)])
        (carry_wf st 0 [l] hwf (fun p _ => Nat.zero_le _) rfl)]
      rw [show buildStack st (l :: rest) = buildStack (carry 0 [l] st) rest from rfl]
      rw [stackTrace]
      simp

theorem stackTrace_last : ∀ (leaves : List Bytes) (st : List (Nat × List Bytes))
    (pos0 : List Nat), leaves ≠ [] →
    (pos0 ++ stackTrace st leaves).getLast?.getD 0 = stackLen (buildStack st leaves)
  | [], _, _ => fun h => absurd rfl h
  | l :: rest, st, pos0 => by
      intro _
      by_cases hr : rest = []
      · subst hr
        rw [stackTrace, stackTrace]
        rw [show buildStack st [l] = carry 0 [l] st from rfl]
        simp [List.getLast?_concat]
      · rw [stackTrace]
        rw [show pos0 ++ (stackLen (carry 0 [l] st) :: stackTrace (carry 0 [l] st) rest)
            = (pos0 ++ [stackLen (carry 0 [l] st)]) ++ stackTrace (carry 0 [l] st) rest
          by simp]
        rw [stackTrace_last rest (carry 0 [l] st) _ hr]
        rw [show buildStack st (l :: rest) = buildStack (carry 0 [l] st) rest from rfl]

theorem buildStack_pow : ∀ (K : Nat) (ls : List Bytes) (st : List (Nat × List Bytes)),
    ls.length = 2 ^ K → StackWF st → (∀ p ∈ st, K ≤ p.1) →
    buildStack st ls = carry K ls st
  | 0, ls, st => by
      intro hlen _ _
      obtain ⟨a, rfl⟩ := List.length_eq_one.mp (by simpa using hlen)
      simp [buildStack]
  | K + 1, ls, st => by
      intro hlen hwf hall
      have h2K : (0 : Nat) < 2 ^ K := pow_pos (by norm_num) K
      have e : (2 : Nat) ^ (K + 1) = 2 * 2 ^ K := by ring
      have hlen1 : (ls.take (2 ^ K)).length = 2 ^ K := by
        rw [List.length_take]
        omega
      have hlen2 : (ls.drop (2 ^ K)).length = 2 ^ K := by
        rw [List.length_drop, hlen]
        omega
      have hcar : carry K (ls.take (2 ^ K)) st = (K, ls.take (2 ^ K)) :: st := by
        cases st with
        | nil => rfl
        | cons p r =>
            obtain ⟨h2, ls2⟩ := p
            have : K + 1 ≤ h2 := hall (h2, ls2) (by simp)
            rw [carry, if_neg (by omega)]
      rw [show buildStack st ls = buildStack st (ls.take (2 ^ K) ++ ls.drop (2 ^ K)) by
        rw [List.take_append_drop]]
      rw [buildStack, List.foldl_append]
      rw [show List.foldl (fun s l => carry 0 [l] s) st (ls.take (2 ^ K))
          = buildStack st (ls.take (2 ^ K)) from rfl]
      rw [buildStack_pow K (ls.take (2 ^ K)) st hlen1 hwf
        (fun p hp => Nat.le_of_succ_le (hall p hp))]
      rw [hcar]
      rw [show List.foldl (fun s l => carry 0 [l] s) ((K, ls.take (2 ^ K)) :: st)
          (ls.drop (2 ^ K))
          = buildStack ((K, ls.take (2 ^ K)) :: st) (ls.drop (2 ^ K)) from rfl]
      rw [buildStack_pow K (ls.drop (2 ^ K)) ((K, ls.take (2 ^ K)) :: st) hlen2
        ⟨hlen1, fun p hp => hall p hp, hwf⟩
        (by
          intro p hp
          rcases List.mem_cons.mp hp with hp | hp
          · subst hp
            exact le_rfl
          · exact Nat.le_of_succ_le (hall p hp))]
      rw [carry, if_pos rfl, List.take_append_drop]

theorem nextPow2Go_pow : ∀ (fuel p n : Nat), (∃ j, p = 2 ^ j) →
    ∃ k, nextPow2Go fuel p n = 2 ^ k
  | 0, p, n => fun h => by rw [nextPow2Go]; exact h
  | fuel + 1, p, n => by
      intro h
      rw [nextPow2Go]
      by_cases hpn : p < n
      · rw [if_pos hpn]
        refine nextPow2Go_pow fuel (p * 2) n ?_
        obtain ⟨j, rfl⟩ := h
        exact ⟨j + 1, by ring⟩
      · rw [if_neg hpn]
        exact h

theorem nextPow2Go_ge : ∀ (fuel p n : Nat), 1 ≤ p → n ≤ p + fuel →
    n ≤ nextPow2Go fuel p n
  | 0, p, n => by
      intro _ h
      rw [nextPow2Go]
      omega
  | fuel + 1, p, n => by
      intro h1 h2
      rw [nextPow2Go]
      by_cases hpn : p < n
      · rw [if_pos hpn]
        exact nextPow2Go_ge fuel (p * 2) n (by omega) (by omega)
      · rw [if_neg hpn]
        omega

theorem next_power_2_spec (n : Nat) :
    ∃ K, next_power_2 n = 2 ^ K ∧ n ≤ next_power_2 n := by
  rw [next_power_2]
  obtain ⟨k, hk⟩ := nextPow2Go_pow (n + 1) 1 n ⟨0, rfl⟩
  exact ⟨k, hk, nextPow2Go_ge (n + 1) 1 n le_rfl (by omega)⟩

end Mmr

/-- C2: for every non-empty patch list, get_root_hash_of_patches pads the
SHA-256 leaf list with SHA-256("") to the next power of two `2^K` and
returns exactly the root of the perfect position-hashed Merkle tree over
the padded leaves — the single peak of the power-of-two-leaf MMR, the
value placed in PatchSetHeader.RootHash. -/
theorem claim_C2 (patches : List Cbor) (h : patches ≠ []) :
    ∃ K, Mmr.next_power_2 patches.length = 2 ^ K ∧ patches.length ≤ 2 ^ K ∧
      Mmr.get_root_hash_of_patches patches =
        Mmr.specMroot K 0 ((patches.map cbor_encode).map sha256 ++
          List.replicate (2 ^ K - patches.length) (sha256 [])) := by
  obtain ⟨K, hK, hge⟩ := Mmr.next_power_2_spec patches.length
  rw [hK] at hge
  have hlm : ((patches.map cbor_encode).map sha256).length = patches.length := by
    simp
  have hpl : 0 < patches.length := List.length_pos.mpr h
  have e : (2 : Nat) ^ (K + 1) = 2 * 2 ^ K := by ring
  have h2K : (0 : Nat) < 2 ^ K := pow_pos (by norm_num) K
  have hflen : ((patches.map cbor_encode).map sha256 ++
      List.replicate (2 ^ K - patches.length) (sha256 [])).length = 2 ^ K := by
    rw [List.length_append, List.length_replicate, hlm]
    omega
  have hfne : (patches.map cbor_encode).map sha256 ++
      List.replicate (2 ^ K - patches.length) (sha256 []) ≠ [] := by
    intro hemp
    rw [hemp] at hflen
    simp at hflen
    omega
  refine ⟨K, hK, hge, ?_⟩
  rw [Mmr.get_root_hash_of_patches]
  dsimp only
  rw [hlm, hK]
  have hb := Mmr.build_spec ((patches.map cbor_encode).map sha256 ++
    List.replicate (2 ^ K - patches.length) (sha256 [])) [] [] trivial
  rw [show Mmr.stackDb [] = ([] : List Bytes) from rfl] at hb
  rw [hb]
  dsimp only
  rw [Mmr.stackTrace_last _ [] [] hfne]
  have hbs : Mmr.buildStack [] ((patches.map cbor_encode).map sha256 ++
      List.replicate (2 ^ K - patches.length) (sha256 []))
      = [(K, (patches.map cbor_encode).map sha256 ++
          List.replicate (2 ^ K - patches.length) (sha256 []))] := by
    rw [Mmr.buildStack_pow K _ [] hflen trivial (by simp)]
    rfl
  rw [hbs]
  rw [show Mmr.stackLen [(K, (patches.map cbor_encode).map sha256 ++
      List.replicate (2 ^ K - patches.length) (sha256 []))] - 1
      = ([] : List Bytes).length + (2 ^ (K + 1) - 2) by
    simp [Mmr.stackLen]
    omega]
  rw [show Mmr.stackDb [(K, (patches.map cbor_encode).map sha256 ++
      List.replicate (2 ^ K - patches.length) (sha256 []))]
      = ([] : List Bytes) ++ Mmr.specMtree K 0 ((patches.map cbor_encode).map sha256 ++
          List.replicate (2 ^ K - patches.length) (sha256 [])) from rfl]
  exact Mmr.dbGet_root [] K 0 _

theorem claim_C2_witness :
    ([Cbor.null] : List Cbor) ≠ [] ∧
    (∃ K, Mmr.next_power_2 ([Cbor.null] : List Cbor).length = 2 ^ K ∧
      ([Cbor.null] : List Cbor).length ≤ 2 ^ K ∧
      Mmr.get_root_hash_of_patches [Cbor.null] =
        Mmr.specMroot K 0 ((([Cbor.null] : List Cbor).map cbor_encode).map sha256 ++
          List.replicate (2 ^ K - ([Cbor.null] : List Cbor).length) (sha256 []))) :=
  ⟨by decide, claim_C2 [Cbor.null] (by decide)⟩

namespace Mmr

theorem stkCh_append : ∀ (xs : List Nat) (x : Nat), stkCh xs → (∀ y ∈ xs, x < y) →
    stkCh (xs ++ [x])
  | [], x => by
      intro _ _
      exact ⟨by simp, trivial⟩
  | y :: xs, x => by
      intro hch hgt
      obtain ⟨hall, hrest⟩ := hch
      refine ⟨?_, stkCh_append xs x hrest (fun z hz => hgt z (by simp [hz]))⟩
      intro z hz
      rcases List.mem_append.mp hz with hz | hz
      · exact hall z hz
      · simp at hz
        subst hz
        exact hgt y (by simp)

theorem stkOK_of_ch : ∀ (hs : List Nat) (g : Nat), stkCh hs → (∀ x ∈ hs, g < x) →
    stkOK hs g
  | [], g => fun _ _ => trivial
  | h :: rest, g => by
      intro hch hgt
      obtain ⟨hall, hrest⟩ := hch
      exact ⟨hgt h (by simp), hall,
        stkOK_of_ch rest g hrest (fun x hx => hgt x (by simp [hx]))⟩

theorem Plist_append_single (ctx : List Nat) (K : Nat) :
    Plist (ctx ++ [K]) = Plist ctx + (2 ^ (K + 1) - 1) := by
  simp [Plist]

theorem Plist_lt : ∀ (hs : List Nat) (h : Nat), stkCh hs → (∀ x ∈ hs, x < h) →
    Plist hs ≤ 2 ^ (h + 1) - 2
  | [], h => by
      intro _ _
      simp [Plist_nil]
  | x :: rest, h => by
      intro hch hall
      obtain ⟨hlt, hrest⟩ := hch
      have ih := Plist_lt rest x hrest hlt
      have hxh : x < h := hall x (by simp)
      have e1 : (2 : Nat) ^ (x + 2) = 2 * 2 ^ (x + 1) := by ring
      have e2 : (2 : Nat) ^ (x + 2) ≤ 2 ^ (h + 1) := Nat.pow_le_pow_right (by norm_num) (by omega)
      have h0 : (0 : Nat) < 2 ^ (x + 1) := pow_pos (by norm_num) (x + 1)
      rw [Plist_cons]
      omega

theorem heightGo_stk_one : ∀ (hs : List Nat) (fuel : Nat), stkCh hs →
    Plist hs + 1 ≤ fuel → heightGo fuel (Plist hs + 1) = 0
  | [], fuel => by
      intro _ _
      simp only [Plist_nil, Nat.zero_add]
      exact heightGo_one fuel
  | h :: rest, fuel => by
      intro hch hf
      obtain ⟨hall, hrest⟩ := hch
      have h0 : (0 : Nat) < 2 ^ (h + 1) := pow_pos (by norm_num) (h + 1)
      have hb : Plist rest + 1 ≤ 2 ^ (h + 1) - 1 := by
        have := Plist_lt rest h hrest hall
        omega
      rw [Plist_cons, Nat.add_assoc] at hf ⊢
      obtain ⟨f, rfl⟩ : ∃ f, fuel = f + 1 := ⟨fuel - 1, by omega⟩
      rw [heightGo_step f h (Plist rest + 1) (by omega) hb]
      exact heightGo_stk_one rest f hrest (by omega)

theorem leaf_height : ∀ (K : Nat) (ctx : List Nat) (e : Nat), stkCh ctx →
    (∀ x ∈ ctx, K ≤ x) → e < 2 ^ K →
    index_height (Plist ctx + inIdx K e) = 0
  | 0, ctx, e => by
      intro hch _ _
      rw [inIdx, index_height]
      exact heightGo_stk_one ctx _ hch le_rfl
  | K + 1, ctx, e => by
      intro hch hbd he
      by_cases h : e < 2 ^ K
      · rw [inIdx, if_pos h]
        exact leaf_height K ctx e hch (fun x hx => Nat.le_of_succ_le (hbd x hx)) h
      · rw [inIdx, if_neg h]
        have hch' : stkCh (ctx ++ [K]) :=
          stkCh_append ctx K hch (fun y hy => Nat.lt_of_succ_le (hbd y hy))
        have hbd' : ∀ x ∈ ctx ++ [K], K ≤ x := by
          intro x hx
          rcases List.mem_append.mp hx with hx | hx
          · exact Nat.le_of_succ_le (hbd x hx)
          · simp at hx
            omega
        have he' : e - 2 ^ K < 2 ^ K := by
          have e2 : (2 : Nat) ^ (K + 1) = 2 * 2 ^ K := by ring
          omega
        have := leaf_height K (ctx ++ [K]) (e - 2 ^ K) hch' hbd' he'
        rw [Plist_append_single] at this
        rw [show Plist ctx + ((2 ^ (K + 1) - 1) + inIdx K (e - 2 ^ K)) =
          Plist ctx + (2 ^ (K + 1) - 1) + inIdx K (e - 2 ^ K) by omega]
        exact this

theorem take_getD {α : Type} (ls : List α) (n e : Nat) (d : α) (h : e < n) :
    (ls.take n).getD e d = ls.getD e d := by
  rw [List.getD_eq_getElem?_getD, List.getD_eq_getElem?_getD,
    List.getElem?_take_of_lt h]

theorem drop_getD {α : Type} (ls : List α) (n e : Nat) (d : α) :
    (ls.drop n).getD e d = ls.getD (n + e) d := by
  rw [List.getD_eq_getElem?_getD, List.getD_eq_getElem?_getD, List.getElem?_drop]

theorem pathIdx_length : ∀ (K B e : Nat), (pathIdx K B e).length = K
  | 0, _, _ => rfl
  | K + 1, B, e => by
      rw [pathIdx]
      by_cases h : e < 2 ^ K
      · rw [if_pos h]
        simp [pathIdx_length K]
      · rw [if_neg h]
        simp [pathIdx_length K]

end Mmr

namespace Mmr

theorem ippGo_block : ∀ (K : Nat) (ctx : List Nat) (e c fuel : Nat),
    stkCh ctx → (∀ x ∈ ctx, K ≤ x) → e < 2 ^ K → K ≤ fuel →
    Plist ctx + (2 ^ (K + 1) - 1) ≤ c + 2 →
    ippGo fuel 0 (Plist ctx + inIdx K e) c
      = pathIdx K (Plist ctx) e ++ ippGo (fuel - K) K (Plist ctx + (2 ^ (K + 1) - 2)) c
  | 0, ctx, e, c, fuel => by
      intro _ _ _ _ _
      norm_num [inIdx, pathIdx]
  | K + 1, ctx, e, c, fuel => by
      intro hch hbd he hfuel hc
      have h2 : (2 : Nat) ≤ 2 ^ (K + 1) := by
        have : (2 : Nat) ^ 1 ≤ 2 ^ (K + 1) := Nat.pow_le_pow_right (by norm_num) (by omega)
        simpa using this
      have hE : (2 : Nat) ^ (K + 2) = 2 * 2 ^ (K + 1) := by ring
      have hstk : stkOK ctx K :=
        stkOK_of_ch ctx K hch (fun x hx => Nat.lt_of_succ_le (hbd x hx))
      by_cases he2 : e < 2 ^ K
      · rw [show inIdx (K + 1) e = inIdx K e by rw [inIdx, if_pos he2]]
        rw [ippGo_block K ctx e c fuel hch (fun x hx => Nat.le_of_succ_le (hbd x hx)) he2
          (by omega) (by omega)]
        rw [show fuel - K = (fuel - (K + 1)) + 1 by omega]
        rw [ippGo]
        dsimp only
        have hih : index_height (Plist ctx + (2 ^ (K + 1) - 2) + 1) = 0 := by
          rw [index_height]
          rw [show Plist ctx + (2 ^ (K + 1) - 2) + 1 + 1 = Plist ctx + 2 ^ (K + 1) by omega]
          exact heightGo_stk_zero ctx K _ hstk le_rfl
        rw [hih, if_neg (Nat.not_lt_zero K)]
        rw [show (2 : Nat) <<< K = 2 ^ (K + 1) by rw [Nat.shiftLeft_eq]; ring]
        rw [if_neg (show ¬ c < Plist ctx + (2 ^ (K + 1) - 2) + 2 ^ (K + 1) - 1 by omega)]
        rw [show Plist ctx + (2 ^ (K + 1) - 2) + 2 ^ (K + 1) - 1
            = Plist ctx + (2 ^ (K + 1) - 1) + (2 ^ (K + 1) - 2) by omega]
        rw [show Plist ctx + (2 ^ (K + 1) - 2) + 2 ^ (K + 1)
            = Plist ctx + (2 ^ (K + 2) - 2) by omega]
        rw [pathIdx, if_pos he2]
        simp [List.append_assoc]
      · have hch' : stkCh (ctx ++ [K]) :=
          stkCh_append ctx K hch (fun y hy => Nat.lt_of_succ_le (hbd y hy))
        have hbd' : ∀ x ∈ ctx ++ [K], K ≤ x := by
          intro x hx
          rcases List.mem_append.mp hx with hx | hx
          · exact Nat.le_of_succ_le (hbd x hx)
          · simp at hx
            omega
        have he' : e - 2 ^ K < 2 ^ K := by
          have : (2 : Nat) ^ (K + 1) = 2 * 2 ^ K := by ring
          omega
        rw [show Plist ctx + inIdx (K + 1) e
            = Plist (ctx ++ [K]) + inIdx K (e - 2 ^ K) by
          rw [inIdx, if_neg he2, Plist_append_single]
          omega]
        rw [ippGo_block K (ctx ++ [K]) (e - 2 ^ K) c fuel hch' hbd' he' (by omega)
          (by rw [Plist_append_single]; omega)]
        rw [Plist_append_single]
        rw [show fuel - K = (fuel - (K + 1)) + 1 by omega]
        rw [ippGo]
        dsimp only
        have hih : index_height (Plist ctx + (2 ^ (K + 1) - 1) + (2 ^ (K + 1) - 2) + 1)
            = K + 1 := by
          rw [index_height]
          rw [show Plist ctx + (2 ^ (K + 1) - 1) + (2 ^ (K + 1) - 2) + 1 + 1
              = Plist ctx + (2 ^ (K + 2) - 1) by omega]
          exact heightGo_stk_merge ctx K _ hstk le_rfl
        rw [hih, if_pos (Nat.lt_succ_self K)]
        rw [show (2 : Nat) <<< K = 2 ^ (K + 1) by rw [Nat.shiftLeft_eq]; ring]
        rw [show Plist ctx + (2 ^ (K + 1) - 1) + (2 ^ (K + 1) - 2) + 1 - 2 ^ (K + 1)
            = Plist ctx + (2 ^ (K + 1) - 2) by omega]
        rw [if_neg (show ¬ c < Plist ctx + (2 ^ (K + 1) - 2) by omega)]
        rw [show Plist ctx + (2 ^ (K + 1) - 1) + (2 ^ (K + 1) - 2) + 1
            = Plist ctx + (2 ^ (K + 2) - 2) by omega]
        rw [pathIdx, if_neg he2]
        simp [List.append_assoc]

theorem ippGo_stop : ∀ (fuel K : Nat) (ctx : List Nat) (c : Nat), stkCh ctx →
    (∀ x ∈ ctx, K < x) → c < Plist ctx + (2 ^ (K + 1) - 2) + (2 ^ (K + 1) - 1) →
    ippGo fuel K (Plist ctx + (2 ^ (K + 1) - 2)) c = []
  | 0, K, ctx, c => by
      intro _ _ _
      rfl
  | fuel + 1, K, ctx, c => by
      intro hch hbd hc
      have h2 : (2 : Nat) ≤ 2 ^ (K + 1) := by
        have : (2 : Nat) ^ 1 ≤ 2 ^ (K + 1) := Nat.pow_le_pow_right (by norm_num) (by omega)
        simpa using this
      rw [ippGo]
      dsimp only
      have hih : index_height (Plist ctx + (2 ^ (K + 1) - 2) + 1) = 0 := by
        rw [index_height]
        rw [show Plist ctx + (2 ^ (K + 1) - 2) + 1 + 1 = Plist ctx + 2 ^ (K + 1) by omega]
        exact heightGo_stk_zero ctx K _ (stkOK_of_ch ctx K hch hbd) le_rfl
      rw [hih, if_neg (Nat.not_lt_zero K)]
      rw [show (2 : Nat) <<< K = 2 ^ (K + 1) by rw [Nat.shiftLeft_eq]; ring]
      rw [if_pos (show c < Plist ctx + (2 ^ (K + 1) - 2) + 2 ^ (K + 1) - 1 by omega)]

end Mmr

namespace Mmr

theorem dbGet_root2 (db0 : List Bytes) (k B : Nat) (ls db2 : List Bytes)
    (h : db0.length = B) :
    dbGet (db0 ++ (specMtree k B ls ++ db2)) (B + (2 ^ (k + 1) - 2)) = specMroot k B ls := by
  have h0 : (0 : Nat) < 2 ^ (k + 1) := pow_pos (by norm_num) (k + 1)
  rw [← List.append_assoc]
  rw [dbGet_front _ _ _ (by
    rw [List.length_append, h, specMtree_length]
    omega)]
  rw [show B + (2 ^ (k + 1) - 2) = db0.length + (2 ^ (k + 1) - 2) by rw [h]]
  exact dbGet_root db0 k B ls

theorem dbGet_leaf : ∀ (K B : Nat) (ls : List Bytes) (e : Nat) (db0 db2 : List Bytes),
    db0.length = B → e < 2 ^ K → ls.length = 2 ^ K →
    dbGet (db0 ++ (specMtree K B ls ++ db2)) (B + inIdx K e) = ls.getD e []
  | 0, B, ls, e, db0, db2 => by
      intro h he hlen
      have he0 : e = 0 := by simpa using he
      subst he0
      obtain ⟨a, rfl⟩ := List.length_eq_one.mp (by simpa using hlen)
      rw [show inIdx 0 0 = 0 from rfl]
      rw [dbGet]
      rw [List.getD_append_right _ _ _ _ (by omega)]
      rw [show B + 0 - db0.length = 0 by omega]
      rfl
  | K + 1, B, ls, e, db0, db2 => by
      intro h he hlen
      have hE : (2 : Nat) ^ (K + 1) = 2 * 2 ^ K := by ring
      have h0 : (0 : Nat) < 2 ^ K := pow_pos (by norm_num) K
      rw [specMtree]
      simp only [List.append_assoc]
      by_cases he2 : e < 2 ^ K
      · rw [show inIdx (K + 1) e = inIdx K e by rw [inIdx, if_pos he2]]
        rw [dbGet_leaf K B (ls.take (2 ^ K)) e db0 _ h he2 (by rw [List.length_take]; omega)]
        rw [take_getD _ _ _ _ he2]
      · rw [show inIdx (K + 1) e = (2 ^ (K + 1) - 1) + inIdx K (e - 2 ^ K) by
          rw [inIdx, if_neg he2]]
        rw [← List.append_assoc db0 (specMtree K B (ls.take (2 ^ K)))]
        rw [show B + ((2 ^ (K + 1) - 1) + inIdx K (e - 2 ^ K))
            = (B + (2 ^ (K + 1) - 1)) + inIdx K (e - 2 ^ K) by omega]
        rw [dbGet_leaf K (B + (2 ^ (K + 1) - 1)) (ls.drop (2 ^ K)) (e - 2 ^ K)
          (db0 ++ specMtree K B (ls.take (2 ^ K))) _
          (by rw [List.length_append, h, specMtree_length])
          (by omega)
          (by rw [List.length_drop, hlen]; omega)]
        rw [drop_getD]
        rw [show 2 ^ K + (e - 2 ^ K) = e by omega]

theorem pathVals_spec : ∀ (K B : Nat) (ls : List Bytes) (e : Nat) (db0 db2 : List Bytes),
    db0.length = B → ls.length = 2 ^ K →
    (pathIdx K B e).map (dbGet (db0 ++ (specMtree K B ls ++ db2))) = pathVals K B ls e
  | 0, B, ls, e, db0, db2 => fun _ _ => rfl
  | K + 1, B, ls, e, db0, db2 => by
      intro h hlen
      have hE : (2 : Nat) ^ (K + 1) = 2 * 2 ^ K := by ring
      have h0 : (0 : Nat) < 2 ^ K := pow_pos (by norm_num) K
      rw [specMtree]
      simp only [List.append_assoc]
      by_cases he2 : e < 2 ^ K
      · rw [pathIdx, if_pos he2, pathVals, if_pos he2]
        rw [List.map_append]
        rw [pathVals_spec K B (ls.take (2 ^ K)) e db0 _ h (by rw [List.length_take]; omega)]
        simp only [List.map_cons, List.map_nil]
        rw [← List.append_assoc db0 (specMtree K B (ls.take (2 ^ K)))]
        rw [dbGet_root2 (db0 ++ specMtree K B (ls.take (2 ^ K))) K (B + (2 ^ (K + 1) - 1))
          (ls.drop (2 ^ K)) _ (by rw [List.length_append, h, specMtree_length])]
      · rw [pathIdx, if_neg he2, pathVals, if_neg he2]
        rw [List.map_append]
        simp only [List.map_cons, List.map_nil]
        rw [dbGet_root2 db0 K B (ls.take (2 ^ K)) _ h]
        rw [← List.append_assoc db0 (specMtree K B (ls.take (2 ^ K)))]
        rw [pathVals_spec K (B + (2 ^ (K + 1) - 1)) (ls.drop (2 ^ K)) (e - 2 ^ K)
          (db0 ++ specMtree K B (ls.take (2 ^ K))) _
          (by rw [List.length_append, h, specMtree_length])
          (by rw [List.length_drop, hlen]; omega)]

end Mmr

namespace Mmr

theorem vipGo_block : ∀ (K : Nat) (ctx : List Nat) (ls : List Bytes) (e : Nat)
    (root : Bytes) (ip : Nat) (rest : List Bytes),
    stkCh ctx → (∀ x ∈ ctx, K ≤ x) → e < 2 ^ K → ls.length = 2 ^ K →
    (∀ g, 1 ≤ g → g ≤ K → ancVal K (Plist ctx) ls e g ≠ root) →
    vipGo 0 (Plist ctx + inIdx K e) (ls.getD e []) root ip
        (pathVals K (Plist ctx) ls e ++ rest)
      = vipGo K (Plist ctx + (2 ^ (K + 1) - 2)) (specMroot K (Plist ctx) ls) root
          (ip + K) rest
  | 0, ctx, ls, e, root, ip, rest => by
      intro _ _ he _ _
      have he0 : e = 0 := by simpa using he
      subst he0
      have hhd : ls.getD 0 [] = ls.headD [] := by cases ls <;> rfl
      rw [show inIdx 0 0 = 0 from rfl, pathVals, List.nil_append, hhd]
      rw [show specMroot 0 (Plist ctx) ls = ls.headD [] from rfl]
      norm_num
  | K + 1, ctx, ls, e, root, ip, rest => by
      intro hch hbd he hlen hne
      have h2 : (2 : Nat) ≤ 2 ^ (K + 1) := by
        have : (2 : Nat) ^ 1 ≤ 2 ^ (K + 1) := Nat.pow_le_pow_right (by norm_num) (by omega)
        simpa using this
      have hE : (2 : Nat) ^ (K + 2) = 2 * 2 ^ (K + 1) := by ring
      have hEK : (2 : Nat) ^ (K + 1) = 2 * 2 ^ K := by ring
      have h0 : (0 : Nat) < 2 ^ K := pow_pos (by norm_num) K
      have hstk : stkOK ctx K :=
        stkOK_of_ch ctx K hch (fun x hx => Nat.lt_of_succ_le (hbd x hx))
      have hlt : (ls.take (2 ^ K)).length = 2 ^ K := by
        rw [List.length_take]
        omega
      have hld : (ls.drop (2 ^ K)).length = 2 ^ K := by
        rw [List.length_drop, hlen]
        omega
      have hKp1 : specMroot (K + 1) (Plist ctx) ls ≠ root := by
        have := hne (K + 1) (by omega) le_rfl
        rw [ancVal, if_pos le_rfl] at this
        exact this
      by_cases he2 : e < 2 ^ K
      · rw [show inIdx (K + 1) e = inIdx K e by rw [inIdx, if_pos he2]]
        rw [pathVals, if_pos he2, List.append_assoc]
        rw [show ls.getD e [] = (ls.take (2 ^ K)).getD e [] from (take_getD _ _ _ _ he2).symm]
        have hneL : ∀ g, 1 ≤ g → g ≤ K →
            ancVal K (Plist ctx) (ls.take (2 ^ K)) e g ≠ root := by
          intro g h1 hg
          have := hne g h1 (by omega)
          rw [ancVal, if_neg (by omega), if_pos he2] at this
          exact this
        rw [vipGo_block K ctx (ls.take (2 ^ K)) e root ip
          ([specMroot K (Plist ctx + (2 ^ (K + 1) - 1)) (ls.drop (2 ^ K))] ++ rest)
          hch (fun x hx => Nat.le_of_succ_le (hbd x hx)) he2 hlt hneL]
        rw [List.singleton_append, vipGo]
        dsimp only
        have hih : index_height (Plist ctx + (2 ^ (K + 1) - 2) + 1) = 0 := by
          rw [index_height]
          rw [show Plist ctx + (2 ^ (K + 1) - 2) + 1 + 1 = Plist ctx + 2 ^ (K + 1) by omega]
          exact heightGo_stk_zero ctx K _ hstk le_rfl
        rw [hih, if_neg (Nat.not_lt_zero K)]
        rw [show (2 : Nat) <<< K = 2 ^ (K + 1) by rw [Nat.shiftLeft_eq]; ring]
        rw [show Plist ctx + (2 ^ (K + 1) - 2) + 2 ^ (K + 1) + 1
            = Plist ctx + (2 ^ (K + 2) - 1) by omega]
        rw [show hash_pospair64 (Plist ctx + (2 ^ (K + 2) - 1))
            (specMroot K (Plist ctx) (ls.take (2 ^ K)))
            (specMroot K (Plist ctx + (2 ^ (K + 1) - 1)) (ls.drop (2 ^ K)))
            = specMroot (K + 1) (Plist ctx) ls by rw [specMroot]]
        rw [if_neg hKp1]
        rw [show Plist ctx + (2 ^ (K + 1) - 2) + 2 ^ (K + 1)
            = Plist ctx + (2 ^ (K + 2) - 2) by omega]
        rw [show ip + K + 1 = ip + (K + 1) by omega]
      · have hch' : stkCh (ctx ++ [K]) :=
          stkCh_append ctx K hch (fun y hy => Nat.lt_of_succ_le (hbd y hy))
        have hbd' : ∀ x ∈ ctx ++ [K], K ≤ x := by
          intro x hx
          rcases List.mem_append.mp hx with hx | hx
          · exact Nat.le_of_succ_le (hbd x hx)
          · simp at hx
            omega
        have he' : e - 2 ^ K < 2 ^ K := by omega
        rw [show Plist ctx + inIdx (K + 1) e
            = Plist ctx + (2 ^ (K + 1) - 1) + inIdx K (e - 2 ^ K) by
          rw [inIdx, if_neg he2]
          omega]
        rw [pathVals, if_neg he2, List.append_assoc]
        have hgd := drop_getD ls (2 ^ K) (e - 2 ^ K) ([] : Bytes)
        rw [show 2 ^ K + (e - 2 ^ K) = e by omega] at hgd
        rw [← hgd]
        have hneR : ∀ g, 1 ≤ g → g ≤ K →
            ancVal K (Plist (ctx ++ [K])) (ls.drop (2 ^ K)) (e - 2 ^ K) g ≠ root := by
          intro g h1 hg
          rw [Plist_append_single]
          have := hne g h1 (by omega)
          rw [ancVal, if_neg (by omega), if_neg he2] at this
          exact this
        have IH := vipGo_block K (ctx ++ [K]) (ls.drop (2 ^ K)) (e - 2 ^ K) root ip
          ([specMroot K (Plist ctx) (ls.take (2 ^ K))] ++ rest) hch' hbd' he' hld hneR
        rw [Plist_append_single] at IH
        rw [IH]
        rw [List.singleton_append, vipGo]
        dsimp only
        have hih : index_height (Plist ctx + (2 ^ (K + 1) - 1) + (2 ^ (K + 1) - 2) + 1)
            = K + 1 := by
          rw [index_height]
          rw [show Plist ctx + (2 ^ (K + 1) - 1) + (2 ^ (K + 1) - 2) + 1 + 1
              = Plist ctx + (2 ^ (K + 2) - 1) by omega]
          exact heightGo_stk_merge ctx K _ hstk le_rfl
        rw [hih, if_pos (Nat.lt_succ_self K)]
        rw [show Plist ctx + (2 ^ (K + 1) - 1) + (2 ^ (K + 1) - 2) + 2
            = Plist ctx + (2 ^ (K + 2) - 1) by omega]
        rw [show hash_pospair64 (Plist ctx + (2 ^ (K + 2) - 1))
            (specMroot K (Plist ctx) (ls.take (2 ^ K)))
            (specMroot K (Plist ctx + (2 ^ (K + 1) - 1)) (ls.drop (2 ^ K)))
            = specMroot (K + 1) (Plist ctx) ls by rw [specMroot]]
        rw [if_neg hKp1]
        rw [show Plist ctx + (2 ^ (K + 1) - 1) + (2 ^ (K + 1) - 2) + 1
            = Plist ctx + (2 ^ (K + 2) - 2) by omega]
        rw [show ip + K + 1 = ip + (K + 1) by omega]

end Mmr

namespace Mmr

theorem vipGo_block_hit (K : Nat) (ctx : List Nat) (ls : List Bytes) (e : Nat)
    (root : Bytes) (ip : Nat) (rest : List Bytes)
    (hch : stkCh ctx) (hbd : ∀ x ∈ ctx, K + 1 ≤ x) (he : e < 2 ^ (K + 1))
    (hlen : ls.length = 2 ^ (K + 1))
    (hne : ∀ g, 1 ≤ g → g ≤ K → ancVal (K + 1) (Plist ctx) ls e g ≠ root)
    (hroot : specMroot (K + 1) (Plist ctx) ls = root) :
    vipGo 0 (Plist ctx + inIdx (K + 1) e) (ls.getD e []) root ip
        (pathVals (K + 1) (Plist ctx) ls e ++ rest)
      = (true, ip + (K + 1)) := by
  have h2 : (2 : Nat) ≤ 2 ^ (K + 1) := by
    have : (2 : Nat) ^ 1 ≤ 2 ^ (K + 1) := Nat.pow_le_pow_right (by norm_num) (by omega)
    simpa using this
  have hE : (2 : Nat) ^ (K + 2) = 2 * 2 ^ (K + 1) := by ring
  have hEK : (2 : Nat) ^ (K + 1) = 2 * 2 ^ K := by ring
  have h0 : (0 : Nat) < 2 ^ K := pow_pos (by norm_num) K
  have hstk : stkOK ctx K :=
    stkOK_of_ch ctx K hch (fun x hx => Nat.lt_of_succ_le (hbd x hx))
  have hlt : (ls.take (2 ^ K)).length = 2 ^ K := by
    rw [List.length_take]
    omega
  have hld : (ls.drop (2 ^ K)).length = 2 ^ K := by
    rw [List.length_drop, hlen]
    omega
  by_cases he2 : e < 2 ^ K
  · rw [show inIdx (K + 1) e = inIdx K e by rw [inIdx, if_pos he2]]
    rw [pathVals, if_pos he2, List.append_assoc]
    rw [show ls.getD e [] = (ls.take (2 ^ K)).getD e [] from (take_getD _ _ _ _ he2).symm]
    have hneL : ∀ g, 1 ≤ g → g ≤ K →
        ancVal K (Plist ctx) (ls.take (2 ^ K)) e g ≠ root := by
      intro g h1 hg
      have := hne g h1 hg
      rw [ancVal, if_neg (by omega), if_pos he2] at this
      exact this
    rw [vipGo_block K ctx (ls.take (2 ^ K)) e root ip
      ([specMroot K (Plist ctx + (2 ^ (K + 1) - 1)) (ls.drop (2 ^ K))] ++ rest)
      hch (fun x hx => Nat.le_of_succ_le (hbd x hx)) he2 hlt hneL]
    rw [List.singleton_append, vipGo]
    dsimp only
    have hih : index_height (Plist ctx + (2 ^ (K + 1) - 2) + 1) = 0 := by
      rw [index_height]
      rw [show Plist ctx + (2 ^ (K + 1) - 2) + 1 + 1 = Plist ctx + 2 ^ (K + 1) by omega]
      exact heightGo_stk_zero ctx K _ hstk le_rfl
    rw [hih, if_neg (Nat.not_lt_zero K)]
    rw [show (2 : Nat) <<< K = 2 ^ (K + 1) by rw [Nat.shiftLeft_eq]; ring]
    rw [show Plist ctx + (2 ^ (K + 1) - 2) + 2 ^ (K + 1) + 1
        = Plist ctx + (2 ^ (K + 2) - 1) by omega]
    rw [show hash_pospair64 (Plist ctx + (2 ^ (K + 2) - 1))
        (specMroot K (Plist ctx) (ls.take (2 ^ K)))
        (specMroot K (Plist ctx + (2 ^ (K + 1) - 1)) (ls.drop (2 ^ K)))
        = specMroot (K + 1) (Plist ctx) ls by rw [specMroot]]
    rw [if_pos hroot]
    rw [show ip + K + 1 = ip + (K + 1) by omega]
  · have hch' : stkCh (ctx ++ [K]) :=
      stkCh_append ctx K hch (fun y hy => Nat.lt_of_succ_le (hbd y hy))
    have hbd' : ∀ x ∈ ctx ++ [K], K ≤ x := by
      intro x hx
      rcases List.mem_append.mp hx with hx | hx
      · exact Nat.le_of_succ_le (hbd x hx)
      · simp at hx
        omega
    have he' : e - 2 ^ K < 2 ^ K := by omega
    rw [show Plist ctx + inIdx (K + 1) e
        = Plist ctx + (2 ^ (K + 1) - 1) + inIdx K (e - 2 ^ K) by
      rw [inIdx, if_neg he2]
      omega]
    rw [pathVals, if_neg he2, List.append_assoc]
    have hgd := drop_getD ls (2 ^ K) (e - 2 ^ K) ([] : Bytes)
    rw [show 2 ^ K + (e - 2 ^ K) = e by omega] at hgd
    rw [← hgd]
    have hneR : ∀ g, 1 ≤ g → g ≤ K →
        ancVal K (Plist (ctx ++ [K])) (ls.drop (2 ^ K)) (e - 2 ^ K) g ≠ root := by
      intro g h1 hg
      rw [Plist_append_single]
      have := hne g h1 hg
      rw [ancVal, if_neg (by omega), if_neg he2] at this
      exact this
    have IH := vipGo_block K (ctx ++ [K]) (ls.drop (2 ^ K)) (e - 2 ^ K) root ip
      ([specMroot K (Plist ctx) (ls.take (2 ^ K))] ++ rest) hch' hbd' he' hld hneR
    rw [Plist_append_single] at IH
    rw [IH]
    rw [List.singleton_append, vipGo]
    dsimp only
    have hih : index_height (Plist ctx + (2 ^ (K + 1) - 1) + (2 ^ (K + 1) - 2) + 1)
        = K + 1 := by
      rw [index_height]
      rw [show Plist ctx + (2 ^ (K + 1) - 1) + (2 ^ (K + 1) - 2) + 1 + 1
          = Plist ctx + (2 ^ (K + 2) - 1) by omega]
      exact heightGo_stk_merge ctx K _ hstk le_rfl
    rw [hih, if_pos (Nat.lt_succ_self K)]
    rw [show Plist ctx + (2 ^ (K + 1) - 1) + (2 ^ (K + 1) - 2) + 2
        = Plist ctx + (2 ^ (K + 2) - 1) by omega]
    rw [show hash_pospair64 (Plist ctx + (2 ^ (K + 2) - 1))
        (specMroot K (Plist ctx) (ls.take (2 ^ K)))
        (specMroot K (Plist ctx + (2 ^ (K + 1) - 1)) (ls.drop (2 ^ K)))
        = specMroot (K + 1) (Plist ctx) ls by rw [specMroot]]
    rw [if_pos hroot]
    rw [show ip + K + 1 = ip + (K + 1) by omega]

end Mmr

namespace Mmr

theorem StackWF_suffix : ∀ (a b : List (Nat × List Bytes)), StackWF (a ++ b) → StackWF b
  | [], _ => fun h => h
  | (h, ls) :: a', b => fun hwf => StackWF_suffix a' b hwf.2.2

theorem StackWF_prefix : ∀ (a b : List (Nat × List Bytes)), StackWF (a ++ b) → StackWF a
  | [], _ => fun _ => trivial
  | (h, ls) :: a', b => fun hwf =>
      ⟨hwf.1, fun p hp => hwf.2.1 p (List.mem_append_left b hp),
        StackWF_prefix a' b hwf.2.2⟩

theorem wf_upper_lt : ∀ (upper : List (Nat × List Bytes)) (K : Nat) (ls : List Bytes)
    (lower : List (Nat × List Bytes)), StackWF (upper ++ (K, ls) :: lower) →
    ∀ p ∈ upper, p.1 < K
  | [], K, ls, lower => by
      intro _ p hp
      cases hp
  | (h, l2) :: u', K, ls, lower => by
      intro hwf p hp
      obtain ⟨_, hgt, hrest⟩ := hwf
      rcases List.mem_cons.mp hp with hp | hp
      · subst hp
        exact hgt (K, ls) (by simp)
      · exact wf_upper_lt u' K ls lower hrest p hp

theorem stkCh_of_wf : ∀ (st : List (Nat × List Bytes)), StackWF st →
    stkCh ((st.map Prod.fst).reverse)
  | [] => fun _ => trivial
  | (h, ls) :: rest => by
      intro hwf
      obtain ⟨_, hgt, hwfr⟩ := hwf
      simp only [List.map_cons, List.reverse_cons]
      refine stkCh_append _ h (stkCh_of_wf rest hwfr) ?_
      intro y hy
      simp only [List.mem_reverse, List.mem_map] at hy
      obtain ⟨p, hp, rfl⟩ := hy
      exact hgt p hp

theorem stackLen_append : ∀ (a b : List (Nat × List Bytes)),
    stackLen (a ++ b) = stackLen a + stackLen b
  | [], b => by simp [stackLen]
  | (h, ls) :: a', b => by
      rw [List.cons_append, stackLen, stackLen, stackLen_append a' b]
      omega

theorem stackDb_split : ∀ (a b : List (Nat × List Bytes)),
    ∃ db2, stackDb (a ++ b) = stackDb b ++ db2
  | [], b => ⟨[], (List.append_nil _).symm⟩
  | (h, ls) :: a', b => by
      obtain ⟨db2, hdb⟩ := stackDb_split a' b
      refine ⟨db2 ++ specMtree h (stackLen (a' ++ b)) ls, ?_⟩
      rw [List.cons_append, stackDb, hdb, List.append_assoc]

theorem pathVals_length : ∀ (K B : Nat) (ls : List Bytes) (e : Nat),
    (pathVals K B ls e).length = K
  | 0, _, _, _ => rfl
  | K + 1, B, ls, e => by
      rw [pathVals]
      by_cases h : e < 2 ^ K
      · rw [if_pos h]
        simp [pathVals_length K]
      · rw [if_neg h]
        simp [pathVals_length K]

end Mmr

/-- C3: in any complete MMR (a well-formed peak stack), for any leaf of
the peak subtree of height `K` containing it, verify_inclusion_path run
on the leaf's node value, the node values along inclusion_proof_path,
and the covering accumulator peak returns (true, length of the path);
the hypothesis `hne` rules out an accidental SHA-256 coincidence of an
intermediate ancestor hash with the peak value, which would make the
verifier exit early. -/
theorem claim_C3 (upper lower : List (Nat × List Bytes)) (K : Nat) (ls : List Bytes)
    (e : Nat) (hwf : Mmr.StackWF (upper ++ (K, ls) :: lower)) (he : e < 2 ^ K)
    (hne : ∀ g, 1 ≤ g → g < K →
      Mmr.ancVal K (Mmr.stackLen lower) ls e g ≠
        Mmr.specMroot K (Mmr.stackLen lower) ls) :
    Mmr.verify_inclusion_path (Mmr.stackLen lower + Mmr.inIdx K e)
        (Mmr.dbGet (Mmr.stackDb (upper ++ (K, ls) :: lower))
          (Mmr.stackLen lower + Mmr.inIdx K e))
        ((Mmr.inclusion_proof_path (Mmr.stackLen lower + Mmr.inIdx K e)
            (Mmr.stackLen (upper ++ (K, ls) :: lower) - 1)).map
          (Mmr.dbGet (Mmr.stackDb (upper ++ (K, ls) :: lower))))
        (Mmr.dbGet (Mmr.stackDb (upper ++ (K, ls) :: lower))
          (Mmr.stackLen lower + (2 ^ (K + 1) - 2)))
      = (true, (Mmr.inclusion_proof_path (Mmr.stackLen lower + Mmr.inIdx K e)
          (Mmr.stackLen (upper ++ (K, ls) :: lower) - 1)).length) := by
  obtain ⟨hlsl, hlgt, hwfl⟩ := Mmr.StackWF_suffix upper _ hwf
  have hupK : ∀ p ∈ upper, p.1 < K := Mmr.wf_upper_lt upper K ls lower hwf
  have hch : Mmr.stkCh ((lower.map Prod.fst).reverse) := Mmr.stkCh_of_wf lower hwfl
  have hbdS : ∀ x ∈ (lower.map Prod.fst).reverse, K < x := by
    intro x hx
    simp only [List.mem_reverse, List.mem_map] at hx
    obtain ⟨p, hp, rfl⟩ := hx
    exact hlgt p hp
  have hB : Mmr.Plist ((lower.map Prod.fst).reverse) = Mmr.stackLen lower := by
    rw [Mmr.Plist_reverse, Mmr.Plist_map_fst]
  obtain ⟨db2, hdb⟩ := Mmr.stackDb_split upper ((K, ls) :: lower)
  have hdb' : Mmr.stackDb (upper ++ (K, ls) :: lower)
      = Mmr.stackDb lower ++ (Mmr.specMtree K (Mmr.stackLen lower) ls ++ db2) := by
    rw [hdb]
    rw [show Mmr.stackDb ((K, ls) :: lower)
        = Mmr.stackDb lower ++ Mmr.specMtree K (Mmr.stackLen lower) ls from rfl]
    rw [List.append_assoc]
  have hsl : Mmr.stackLen (upper ++ (K, ls) :: lower)
      = Mmr.stackLen upper + (Mmr.stackLen lower + (2 ^ (K + 1) - 1)) := by
    rw [Mmr.stackLen_append]
    rfl
  have hwfu : Mmr.StackWF upper := Mmr.StackWF_prefix upper _ hwf
  have hup_le : Mmr.stackLen upper ≤ 2 ^ (K + 1) - 2 := by
    have h1 := Mmr.Plist_lt ((upper.map Prod.fst).reverse) K (Mmr.stkCh_of_wf upper hwfu)
      (by
        intro x hx
        simp only [List.mem_reverse, List.mem_map] at hx
        obtain ⟨p, hp, rfl⟩ := hx
        exact hupK p hp)
    rw [Mmr.Plist_reverse, Mmr.Plist_map_fst] at h1
    exact h1
  have h2 : (2 : Nat) ≤ 2 ^ (K + 1) := by
    have : (2 : Nat) ^ 1 ≤ 2 ^ (K + 1) := Nat.pow_le_pow_right (by norm_num) (by omega)
    simpa using this
  have hKlt : K < 2 ^ (K + 1) := by
    have := Nat.lt_two_pow K
    have h3 : (2 : Nat) ^ K ≤ 2 ^ (K + 1) := Nat.pow_le_pow_right (by norm_num) (by omega)
    omega
  have hlh : Mmr.index_height (Mmr.stackLen lower + Mmr.inIdx K e) = 0 := by
    rw [← hB]
    exact Mmr.leaf_height K _ e hch (fun x hx => Nat.le_of_lt (hbdS x hx)) he
  have hpath : Mmr.inclusion_proof_path (Mmr.stackLen lower + Mmr.inIdx K e)
      (Mmr.stackLen (upper ++ (K, ls) :: lower) - 1) = Mmr.pathIdx K (Mmr.stackLen lower) e := by
    rw [Mmr.inclusion_proof_path, hlh]
    rw [← hB]
    rw [Mmr.ippGo_block K ((lower.map Prod.fst).reverse) e
      (Mmr.stackLen (upper ++ (K, ls) :: lower) - 1)
      (Mmr.stackLen (upper ++ (K, ls) :: lower) - 1 + 2)
      hch (fun x hx => Nat.le_of_lt (hbdS x hx)) he
      (by omega)
      (by rw [hB]; omega)]
    rw [Mmr.ippGo_stop _ K ((lower.map Prod.fst).reverse) _ hch hbdS
      (by rw [hB]; omega)]
    rw [List.append_nil]
  have hnode : Mmr.dbGet (Mmr.stackDb (upper ++ (K, ls) :: lower))
      (Mmr.stackLen lower + Mmr.inIdx K e) = ls.getD e [] := by
    rw [hdb']
    exact Mmr.dbGet_leaf K (Mmr.stackLen lower) ls e (Mmr.stackDb lower) db2
      (Mmr.stackDb_length lower) he hlsl
  have hroot : Mmr.dbGet (Mmr.stackDb (upper ++ (K, ls) :: lower))
      (Mmr.stackLen lower + (2 ^ (K + 1) - 2)) = Mmr.specMroot K (Mmr.stackLen lower) ls := by
    rw [hdb']
    exact Mmr.dbGet_root2 (Mmr.stackDb lower) K (Mmr.stackLen lower) ls db2
      (Mmr.stackDb_length lower)
  have hvals : (Mmr.pathIdx K (Mmr.stackLen lower) e).map
      (Mmr.dbGet (Mmr.stackDb (upper ++ (K, ls) :: lower)))
      = Mmr.pathVals K (Mmr.stackLen lower) ls e := by
    rw [hdb']
    exact Mmr.pathVals_spec K (Mmr.stackLen lower) ls e (Mmr.stackDb lower) db2
      (Mmr.stackDb_length lower) hlsl
  rw [hpath, hvals, hnode, hroot, Mmr.pathIdx_length]
  cases K with
  | zero =>
      have he0 : e = 0 := by simpa using he
      subst he0
      have hcond : (Mmr.pathVals 0 (Mmr.stackLen lower) ls 0).length = 0 ∧
          ls.getD 0 [] = Mmr.specMroot 0 (Mmr.stackLen lower) ls :=
        ⟨rfl, by cases ls <;> rfl⟩
      rw [Mmr.verify_inclusion_path, if_pos hcond]
  | succ K' =>
      rw [Mmr.verify_inclusion_path]
      rw [if_neg (by
        rintro ⟨h1, _⟩
        rw [Mmr.pathVals_length] at h1
        omega)]
      rw [hlh]
      rw [show Mmr.pathVals (K' + 1) (Mmr.stackLen lower) ls e
          = Mmr.pathVals (K' + 1) (Mmr.stackLen lower) ls e ++ [] from
        (List.append_nil _).symm]
      rw [← hB]
      rw [Mmr.vipGo_block_hit K' ((lower.map Prod.fst).reverse) ls e
        (Mmr.specMroot (K' + 1) (Mmr.Plist ((lower.map Prod.fst).reverse)) ls) 0 []
        hch (fun x hx => Nat.le_of_lt (hbdS x hx)) he hlsl
        (by
          intro g h1 hg
          rw [hB]
          exact hne g h1 (by omega))
        rfl]
      norm_num

theorem claim_C3_witness :
    Mmr.StackWF ([] ++ (1, [[0], [1]]) :: []) ∧
    0 < 2 ^ 1 ∧
    (∀ g, 1 ≤ g → g < 1 →
      Mmr.ancVal 1 (Mmr.stackLen []) [[0], [1]] 0 g ≠
        Mmr.specMroot 1 (Mmr.stackLen []) [[0], [1]]) ∧
    Mmr.verify_inclusion_path (Mmr.stackLen [] + Mmr.inIdx 1 0)
        (Mmr.dbGet (Mmr.stackDb ([] ++ (1, [[0], [1]]) :: []))
          (Mmr.stackLen [] + Mmr.inIdx 1 0))
        ((Mmr.inclusion_proof_path (Mmr.stackLen [] + Mmr.inIdx 1 0)
            (Mmr.stackLen ([] ++ (1, [[0], [1]]) :: []) - 1)).map
          (Mmr.dbGet (Mmr.stackDb ([] ++ (1, [[0], [1]]) :: []))))
        (Mmr.dbGet (Mmr.stackDb ([] ++ (1, [[0], [1]]) :: []))
          (Mmr.stackLen [] + (2 ^ (1 + 1) - 2)))
      = (true, (Mmr.inclusion_proof_path (Mmr.stackLen [] + Mmr.inIdx 1 0)
          (Mmr.stackLen ([] ++ (1, [[0], [1]]) :: []) - 1)).length) := by
  refine ⟨⟨rfl, by simp, trivial⟩, by decide,
    fun g h1 h2 => absurd (Nat.lt_of_le_of_lt h1 h2) (lt_irrefl 1), ?_⟩
  exact claim_C3 [] [] 1 [[0], [1]] 0 ⟨rfl, by simp, trivial⟩ (by decide)
    (fun g h1 h2 => absurd (Nat.lt_of_le_of_lt h1 h2) (lt_irrefl 1))
